import Mathlib

/-
  Verification of the garden-groups subsystem (day12/cpp/cpp/garden_groups.cpp):
  region discovery by recursive flood fill, perimeter/area fence pricing, and
  region-side counting.  The C++ classes are embedded shallowly: the mutable
  `visited_garden_plots` matrix becomes a list of visited coordinates threaded
  through the recursion, the recursive `traverse_from_position` becomes a
  fuel-indexed recursion (the fuel `rows*cols+1` dominates the C++ recursion
  depth), and the `unordered_map` iteration order over the four directions is
  a parameter `ord`.
-/

namespace GardenGroups

/-- Status of a cell side during traversal (enum SideStatus). -/
inductive SideStatus where
  | adjacentToOtherPlantType
  | outOfBounds
  | available
  | visited
deriving DecidableEq

/-- Orientation of a cell side (enum SideOrientation). -/
inductive SideOrientation where
  | upper
  | lower
  | left
  | right
deriving DecidableEq

instance : Fintype SideOrientation where
  elems :=
    ⟨([SideOrientation.upper, SideOrientation.lower, SideOrientation.left,
        SideOrientation.right] : List SideOrientation), by decide⟩
  complete := fun x => by cases x <;> decide

/-- A coordinate on the map (class Position): x is the column, y the row. -/
structure Position where
  x_position : Int
  y_position : Int
deriving DecidableEq

/-- The four-entry `side_status_map` of a TraversePosition, one status per
orientation (the C++ `unordered_map<SideOrientation, SideStatus>` always holds
exactly the four keys once `Region::update_side_status` ran). -/
structure SideStatusMap where
  upper : SideStatus
  lower : SideStatus
  left : SideStatus
  right : SideStatus
deriving DecidableEq

def SideStatusMap.get (m : SideStatusMap) : SideOrientation → SideStatus
  | .upper => m.upper
  | .lower => m.lower
  | .left => m.left
  | .right => m.right

/-- `TraversePosition::update_side_status` on the map: point update. -/
def SideStatusMap.set (m : SideStatusMap) (o : SideOrientation) (s : SideStatus) :
    SideStatusMap :=
  match o with
  | .upper => { m with upper := s }
  | .lower => { m with lower := s }
  | .left => { m with left := s }
  | .right => { m with right := s }

/-- A position with its plant value and side statuses (class TraversePosition). -/
structure TraversePosition where
  x_position : Int
  y_position : Int
  value : Char
  side_status_map : SideStatusMap
deriving DecidableEq

/-- The garden grid, as in the C++ `std::vector<std::vector<char>>`. -/
abbrev Grid := List (List Char)

def gridRows (g : Grid) : Int := (g.length : Int)

/-- `garden[0].size()` as used by the source for the column extent. -/
def gridCols (g : Grid) : Int := ((g.headD []).length : Int)

/-- `garden[r][c]` (only ever evaluated at in-bounds indices in the source). -/
def cellAt (g : Grid) (r c : Int) : Char := (g.getD r.toNat []).getD c.toNat '.'

/-- Rectangularity of the grid: all rows have the length of row 0. -/
def Rect (g : Grid) : Prop := ∀ row ∈ g, (row.length : Int) = gridCols g

instance (g : Grid) : Decidable (Rect g) := by
  unfold Rect
  infer_instance

/-- Lookup in the `visited_garden_plots` boolean matrix, modelled as the list
of coordinates set to true. -/
def isVisited (v : List Position) (r c : Int) : Bool :=
  v.any fun p => p.x_position == c && p.y_position == r

/-- `Region::update_side_status`: classify the four sides of cell (x, y)
for a region of the given plant, mirroring the source's four if/else chains
(bounds test first, then plant comparison, then visited test). -/
def update_side_status (plant : Char) (g : Grid) (v : List Position)
    (x y : Int) : SideStatusMap :=
  { upper :=
      if y - 1 < 0 then .outOfBounds
      else if cellAt g (y - 1) x ≠ plant then .adjacentToOtherPlantType
      else if isVisited v (y - 1) x then .visited
      else .available
    lower :=
      if y + 1 > gridRows g - 1 then .outOfBounds
      else if cellAt g (y + 1) x ≠ plant then .adjacentToOtherPlantType
      else if isVisited v (y + 1) x then .visited
      else .available
    left :=
      if x - 1 < 0 then .outOfBounds
      else if cellAt g y (x - 1) ≠ plant then .adjacentToOtherPlantType
      else if isVisited v y (x - 1) then .visited
      else .available
    right :=
      if x + 1 > gridCols g - 1 then .outOfBounds
      else if cellAt g y (x + 1) ≠ plant then .adjacentToOtherPlantType
      else if isVisited v y (x + 1) then .visited
      else .available }

/-- `Region::get_traverse_position`: none when (r, c) is out of the garden
bounds, otherwise the TraversePosition with freshly classified sides. -/
def get_traverse_position (plant : Char) (g : Grid) (v : List Position)
    (r c : Int) : Option TraversePosition :=
  if r < 0 ∨ r ≥ gridRows g ∨ c < 0 ∨ c ≥ gridCols g then none
  else some { x_position := c, y_position := r, value := cellAt g r c,
              side_status_map := update_side_status plant g v c r }

/-- The (row, column) neighbour reached from (r, c) through side `o`
(the `switch (side_orientation)` in `traverse_from_position`). -/
def stepPos (o : SideOrientation) (r c : Int) : Int × Int :=
  match o with
  | .lower => (r + 1, c)
  | .upper => (r - 1, c)
  | .right => (r, c + 1)
  | .left => (r, c - 1)

/-- The opposite direction (`opposite_direction` in `traverse_from_position`). -/
def opposite : SideOrientation → SideOrientation
  | .upper => .lower
  | .lower => .upper
  | .left => .right
  | .right => .left

/-- The mutable Region traversal state: visited matrix and collected plots. -/
structure RegionState where
  visited_garden_plots : List Position
  traverse_positions : List TraversePosition
deriving DecidableEq

def markVisited (st : RegionState) (r c : Int) : RegionState :=
  { st with visited_garden_plots := ⟨c, r⟩ :: st.visited_garden_plots }

def pushPosition (st : RegionState) (tp : TraversePosition) : RegionState :=
  { st with traverse_positions := st.traverse_positions ++ [tp] }

/-- The loop body of `Region::traverse_from_position` over the remaining
directions `dirs`.  `recur` stands for the recursive call
`traverse_from_position` (passed as an argument so that the whole traversal
is structural recursion on the fuel), and `tp` is the current position: a
local copy in the C++, so the VISITED updates the source performs on it after
its snapshot was pushed affect nothing observable and are dropped. -/
def traverse_dirs_loop (plant : Char) (g : Grid)
    (recur : TraversePosition → RegionState → RegionState)
    (tp : TraversePosition) (dirs : List SideOrientation)
    (st : RegionState) : RegionState :=
  match dirs with
  | [] => st
  | o :: rest =>
    if tp.side_status_map.get o ≠ SideStatus.available then
      traverse_dirs_loop plant g recur tp rest st
    else
      let rc := stepPos o tp.y_position tp.x_position
      match get_traverse_position plant g st.visited_garden_plots rc.1 rc.2 with
      | none => traverse_dirs_loop plant g recur tp rest st
      | some ntp =>
        if ntp.value = plant ∧ isVisited st.visited_garden_plots rc.1 rc.2 = false then
          let ntp2 : TraversePosition :=
            { ntp with side_status_map := ntp.side_status_map.set (opposite o) .visited }
          let st1 := pushPosition (markVisited st rc.1 rc.2) ntp2
          traverse_dirs_loop plant g recur tp rest (recur ntp2 st1)
        else
          traverse_dirs_loop plant g recur tp rest st

/-- `Region::traverse_from_position`: mark the cell visited, then explore the
four sides in the iteration order `ord` of the side-status map; the fuel
bounds the recursion depth (the C++ recursion enters a fresh unvisited cell
at every nesting level, so fuel `rows*cols+1` is never exhausted). -/
def traverse_from_position (fuel : Nat) (ord : List SideOrientation) (plant : Char)
    (g : Grid) (tp : TraversePosition) (st : RegionState) : RegionState :=
  match fuel with
  | 0 => st
  | f + 1 =>
    traverse_dirs_loop plant g (traverse_from_position f ord plant g) tp ord
      (markVisited st tp.y_position tp.x_position)

/-- `Region::get_region_plots` from a fresh (all-false) visited matrix:
build the TraversePosition of the seed, record it, and traverse. -/
def get_region_plots (fuel : Nat) (ord : List SideOrientation) (plant : Char)
    (g : Grid) (r c : Int) : RegionState :=
  match get_traverse_position plant g [] r c with
  | none => { visited_garden_plots := [], traverse_positions := [] }
  | some tp =>
    traverse_from_position fuel ord plant g tp
      { visited_garden_plots := [], traverse_positions := [tp] }

/-- Fuel that strictly dominates the C++ recursion depth. -/
def regionFuel (g : Grid) : Nat := g.length * (g.headD []).length + 1

/-- The Region constructor as invoked by `Gardener::get_plant_region`:
plant is the character at the seed. -/
def buildRegion (ord : List SideOrientation) (g : Grid) (r c : Int) : RegionState :=
  get_region_plots (regionFuel g) ord (cellAt g r c) g r c

/-- The four orientations in declaration order; one admissible iteration
order of the status map. -/
def orientations : List SideOrientation := [.upper, .lower, .left, .right]

/-- A side status that contributes to the fence. -/
def isBoundaryStatus (s : SideStatus) : Bool :=
  s == SideStatus.adjacentToOtherPlantType || s == SideStatus.outOfBounds

/-- `TraversePosition::get_number_of_perimeter_sides`. -/
def get_number_of_perimeter_sides (tp : TraversePosition) : Nat :=
  (orientations.filter fun o => isBoundaryStatus (tp.side_status_map.get o)).length

/-- `Region::get_area`. -/
def get_area (rs : RegionState) : Nat := rs.traverse_positions.length

/-- `Region::get_perimeter`. -/
def get_perimeter (rs : RegionState) : Nat :=
  rs.traverse_positions.foldl (fun acc tp => acc + get_number_of_perimeter_sides tp) 0

/-- A region side (class RegionSide). -/
structure RegionSide where
  orientation : SideOrientation
  start_position : Position
  end_position : Position
deriving DecidableEq

/-- `RegionSide::get_end_position`: keep the search positions on the line of
`start_position`, sort them along the side's axis, and extend the end
coordinate through consecutive boundary-status positions.  `std::sort` is
modelled by insertion sort: the filtered positions of an actual region have
pairwise distinct keys, for which every comparison sort produces the same
list. -/
def get_end_position (orientation : SideOrientation) (start_position : Position)
    (search_positions : List TraversePosition) : Position :=
  if orientation = SideOrientation.left ∨ orientation = SideOrientation.right then
    let kept := search_positions.filter fun tp =>
      tp.x_position == start_position.x_position
    let sorted := List.insertionSort
      (fun a b : TraversePosition => a.y_position ≤ b.y_position) kept
    let maxY := sorted.foldl
      (fun m tp =>
        if tp.y_position = m + 1 ∧ isBoundaryStatus (tp.side_status_map.get orientation) then
          tp.y_position
        else m)
      start_position.y_position
    { x_position := start_position.x_position, y_position := maxY }
  else
    let kept := search_positions.filter fun tp =>
      tp.y_position == start_position.y_position
    let sorted := List.insertionSort
      (fun a b : TraversePosition => a.x_position ≤ b.x_position) kept
    let maxX := sorted.foldl
      (fun m tp =>
        if tp.x_position = m + 1 ∧ isBoundaryStatus (tp.side_status_map.get orientation) then
          tp.x_position
        else m)
      start_position.x_position
    { x_position := maxX, y_position := start_position.y_position }

/-- The RegionSide constructor. -/
def RegionSide.make (orientation : SideOrientation) (start_position : Position)
    (search_positions : List TraversePosition) : RegionSide :=
  ⟨orientation, start_position, get_end_position orientation start_position search_positions⟩

/-- `RegionSide::operator==` with `a` the receiver (`this`) and `b` the
argument (`other`). -/
def regionSideEq (a b : RegionSide) : Bool :=
  if a.orientation ≠ b.orientation then false
  else if b.start_position = a.start_position ∧ b.end_position = a.end_position then true
  else if a.orientation = SideOrientation.left ∨ a.orientation = SideOrientation.right then
    if b.start_position.x_position ≠ a.start_position.x_position then false
    else if b.start_position.y_position < a.start_position.y_position ∧
        b.end_position.y_position < a.start_position.y_position then false
    else if b.start_position.y_position > a.end_position.y_position ∧
        b.end_position.y_position > a.end_position.y_position then false
    else true
  else
    if b.start_position.y_position ≠ a.start_position.y_position then false
    else if b.start_position.x_position < a.start_position.x_position ∧
        b.end_position.x_position < a.start_position.x_position then false
    else if b.start_position.x_position > a.end_position.x_position ∧
        b.end_position.x_position > a.end_position.x_position then false
    else true

/-- The duplicate check of `Region::get_num_of_region_sides`: append the
candidate unless an already-recorded side compares equal to it. -/
def insertSide (acc : List RegionSide) (rsd : RegionSide) : List RegionSide :=
  if acc.any (fun ex => regionSideEq rsd ex) then acc else acc ++ [rsd]

/-- `Region::get_num_of_region_sides`. -/
def get_num_of_region_sides (rs : RegionState) : Nat :=
  if rs.traverse_positions.isEmpty then 0
  else
    (rs.traverse_positions.foldl
      (fun acc tp =>
        orientations.foldl
          (fun acc2 o =>
            if isBoundaryStatus (tp.side_status_map.get o) then
              insertSide acc2
                (RegionSide.make o ⟨tp.x_position, tp.y_position⟩ rs.traverse_positions)
            else acc2)
          acc)
      []).length

/-- `Region::get_fence_pricing`. -/
def region_get_fence_pricing (withSides : Bool) (rs : RegionState) : Nat :=
  if rs.traverse_positions.isEmpty then 0
  else if withSides then get_area rs * get_num_of_region_sides rs
  else get_area rs * get_perimeter rs

/-- The row-major traversal order of `Gardener::find_garden_groups`
(the inner bound is `garden[r].size()`, per row as in the source). -/
def gardenCellList (g : Grid) : List (Int × Int) :=
  (List.range g.length).flatMap fun r =>
    (List.range (g.getD r []).length).map fun c => (Int.ofNat r, Int.ofNat c)

/-- The Gardener's own visited matrix plus the regions found so far.  The
C++ groups the regions into `GardenGroup`s keyed by plant; the flat list in
discovery order carries the same multiset of regions, which is all the
pricing sum and the partition statements depend on. -/
structure GardenerState where
  visited_garden_plots : List Position
  regions : List RegionState

/-- One iteration of the `find_garden_groups` double loop. -/
def gardenerStep (ord : List SideOrientation) (g : Grid) (gs : GardenerState)
    (rc : Int × Int) : GardenerState :=
  if isVisited gs.visited_garden_plots rc.1 rc.2 then gs
  else
    let vis1 : List Position := ⟨rc.2, rc.1⟩ :: gs.visited_garden_plots
    let reg := buildRegion ord g rc.1 rc.2
    let vis2 := reg.traverse_positions.foldl
      (fun v tp => (⟨tp.x_position, tp.y_position⟩ : Position) :: v) vis1
    { visited_garden_plots := vis2, regions := gs.regions ++ [reg] }

/-- `Gardener::find_garden_groups`, flattened to the region list. -/
def find_garden_groups (ord : List SideOrientation) (g : Grid) : List RegionState :=
  ((gardenCellList g).foldl (gardenerStep ord g) ⟨[], []⟩).regions

/-- `Gardener::get_fence_pricing`: sum of the region fence prices. -/
def get_fence_pricing (ord : List SideOrientation) (withSides : Bool) (g : Grid) : Nat :=
  (find_garden_groups ord g).foldl
    (fun acc r => acc + region_get_fence_pricing withSides r) 0

/-! ### Derived notions used to state and prove the properties -/

/-- The coordinate of a TraversePosition. -/
def tpPos (tp : TraversePosition) : Position := ⟨tp.x_position, tp.y_position⟩

/-- The neighbouring coordinate through side `o`. -/
def nbrPos (o : SideOrientation) (p : Position) : Position :=
  ⟨(stepPos o p.y_position p.x_position).2, (stepPos o p.y_position p.x_position).1⟩

/-- A coordinate lies inside the garden extents. -/
def inBoundsPos (g : Grid) (p : Position) : Prop :=
  0 ≤ p.y_position ∧ p.y_position < gridRows g ∧
    0 ≤ p.x_position ∧ p.x_position < gridCols g

instance (g : Grid) (p : Position) : Decidable (inBoundsPos g p) := by
  unfold inBoundsPos; infer_instance

/-- A coordinate inside the garden holding the given plant. -/
def validCell (g : Grid) (plant : Char) (p : Position) : Prop :=
  inBoundsPos g p ∧ cellAt g p.y_position p.x_position = plant

instance (g : Grid) (plant : Char) (p : Position) : Decidable (validCell g plant p) := by
  unfold validCell; infer_instance

/-- 4-connected reachability through cells of the given plant (the
characterisation of the connected component grown by the flood fill). -/
inductive Reach (g : Grid) (plant : Char) : Position → Position → Prop
  | refl (p : Position) : Reach g plant p p
  | step {p q : Position} (o : SideOrientation) :
      Reach g plant p q → validCell g plant (nbrPos o q) → Reach g plant p (nbrPos o q)

/-- The edge classification exactly as the specification words it (claim C4):
OUT_OF_BOUNDS iff the neighbour falls outside the grid extents, otherwise
ADJACENT_TO_OTHER_PLANT_TYPE iff the neighbour's label differs from the
region's plant, otherwise VISITED iff the neighbour was already visited,
otherwise AVAILABLE; a pure function of grid, visited set and coordinate. -/
def statusSpec (plant : Char) (g : Grid) (v : List Position) (p : Position)
    (o : SideOrientation) : SideStatus :=
  if ¬ inBoundsPos g (nbrPos o p) then .outOfBounds
  else if cellAt g (nbrPos o p).y_position (nbrPos o p).x_position ≠ plant then
    .adjacentToOtherPlantType
  else if isVisited v (nbrPos o p).y_position (nbrPos o p).x_position then .visited
  else .available

/-- All grid coordinates as Positions. -/
def allCellsList (g : Grid) : List Position :=
  (gardenCellList g).map fun rc => ⟨rc.2, rc.1⟩

/-- The in-grid cells holding the given plant, as a finite set. -/
def validFinset (g : Grid) (plant : Char) : Finset Position :=
  (allCellsList g).toFinset.filter fun p => cellAt g p.y_position p.x_position = plant

/-- Number of same-plant cells not yet visited (the fuel budget measure). -/
def freshCount (g : Grid) (plant : Char) (st : RegionState) : Nat :=
  ((validFinset g plant).filter fun p => p ∉ st.visited_garden_plots).card

/-- All same-plant neighbours of `p` are visited in `v`. -/
def ClosedAt (g : Grid) (plant : Char) (v : List Position) (p : Position) : Prop :=
  ∀ o, validCell g plant (nbrPos o p) → nbrPos o p ∈ v

/-- The invariants of a TraversePosition handed to the traversal: a valid
cell whose AVAILABLE sides point at valid cells, whose VISITED sides point
at cells already in the visited list, and whose statuses cover every valid
neighbour with AVAILABLE or VISITED. -/
def GoodTP (plant : Char) (g : Grid) (v : List Position) (tp : TraversePosition) : Prop :=
  validCell g plant (tpPos tp) ∧
  (∀ o, tp.side_status_map.get o = .available → validCell g plant (nbrPos o (tpPos tp))) ∧
  (∀ o, tp.side_status_map.get o = .visited → nbrPos o (tpPos tp) ∈ v) ∧
  (∀ o, validCell g plant (nbrPos o (tpPos tp)) →
    tp.side_status_map.get o = .available ∨ tp.side_status_map.get o = .visited)

/-- The permanent facts about a snapshot stored in `traverse_positions`:
the cell is a valid region cell carrying the plant, and its boundary-side
statuses characterise the grid geometry (the AVAILABLE/VISITED split of
the non-boundary sides is entry-time dependent and not recorded here). -/
def StoredOK (plant : Char) (g : Grid) (tp : TraversePosition) : Prop :=
  validCell g plant (tpPos tp) ∧ tp.value = plant ∧
  ∀ o, (tp.side_status_map.get o = .outOfBounds ↔ ¬ inBoundsPos g (nbrPos o (tpPos tp))) ∧
    (tp.side_status_map.get o = .adjacentToOtherPlantType ↔
      (inBoundsPos g (nbrPos o (tpPos tp)) ∧
        cellAt g (nbrPos o (tpPos tp)).y_position (nbrPos o (tpPos tp)).x_position ≠ plant))

/-- The coordinates of the collected plots of a region. -/
def regionCoords (rs : RegionState) : List Position :=
  rs.traverse_positions.map tpPos

/-- The dedup scan of `get_num_of_region_sides`, over an explicit list. -/
def dedupSides (l : List RegionSide) : List RegionSide := l.foldl insertSide []

/-- The candidate sides generated by `get_num_of_region_sides`, in scan
order. -/
def sideCandidates (positions : List TraversePosition) : List RegionSide :=
  positions.flatMap fun tp =>
    (orientations.filter fun o => isBoundaryStatus (tp.side_status_map.get o)).map
      fun o => RegionSide.make o ⟨tp.x_position, tp.y_position⟩ positions

/-- The deduplication key of a candidate side: its orientation together with
its end position (candidates of one maximal boundary run share the end). -/
def sideKey (rsd : RegionSide) : SideOrientation × Position :=
  (rsd.orientation, rsd.end_position)

/-- The number of directions of a cell whose neighbour is not a valid
same-plant cell (the geometric content of a stored perimeter count). -/
def boundaryCount (g : Grid) (plant : Char) (p : Position) : Nat :=
  ((Finset.univ : Finset SideOrientation).filter
    fun o => ¬ validCell g plant (nbrPos o p)).card

/-- The number of directions of a cell whose neighbour lies in `S`. -/
def degreeIn (S : Finset Position) (p : Position) : Nat :=
  ((Finset.univ : Finset SideOrientation).filter fun o => nbrPos o p ∈ S).card

/-- The directed adjacencies inside `S`. -/
def innerEdges (S : Finset Position) : Finset (Position × SideOrientation) :=
  (S ×ˢ (Finset.univ : Finset SideOrientation)).filter fun q => nbrPos q.2 q.1 ∈ S

/-- The cells of `S` whose `o`-side is a boundary edge (the neighbour
through `o` is not in `S`). -/
def edgeSet (S : Finset Position) (o : SideOrientation) : Finset Position :=
  S.filter fun p => nbrPos o p ∉ S

/-- The axis along which a run of `o`-sides extends (`get_end_position`
extends LEFT/RIGHT sides through increasing y and UPPER/LOWER sides through
increasing x). -/
def alongDir (o : SideOrientation) : SideOrientation :=
  match o with
  | .left => .lower
  | .right => .lower
  | .upper => .right
  | .lower => .right

/-- The final cell of each maximal run of `o`-boundary edges. -/
def runEndSet (S : Finset Position) (o : SideOrientation) : Finset Position :=
  (edgeSet S o).filter fun p => nbrPos (alongDir o) p ∉ edgeSet S o

/-- The scan of `get_end_position` over an explicit list: extend the running
end coordinate through list entries whose key is the successor of the
current end and whose tracked side has boundary status. -/
def endScan (key : TraversePosition → Int) (bd : TraversePosition → Bool)
    (l : List TraversePosition) (m : Int) : Int :=
  l.foldl (fun m tp => if key tp = m + 1 ∧ bd tp then key tp else m) m

/-- Cells of `S` whose maximal run of `o`-boundary edges continues past them
(the complement of `runEndSet` inside `edgeSet`). -/
def consecSet (S : Finset Position) (o : SideOrientation) : Finset Position :=
  (edgeSet S o).filter fun p => nbrPos (alongDir o) p ∈ edgeSet S o

/-- Anchors (top-left cells) of the 2x2 windows meeting `S`. -/
def windowBase (S : Finset Position) : Finset Position :=
  ((S ∪ S.image (nbrPos SideOrientation.left)) ∪
    S.image (nbrPos SideOrientation.upper)) ∪
    S.image fun p => nbrPos SideOrientation.upper (nbrPos SideOrientation.left p)

/-- The 2x2 windows meeting `S` whose four cells (anchor, its right, its
lower, its lower-right neighbour) match the given membership pattern. -/
def winPat (S : Finset Position) (pa pb pc pd : Bool) : Finset Position :=
  (windowBase S).filter fun a =>
    ((a ∈ S) ↔ pa = true) ∧
    ((nbrPos SideOrientation.right a ∈ S) ↔ pb = true) ∧
    ((nbrPos SideOrientation.lower a ∈ S) ↔ pc = true) ∧
    ((nbrPos SideOrientation.right (nbrPos SideOrientation.lower a) ∈ S) ↔ pd = true)

instance : IsTotal TraversePosition fun a b => a.y_position ≤ b.y_position :=
  ⟨fun a b => Int.le_total a.y_position b.y_position⟩

instance : IsTrans TraversePosition fun a b => a.y_position ≤ b.y_position :=
  ⟨fun _ _ _ h1 h2 => le_trans h1 h2⟩

instance : IsTotal TraversePosition fun a b => a.x_position ≤ b.x_position :=
  ⟨fun a b => Int.le_total a.x_position b.x_position⟩

instance : IsTrans TraversePosition fun a b => a.x_position ≤ b.x_position :=
  ⟨fun _ _ _ h1 h2 => le_trans h1 h2⟩

/-! ### Concrete scenario data -/

/-- The 4x4 example garden of `GardenGroupsTest.GetAFencePricing`. -/
def gridA4 : Grid :=
  [['A', 'A', 'A', 'A'],
   ['B', 'B', 'C', 'D'],
   ['B', 'B', 'C', 'C'],
   ['E', 'E', 'E', 'C']]

/-- The 6x6 example garden of `GardenGroupsTest.GetABFencePricingWithSides`:
an A region fully enclosing two 2x2 B blocks. -/
def gridAB6 : Grid :=
  [['A', 'A', 'A', 'A', 'A', 'A'],
   ['A', 'A', 'A', 'B', 'B', 'A'],
   ['A', 'A', 'A', 'B', 'B', 'A'],
   ['A', 'B', 'B', 'A', 'A', 'A'],
   ['A', 'B', 'B', 'A', 'A', 'A'],
   ['A', 'A', 'A', 'A', 'A', 'A']]

/-- A one-row two-cell garden of a single plant. -/
def gridAA : Grid := [['A', 'A']]

/-- A 2x2 garden of a single plant. -/
def gridA22 : Grid := [['A', 'A'], ['A', 'A']]

/-- A second admissible iteration order of the four directions. -/
def ordURLD : List SideOrientation := [.upper, .right, .lower, .left]

/-- The permanent outcome of `Region` construction from a seed: plots have
pairwise distinct coordinates, the coordinates are exactly the 4-connected
same-plant component of the seed, every stored plot satisfies the geometric
status characterisation, and the visited matrix agrees with the plots. -/
def RegionOK (g : Grid) (plant : Char) (seed : Position) (rs : RegionState) : Prop :=
  (regionCoords rs).Nodup ∧
  (∀ p, p ∈ regionCoords rs ↔ Reach g plant seed p) ∧
  (∀ tp ∈ rs.traverse_positions, StoredOK plant g tp) ∧
  (∀ p, p ∈ rs.visited_garden_plots ↔ p ∈ regionCoords rs)

/-- The collected plots and the visited matrix list the same coordinates. -/
def SyncInv (st : RegionState) : Prop :=
  ∀ p, p ∈ regionCoords st ↔ p ∈ st.visited_garden_plots

/-- The coordinates of a region's plots as a finite set. -/
def regionFinset (rs : RegionState) : Finset Position :=
  (regionCoords rs).toFinset

/-- The safety part of the traversal's behaviour between an entry state and
an exit state, relative to the cell `tp` being traversed: the visited set
grows, the plots are appended to, every newly visited coordinate is a valid
cell reachable from `tp`, and every newly stored plot is a sound snapshot of
a cell reachable from `tp`. -/
def TravA (g : Grid) (plant : Char) (tp : TraversePosition)
    (st st' : RegionState) : Prop :=
  (∀ p, p ∈ st.visited_garden_plots → p ∈ st'.visited_garden_plots) ∧
  (∃ l, st'.traverse_positions = st.traverse_positions ++ l) ∧
  (∀ p, p ∈ st'.visited_garden_plots → p ∈ st.visited_garden_plots ∨
    (validCell g plant p ∧ Reach g plant (tpPos tp) p)) ∧
  (∀ t, t ∈ st'.traverse_positions → t ∈ st.traverse_positions ∨
    (StoredOK plant g t ∧ Reach g plant (tpPos tp) (tpPos t)))

/-- The loop invariant of `Gardener::find_garden_groups`: every collected
region was built from an in-bounds seed and satisfies `RegionOK`, the
Gardener's visited matrix holds exactly the cells of the collected regions,
and the collected regions are pairwise disjoint. -/
def GardenerInv (g : Grid) (ord : List SideOrientation) (gs : GardenerState) : Prop :=
  (∀ rs ∈ gs.regions, ∃ s : Position, inBoundsPos g s ∧
    rs = buildRegion ord g s.y_position s.x_position ∧
    RegionOK g (cellAt g s.y_position s.x_position) s rs) ∧
  (∀ p, p ∈ gs.visited_garden_plots ↔ ∃ rs ∈ gs.regions, p ∈ regionCoords rs) ∧
  List.Pairwise (fun r1 r2 => ∀ p, p ∈ regionCoords r1 → p ∉ regionCoords r2)
    gs.regions

/-- The hypotheses on the in-flight cell needed by the safety argument. -/
def TPSafe (g : Grid) (plant : Char) (tp : TraversePosition) : Prop :=
  validCell g plant (tpPos tp) ∧
  (∀ o, tp.side_status_map.get o = SideStatus.available →
    validCell g plant (nbrPos o (tpPos tp)))

/-- The full safety contract of a traversal call on `tp` from `st`:
behavioural envelope, conditional preservation of the plot/visited
synchronisation, and conditional preservation of plot distinctness (the
condition being the synchronisation shape holding before the call, where
`tp` itself may be recorded but not yet marked). -/
def TravAC (g : Grid) (plant : Char) (tp : TraversePosition)
    (st st' : RegionState) : Prop :=
  TravA g plant tp st st' ∧
  ((∀ p, p ∈ regionCoords st ↔ (p ∈ st.visited_garden_plots ∨ p = tpPos tp)) →
    ((∀ p, p ∈ regionCoords st' ↔ (p ∈ st'.visited_garden_plots ∨ p = tpPos tp)) ∧
      ((regionCoords st).Nodup → (regionCoords st').Nodup)))

/-! ### Basic lemmas -/

theorem isVisited_iff (v : List Position) (r c : Int) :
    isVisited v r c = true ↔ (⟨c, r⟩ : Position) ∈ v := by
  unfold isVisited
  rw [List.any_eq_true]
  constructor
  · rintro ⟨p, hp, hb⟩
    rw [Bool.and_eq_true, beq_iff_eq, beq_iff_eq] at hb
    obtain ⟨hx, hy⟩ := hb
    cases p
    simp only at hx hy
    subst hx; subst hy; exact hp
  · intro hp
    exact ⟨⟨c, r⟩, hp, by simp⟩

theorem nbrPos_opposite (o : SideOrientation) (p : Position) :
    nbrPos (opposite o) (nbrPos o p) = p := by
  cases p with
  | mk x y => cases o <;> simp [nbrPos, stepPos, opposite]

theorem opposite_opposite (o : SideOrientation) : opposite (opposite o) = o := by
  cases o <;> rfl

theorem Reach.trans {g : Grid} {plant : Char} {p q r : Position}
    (h1 : Reach g plant p q) (h2 : Reach g plant q r) : Reach g plant p r := by
  induction h2 with
  | refl => exact h1
  | step o _ hv ih => exact Reach.step o ih hv

theorem Reach.valid_or_eq {g : Grid} {plant : Char} {p q : Position}
    (h : Reach g plant p q) : q = p ∨ validCell g plant q := by
  induction h with
  | refl => exact Or.inl rfl
  | step o _ hv _ => exact Or.inr hv

theorem Reach.valid {g : Grid} {plant : Char} {p q : Position}
    (h : Reach g plant p q) (hp : validCell g plant p) : validCell g plant q := by
  rcases h.valid_or_eq with h | h
  · exact h ▸ hp
  · exact h

theorem Reach.symm {g : Grid} {plant : Char} {p q : Position}
    (hp : validCell g plant p) (h : Reach g plant p q) : Reach g plant q p := by
  induction h with
  | refl => exact Reach.refl p
  | @step q' o hq hv ih =>
    have hq' : validCell g plant q' := hq.valid hp
    have hback : Reach g plant (nbrPos o q') q' := by
      have hst0 : Reach g plant (nbrPos o q')
          (nbrPos (opposite o) (nbrPos o q')) :=
        Reach.step (opposite o) (Reach.refl (nbrPos o q'))
          (by rw [nbrPos_opposite]; exact hq')
      rwa [nbrPos_opposite] at hst0
    exact hback.trans ih

theorem Reach.of_adjacent {g : Grid} {plant : Char} {p : Position} (o : SideOrientation)
    (hv : validCell g plant (nbrPos o p)) : Reach g plant p (nbrPos o p) :=
  Reach.step o (Reach.refl p) hv

/-- The four if/else chains of `Region::update_side_status` compute, at every
in-bounds cell and for each direction, exactly the specified classification
cascade. -/
theorem update_side_status_get (plant : Char) (g : Grid) (v : List Position)
    (p : Position) (hp : inBoundsPos g p) (o : SideOrientation) :
    (update_side_status plant g v p.x_position p.y_position).get o =
      statusSpec plant g v p o := by
  obtain ⟨hy0, hyr, hx0, hxc⟩ := hp
  cases p with
  | mk x y =>
    simp only at hy0 hyr hx0 hxc
    cases o <;>
      simp only [update_side_status, statusSpec, SideStatusMap.get, nbrPos, stepPos,
        inBoundsPos] <;>
      split_ifs <;> first | rfl | omega

theorem statusSpec_eq_outOfBounds {plant : Char} {g : Grid} {v : List Position}
    {p : Position} {o : SideOrientation} :
    statusSpec plant g v p o = SideStatus.outOfBounds ↔ ¬ inBoundsPos g (nbrPos o p) := by
  unfold statusSpec
  split_ifs with h1 h2 h3 <;> simp_all

theorem statusSpec_eq_adjacent {plant : Char} {g : Grid} {v : List Position}
    {p : Position} {o : SideOrientation} :
    statusSpec plant g v p o = SideStatus.adjacentToOtherPlantType ↔
      (inBoundsPos g (nbrPos o p) ∧
        cellAt g (nbrPos o p).y_position (nbrPos o p).x_position ≠ plant) := by
  unfold statusSpec
  split_ifs with h1 h2 h3 <;> simp_all

theorem statusSpec_eq_available {plant : Char} {g : Grid} {v : List Position}
    {p : Position} {o : SideOrientation} :
    statusSpec plant g v p o = SideStatus.available ↔
      (validCell g plant (nbrPos o p) ∧
        ¬ (nbrPos o p) ∈ v) := by
  unfold statusSpec validCell
  rw [show ((nbrPos o p) ∈ v ↔
      isVisited v (nbrPos o p).y_position (nbrPos o p).x_position = true) from
    (isVisited_iff v _ _).symm]
  split_ifs with h1 h2 h3 <;> simp_all

theorem statusSpec_eq_visited {plant : Char} {g : Grid} {v : List Position}
    {p : Position} {o : SideOrientation} :
    statusSpec plant g v p o = SideStatus.visited ↔
      (validCell g plant (nbrPos o p) ∧ (nbrPos o p) ∈ v) := by
  unfold statusSpec validCell
  rw [show ((nbrPos o p) ∈ v ↔
      isVisited v (nbrPos o p).y_position (nbrPos o p).x_position = true) from
    (isVisited_iff v _ _).symm]
  split_ifs with h1 h2 h3 <;> simp_all

theorem statusSpec_valid_iff {plant : Char} {g : Grid} {v : List Position}
    {p : Position} {o : SideOrientation} :
    (statusSpec plant g v p o = SideStatus.available ∨
      statusSpec plant g v p o = SideStatus.visited) ↔
      validCell g plant (nbrPos o p) := by
  rw [statusSpec_eq_available, statusSpec_eq_visited]
  by_cases h : (nbrPos o p) ∈ v <;> simp_all [validCell]

theorem SideStatusMap.get_set (m : SideStatusMap) (o o' : SideOrientation)
    (s : SideStatus) :
    (m.set o s).get o' = if o' = o then s else m.get o' := by
  cases o <;> cases o' <;> simp [SideStatusMap.set, SideStatusMap.get]

theorem get_traverse_position_eq_none {plant : Char} {g : Grid} {v : List Position}
    {r c : Int} :
    get_traverse_position plant g v r c = none ↔ ¬ inBoundsPos g ⟨c, r⟩ := by
  unfold get_traverse_position inBoundsPos
  split_ifs with h <;> simp <;> simp only at h ⊢ <;> omega

theorem get_traverse_position_eq_some {plant : Char} {g : Grid} {v : List Position}
    {r c : Int} (h : inBoundsPos g ⟨c, r⟩) :
    get_traverse_position plant g v r c =
      some { x_position := c, y_position := r, value := cellAt g r c,
             side_status_map := update_side_status plant g v c r } := by
  unfold get_traverse_position
  obtain ⟨h1, h2, h3, h4⟩ := h
  simp only at h1 h2 h3 h4
  rw [if_neg (by omega)]

theorem get_traverse_position_some_elim {plant : Char} {g : Grid} {v : List Position}
    {r c : Int} {ntp : TraversePosition}
    (h : get_traverse_position plant g v r c = some ntp) :
    inBoundsPos g ⟨c, r⟩ ∧
      ntp = { x_position := c, y_position := r, value := cellAt g r c,
              side_status_map := update_side_status plant g v c r } := by
  by_cases hin : inBoundsPos g ⟨c, r⟩
  · rw [get_traverse_position_eq_some hin] at h
    exact ⟨hin, (Option.some_injective _ h).symm⟩
  · rw [get_traverse_position_eq_none.2 hin] at h
    cases h

/-- The status map of a freshly classified in-bounds cell, read through the
specification cascade. -/
theorem entry_status (plant : Char) (g : Grid) (v : List Position) (p : Position)
    (hp : inBoundsPos g p) (o : SideOrientation) :
    (update_side_status plant g v p.x_position p.y_position).get o =
      statusSpec plant g v p o :=
  update_side_status_get plant g v p hp o

/-- A fresh entry TraversePosition whose value is the plant satisfies the
stored-snapshot characterisation. -/
theorem storedOK_entry (plant : Char) (g : Grid) (v : List Position) {p : Position}
    (hp : inBoundsPos g p) (hval : cellAt g p.y_position p.x_position = plant) :
    StoredOK plant g
      { x_position := p.x_position, y_position := p.y_position,
        value := cellAt g p.y_position p.x_position,
        side_status_map := update_side_status plant g v p.x_position p.y_position } := by
  refine ⟨⟨hp, hval⟩, hval, fun o => ?_⟩
  have hpos :
      tpPos ({ x_position := p.x_position, y_position := p.y_position,
               value := cellAt g p.y_position p.x_position,
               side_status_map :=
                 update_side_status plant g v p.x_position p.y_position } :
          TraversePosition) = p := by
    cases p; rfl
  rw [hpos]
  constructor
  · rw [entry_status plant g v p hp o, statusSpec_eq_outOfBounds]
  · rw [entry_status plant g v p hp o, statusSpec_eq_adjacent]

/-- Overriding a status toward a valid cell with VISITED preserves the
stored-snapshot characterisation. -/
theorem storedOK_set_visited {plant : Char} {g : Grid} {tp : TraversePosition}
    (h : StoredOK plant g tp) (o : SideOrientation)
    (hv : validCell g plant (nbrPos o (tpPos tp))) :
    StoredOK plant g
      { tp with side_status_map := tp.side_status_map.set o SideStatus.visited } := by
  obtain ⟨h1, h2, h3⟩ := h
  refine ⟨h1, h2, fun o' => ?_⟩
  have hpos : tpPos { tp with side_status_map := tp.side_status_map.set o SideStatus.visited }
      = tpPos tp := rfl
  rw [hpos, SideStatusMap.get_set]
  by_cases ho : o' = o
  · subst ho
    rw [if_pos rfl]
    obtain ⟨hin, hcell⟩ := hv
    constructor
    · constructor
      · intro hcon; cases hcon
      · intro hcon; exact absurd hin hcon
    · constructor
      · intro hcon; cases hcon
      · rintro ⟨-, hcon⟩; exact absurd hcell hcon
  · rw [if_neg ho]; exact h3 o'

/-- A stored snapshot's side is boundary-contributing exactly when the
neighbour through it is not a valid same-plant cell. -/
theorem storedOK_boundary_iff {plant : Char} {g : Grid} {tp : TraversePosition}
    (h : StoredOK plant g tp) (o : SideOrientation) :
    isBoundaryStatus (tp.side_status_map.get o) = true ↔
      ¬ validCell g plant (nbrPos o (tpPos tp)) := by
  obtain ⟨h1, h2, h3⟩ := h
  obtain ⟨hoob, hadj⟩ := h3 o
  unfold isBoundaryStatus validCell
  rw [Bool.or_eq_true, beq_iff_eq, beq_iff_eq]
  constructor
  · rintro (hc | hc)
    · rw [hc] at hadj
      rintro ⟨hin, hcell⟩
      exact (hadj.1 rfl).2 hcell
    · rw [hc] at hoob
      rintro ⟨hin, -⟩
      exact (hoob.1 rfl) hin
  · intro hnv
    by_cases hin : inBoundsPos g (nbrPos o (tpPos tp))
    · left
      exact hadj.2 ⟨hin, fun hcell => hnv ⟨hin, hcell⟩⟩
    · right
      exact hoob.2 hin

/-- A stored snapshot's side is AVAILABLE or VISITED exactly on valid
same-plant neighbours. -/
theorem storedOK_valid_iff {plant : Char} {g : Grid} {tp : TraversePosition}
    (h : StoredOK plant g tp) (o : SideOrientation) :
    (tp.side_status_map.get o = SideStatus.available ∨
      tp.side_status_map.get o = SideStatus.visited) ↔
      validCell g plant (nbrPos o (tpPos tp)) := by
  have hb := storedOK_boundary_iff h o
  unfold isBoundaryStatus at hb
  rw [Bool.or_eq_true, beq_iff_eq, beq_iff_eq] at hb
  constructor
  · rintro (hc | hc) <;>
      (by_contra hnv
       have := hb.2 hnv
       rcases this with h' | h' <;> rw [hc] at h' <;> cases h')
  · intro hv
    cases hcase : tp.side_status_map.get o
    · exact absurd hv ((hb.1 (Or.inl hcase)))
    · exact absurd hv ((hb.1 (Or.inr hcase)))
    · exact Or.inl rfl
    · exact Or.inr rfl

/-- A fresh entry TraversePosition whose value is the plant satisfies the
traversal invariants with respect to the visited list it was classified
against. -/
theorem goodTP_entry (plant : Char) (g : Grid) (v : List Position) {p : Position}
    (hp : inBoundsPos g p) (hval : cellAt g p.y_position p.x_position = plant) :
    GoodTP plant g v
      { x_position := p.x_position, y_position := p.y_position,
        value := cellAt g p.y_position p.x_position,
        side_status_map := update_side_status plant g v p.x_position p.y_position } := by
  have hpos :
      tpPos ({ x_position := p.x_position, y_position := p.y_position,
               value := cellAt g p.y_position p.x_position,
               side_status_map :=
                 update_side_status plant g v p.x_position p.y_position } :
          TraversePosition) = p := by
    cases p; rfl
  refine ⟨by rw [hpos]; exact ⟨hp, hval⟩, fun o ho => ?_, fun o ho => ?_, fun o ho => ?_⟩
  · rw [hpos]
    simp only [entry_status plant g v p hp o] at ho
    exact (statusSpec_eq_available.1 ho).1
  · rw [hpos]
    simp only [entry_status plant g v p hp o] at ho
    exact (statusSpec_eq_visited.1 ho).2
  · rw [hpos] at ho
    simp only [entry_status plant g v p hp o]
    rw [statusSpec_eq_available, statusSpec_eq_visited]
    by_cases hmem : (nbrPos o p) ∈ v
    · exact Or.inr ⟨ho, hmem⟩
    · exact Or.inl ⟨ho, hmem⟩

/-- The traversal invariants persist when the visited list grows. -/
theorem goodTP_mono {plant : Char} {g : Grid} {v v' : List Position}
    {tp : TraversePosition} (hsub : ∀ p, p ∈ v → p ∈ v')
    (h : GoodTP plant g v tp) : GoodTP plant g v' tp :=
  ⟨h.1, h.2.1, fun o ho => hsub _ (h.2.2.1 o ho), h.2.2.2⟩

/-- Forcing one side toward an already-visited cell to VISITED preserves the
traversal invariants. -/
theorem goodTP_set_visited {plant : Char} {g : Grid} {v : List Position}
    {tp : TraversePosition} (h : GoodTP plant g v tp) (o : SideOrientation)
    (hmem : nbrPos o (tpPos tp) ∈ v) :
    GoodTP plant g v
      { tp with side_status_map := tp.side_status_map.set o SideStatus.visited } := by
  obtain ⟨h1, h2, h3, h4⟩ := h
  have hpos : tpPos { tp with side_status_map := tp.side_status_map.set o SideStatus.visited }
      = tpPos tp := rfl
  refine ⟨by rw [hpos]; exact h1, fun o' ho' => ?_, fun o' ho' => ?_, fun o' ho' => ?_⟩
  · rw [hpos]
    rw [SideStatusMap.get_set] at ho'
    by_cases he : o' = o
    · rw [if_pos he] at ho'; cases ho'
    · rw [if_neg he] at ho'; exact h2 o' ho'
  · rw [hpos]
    rw [SideStatusMap.get_set] at ho'
    by_cases he : o' = o
    · subst he; exact hmem
    · rw [if_neg he] at ho'; exact h3 o' ho'
  · rw [hpos] at ho'
    rw [SideStatusMap.get_set]
    by_cases he : o' = o
    · rw [if_pos he]; exact Or.inr rfl
    · rw [if_neg he]; exact h4 o' ho'

/-! ### The grid cell inventory -/

theorem mem_gardenCellList {g : Grid} {rc : Int × Int} :
    rc ∈ gardenCellList g ↔
      ∃ rn cn : Nat, rn < g.length ∧ cn < (g.getD rn []).length ∧
        rc = ((rn : Int), (cn : Int)) := by
  unfold gardenCellList
  simp only [List.mem_flatMap, List.mem_map, List.mem_range]
  constructor
  · rintro ⟨rn, hrn, cn, hcn, h⟩
    exact ⟨rn, cn, hrn, hcn, h.symm⟩
  · rintro ⟨rn, cn, hrn, hcn, h⟩
    exact ⟨rn, hrn, cn, hcn, h.symm⟩

theorem mem_allCellsList {g : Grid} (hg : Rect g) {p : Position} :
    p ∈ allCellsList g ↔ inBoundsPos g p := by
  unfold allCellsList
  rw [List.mem_map]
  constructor
  · rintro ⟨rc, hrc, rfl⟩
    obtain ⟨rn, cn, hrn, hcn, rfl⟩ := mem_gardenCellList.1 hrc
    have hrow : ((g.getD rn []).length : Int) = gridCols g := by
      apply hg
      rw [List.getD_eq_getElem g [] hrn]
      exact List.getElem_mem hrn
    unfold inBoundsPos gridRows
    dsimp only
    refine ⟨by omega, by omega, by omega, ?_⟩
    rw [← hrow]
    omega
  · intro hp
    obtain ⟨hy0, hyr, hx0, hxc⟩ := hp
    refine ⟨(p.y_position, p.x_position), ?_, by cases p; rfl⟩
    rw [mem_gardenCellList]
    refine ⟨p.y_position.toNat, p.x_position.toNat, ?_, ?_, ?_⟩
    · unfold gridRows at hyr; omega
    · have hrn : p.y_position.toNat < g.length := by unfold gridRows at hyr; omega
      have hrow : ((g.getD p.y_position.toNat []).length : Int) = gridCols g := by
        apply hg
        rw [List.getD_eq_getElem g [] hrn]
        exact List.getElem_mem hrn
      omega
    · rw [Prod.mk.injEq]
      constructor <;> omega

theorem nodup_gardenCellList (g : Grid) : (gardenCellList g).Nodup := by
  unfold gardenCellList
  rw [List.nodup_flatMap]
  constructor
  · intro r hr
    refine List.Nodup.map ?_ (List.nodup_range _)
    intro a b h
    have := congrArg Prod.snd h
    simpa using this
  · have hlt : List.Pairwise (· < ·) (List.range g.length) := List.pairwise_lt_range _
    refine hlt.imp ?_
    intro a b hab x hxa hxb
    rw [List.mem_map] at hxa hxb
    obtain ⟨c1, -, rfl⟩ := hxa
    obtain ⟨c2, -, he⟩ := hxb
    have h2 : Int.ofNat b = Int.ofNat a := congrArg Prod.fst he
    have h3 : b = a := Int.ofNat.inj h2
    omega

theorem nodup_allCellsList (g : Grid) : (allCellsList g).Nodup := by
  unfold allCellsList
  refine List.Nodup.map ?_ (nodup_gardenCellList g)
  intro a b h
  have h1 := congrArg Position.x_position h
  have h2 := congrArg Position.y_position h
  simp only at h1 h2
  exact Prod.ext h2 h1

theorem mem_validFinset {g : Grid} (hg : Rect g) {plant : Char} {p : Position} :
    p ∈ validFinset g plant ↔ validCell g plant p := by
  unfold validFinset validCell
  rw [Finset.mem_filter, List.mem_toFinset, mem_allCellsList hg]

theorem freshCount_le {g : Grid} {plant : Char} {st st' : RegionState}
    (h : ∀ p, p ∈ st.visited_garden_plots → p ∈ st'.visited_garden_plots) :
    freshCount g plant st' ≤ freshCount g plant st := by
  apply Finset.card_le_card
  intro x hx
  rw [Finset.mem_filter] at hx ⊢
  exact ⟨hx.1, fun hv => hx.2 (h x hv)⟩

theorem freshCount_lt_mark {g : Grid} (hg : Rect g) {plant : Char}
    {st : RegionState} {r c : Int} (hv : validCell g plant ⟨c, r⟩)
    (hnv : (⟨c, r⟩ : Position) ∉ st.visited_garden_plots) :
    freshCount g plant (markVisited st r c) < freshCount g plant st := by
  apply Finset.card_lt_card
  rw [Finset.ssubset_iff_of_subset]
  · refine ⟨⟨c, r⟩, ?_, ?_⟩
    · rw [Finset.mem_filter]
      exact ⟨(mem_validFinset hg).2 hv, hnv⟩
    · rw [Finset.mem_filter]
      rintro ⟨-, hcon⟩
      exact hcon (List.mem_cons_self _ _)
  · intro x hx
    rw [Finset.mem_filter] at hx ⊢
    refine ⟨hx.1, fun hmem => hx.2 ?_⟩
    exact List.mem_cons_of_mem _ hmem

/-! ### The traversal safety argument -/

theorem regionCoords_push (st : RegionState) (tp : TraversePosition) :
    regionCoords (pushPosition st tp) = regionCoords st ++ [tpPos tp] := by
  unfold regionCoords pushPosition
  rw [List.map_append]
  rfl

theorem travA_rfl {g : Grid} {plant : Char} {tp : TraversePosition}
    {st : RegionState} : TravA g plant tp st st :=
  ⟨fun _ h => h, ⟨[], (List.append_nil _).symm⟩, fun _ h => Or.inl h, fun _ h => Or.inl h⟩

/-- The safety contract of the direction loop: assuming the recursive call
satisfies the contract on every safe cell, the loop satisfies it too. -/
theorem loop_travA {g : Grid} {plant : Char}
    {recur : TraversePosition → RegionState → RegionState}
    (hrec : ∀ tp' st', TPSafe g plant tp' → TravAC g plant tp' st' (recur tp' st'))
    {tp : TraversePosition} (hsafe : TPSafe g plant tp) :
    ∀ (dirs : List SideOrientation) (st : RegionState),
      TravA g plant tp st (traverse_dirs_loop plant g recur tp dirs st) ∧
      (SyncInv st →
        SyncInv (traverse_dirs_loop plant g recur tp dirs st) ∧
        ((regionCoords st).Nodup →
          (regionCoords (traverse_dirs_loop plant g recur tp dirs st)).Nodup)) := by
  intro dirs st
  induction dirs, st using traverse_dirs_loop.induct plant g recur tp with
  | case1 st =>
    rw [traverse_dirs_loop]
    exact ⟨travA_rfl, fun hs => ⟨hs, fun hn => hn⟩⟩
  | case2 st o rest hna ih =>
    rw [traverse_dirs_loop, if_pos hna]
    exact ih
  | case3 st o rest hav rc hgtp ih =>
    have hgtpE : get_traverse_position plant g st.visited_garden_plots
        (stepPos o tp.y_position tp.x_position).1
        (stepPos o tp.y_position tp.x_position).2 = none := hgtp
    rw [traverse_dirs_loop, if_neg hav]
    simp only [hgtpE]
    exact ih
  | case4 st o rest hav rc ntp hgtp hcond ntp2 st1 ih =>
    have hoav : tp.side_status_map.get o = SideStatus.available := not_not.1 hav
    have hgtpE : get_traverse_position plant g st.visited_garden_plots
        (stepPos o tp.y_position tp.x_position).1
        (stepPos o tp.y_position tp.x_position).2 = some ntp := hgtp
    have hgtpR : get_traverse_position plant g st.visited_garden_plots
        rc.1 rc.2 = some ntp := hgtp
    have hcondE : ntp.value = plant ∧
        isVisited st.visited_garden_plots
          (stepPos o tp.y_position tp.x_position).1
          (stepPos o tp.y_position tp.x_position).2 = false := hcond
    obtain ⟨hinb, hntpe⟩ := get_traverse_position_some_elim hgtpR
    have hvrc : validCell g plant (nbrPos o (tpPos tp)) := hsafe.2 o hoav
    have hrc_eq : nbrPos o (tpPos tp) = (⟨rc.2, rc.1⟩ : Position) := rfl
    have hpos2 : tpPos ntp2 = (⟨rc.2, rc.1⟩ : Position) := by
      have h0 : tpPos ntp2 = (⟨ntp.x_position, ntp.y_position⟩ : Position) := rfl
      rw [h0, hntpe]
    have hpos2' : tpPos ntp2 = nbrPos o (tpPos tp) := by rw [hpos2, hrc_eq]
    have hvmem : (⟨rc.2, rc.1⟩ : Position) ∉ st.visited_garden_plots := by
      intro hmem
      have h1 := (isVisited_iff st.visited_garden_plots rc.1 rc.2).2 hmem
      have h2 : isVisited st.visited_garden_plots rc.1 rc.2 = false := hcond.2
      rw [h2] at h1
      cases h1
    have hvalue : cellAt g rc.1 rc.2 = plant := by
      have h0 : ntp.value = plant := hcond.1
      rw [hntpe] at h0
      exact h0
    have hvalid2 : validCell g plant (tpPos ntp2) := by rw [hpos2']; exact hvrc
    have hmape : ntp2.side_status_map =
        (update_side_status plant g st.visited_garden_plots rc.2 rc.1).set
          (opposite o) SideStatus.visited := by
      have h0 : ntp2.side_status_map =
          ntp.side_status_map.set (opposite o) SideStatus.visited := rfl
      rw [h0, hntpe]
    have hsafe2 : TPSafe g plant ntp2 := by
      refine ⟨hvalid2, fun o' ho' => ?_⟩
      rw [hmape, SideStatusMap.get_set] at ho'
      by_cases he : o' = opposite o
      · rw [if_pos he] at ho'; cases ho'
      · rw [if_neg he] at ho'
        rw [hpos2]
        have hst := entry_status plant g st.visited_garden_plots
          (⟨rc.2, rc.1⟩ : Position) hinb o'
        simp only at hst
        rw [hst] at ho'
        exact (statusSpec_eq_available.1 ho').1
    have hstored2 : StoredOK plant g ntp2 := by
      have h0 := storedOK_entry plant g st.visited_garden_plots hinb hvalue
      have h1 := storedOK_set_visited h0 (opposite o) (by
        have heq : validCell g plant (nbrPos (opposite o) (⟨rc.2, rc.1⟩ : Position)) := by
          rw [← hrc_eq, nbrPos_opposite]
          exact hsafe.1
        exact heq)
      have h2 : ntp2 =
          { x_position := rc.2, y_position := rc.1, value := cellAt g rc.1 rc.2,
            side_status_map :=
              (update_side_status plant g st.visited_garden_plots rc.2 rc.1).set
                (opposite o) SideStatus.visited } := by
        have h3 : ntp2 =
            { ntp with side_status_map :=
                ntp.side_status_map.set (opposite o) SideStatus.visited } := rfl
        rw [h3, hntpe]
      rw [h2]
      exact h1
    have hreach2 : Reach g plant (tpPos tp) (tpPos ntp2) := by
      rw [hpos2']
      exact Reach.of_adjacent o hvrc
    have hst1e : st1 = pushPosition (markVisited st rc.1 rc.2) ntp2 := rfl
    obtain ⟨hrA, hrS⟩ := hrec ntp2 st1 hsafe2
    obtain ⟨ihA, ihS⟩ := ih
    rw [traverse_dirs_loop, if_neg hav]
    simp only [hgtpE]
    rw [if_pos hcondE]
    show TravA g plant tp st
        (traverse_dirs_loop plant g recur tp rest (recur ntp2 st1)) ∧
      (SyncInv st →
        SyncInv (traverse_dirs_loop plant g recur tp rest (recur ntp2 st1)) ∧
        ((regionCoords st).Nodup →
          (regionCoords
            (traverse_dirs_loop plant g recur tp rest (recur ntp2 st1))).Nodup))
    have hvis1 : st1.visited_garden_plots =
        (⟨rc.2, rc.1⟩ : Position) :: st.visited_garden_plots := rfl
    have hposl1 : st1.traverse_positions = st.traverse_positions ++ [ntp2] := rfl
    constructor
    · refine ⟨?_, ?_, ?_, ?_⟩
      · intro p hp
        refine ihA.1 p (hrA.1 p ?_)
        rw [hvis1]
        exact List.mem_cons_of_mem _ hp
      · obtain ⟨l2, hl2⟩ := hrA.2.1
        obtain ⟨l3, hl3⟩ := ihA.2.1
        refine ⟨[ntp2] ++ l2 ++ l3, ?_⟩
        rw [hl3, hl2, hposl1]
        simp [List.append_assoc]
      · intro p hp
        rcases ihA.2.2.1 p hp with hp2 | ⟨hv2, hr2⟩
        · rcases hrA.2.2.1 p hp2 with hp1 | ⟨hv1, hr1⟩
          · rw [hvis1] at hp1
            rcases List.mem_cons.1 hp1 with rfl | hp0
            · exact Or.inr ⟨hrc_eq ▸ hvrc, hrc_eq ▸ Reach.of_adjacent o hvrc⟩
            · exact Or.inl hp0
          · exact Or.inr ⟨hv1, hreach2.trans hr1⟩
        · exact Or.inr ⟨hv2, hr2⟩
      · intro t ht
        rcases ihA.2.2.2 t ht with ht2 | ⟨hs2, hr2⟩
        · rcases hrA.2.2.2 t ht2 with ht1 | ⟨hs1, hr1⟩
          · rw [hposl1] at ht1
            rcases List.mem_append.1 ht1 with ht0 | hts
            · exact Or.inl ht0
            · rcases List.mem_singleton.1 hts with rfl
              exact Or.inr ⟨hstored2, hreach2⟩
          · exact Or.inr ⟨hs1, hreach2.trans hr1⟩
        · exact Or.inr ⟨hs2, hr2⟩
    · intro hsync
      have hpre : ∀ p, p ∈ regionCoords st1 ↔
          (p ∈ st1.visited_garden_plots ∨ p = tpPos ntp2) := by
        intro p
        rw [hst1e, regionCoords_push, hvis1]
        constructor
        · intro hp
          rcases List.mem_append.1 hp with hp0 | hp0
          · exact Or.inl (List.mem_cons_of_mem _ ((hsync p).1 hp0))
          · rcases List.mem_singleton.1 hp0 with rfl
            exact Or.inr rfl
        · rintro (hp0 | rfl)
          · rcases List.mem_cons.1 hp0 with rfl | hp0
            · refine List.mem_append.2 (Or.inr ?_)
              rw [List.mem_singleton, hpos2]
            · exact List.mem_append.2 (Or.inl ((hsync p).2 hp0))
          · exact List.mem_append.2 (Or.inr (List.mem_singleton.2 rfl))
      obtain ⟨hW2, hN2⟩ := hrS hpre
      have hmem2 : tpPos ntp2 ∈ (recur ntp2 st1).visited_garden_plots := by
        refine hrA.1 _ ?_
        rw [hvis1, ← hpos2]
        exact List.mem_cons_self _ _
      have hS2 : SyncInv (recur ntp2 st1) := by
        intro p
        constructor
        · intro h
          rcases (hW2 p).1 h with h0 | rfl
          · exact h0
          · exact hmem2
        · intro h
          exact (hW2 p).2 (Or.inl h)
      obtain ⟨hS3, hN3⟩ := ihS hS2
      refine ⟨hS3, fun hnd => hN3 (hN2 ?_)⟩
      rw [hst1e, regionCoords_push]
      rw [List.nodup_append]
      refine ⟨hnd, List.nodup_singleton _, ?_⟩
      intro a ha hb
      rcases List.mem_singleton.1 hb with rfl
      have hmem : tpPos ntp2 ∈ st.visited_garden_plots := by
        have h0 : regionCoords (markVisited st rc.1 rc.2) = regionCoords st := rfl
        rw [h0] at ha
        exact (hsync _).1 ha
      rw [hpos2] at hmem
      exact hvmem hmem
  | case5 st o rest hav rc ntp hgtp hcond ih =>
    have hgtpE : get_traverse_position plant g st.visited_garden_plots
        (stepPos o tp.y_position tp.x_position).1
        (stepPos o tp.y_position tp.x_position).2 = some ntp := hgtp
    have hcondE : ¬ (ntp.value = plant ∧
        isVisited st.visited_garden_plots
          (stepPos o tp.y_position tp.x_position).1
          (stepPos o tp.y_position tp.x_position).2 = false) := hcond
    rw [traverse_dirs_loop, if_neg hav]
    simp only [hgtpE]
    rw [if_neg hcondE]
    exact ih

/-- The safety contract holds of `traverse_from_position` at every fuel. -/
theorem tfp_travAC (ord : List SideOrientation) {g : Grid} {plant : Char} :
    ∀ (f : Nat) (tp : TraversePosition) (st : RegionState), TPSafe g plant tp →
      TravAC g plant tp st (traverse_from_position f ord plant g tp st) := by
  intro f
  induction f with
  | zero =>
    intro tp st hsafe
    rw [traverse_from_position]
    exact ⟨travA_rfl, fun hw => ⟨hw, fun hn => hn⟩⟩
  | succ f ihf =>
    intro tp st hsafe
    rw [traverse_from_position]
    obtain ⟨hA, hS⟩ :=
      loop_travA (fun tp' st' hs => ihf tp' st' hs) hsafe ord
        (markVisited st tp.y_position tp.x_position)
    have hvism : (markVisited st tp.y_position tp.x_position).visited_garden_plots =
        tpPos tp :: st.visited_garden_plots := rfl
    have hposm : (markVisited st tp.y_position tp.x_position).traverse_positions =
        st.traverse_positions := rfl
    constructor
    · refine ⟨?_, ?_, ?_, ?_⟩
      · intro p hp
        refine hA.1 p ?_
        rw [hvism]
        exact List.mem_cons_of_mem _ hp
      · obtain ⟨l, hl⟩ := hA.2.1
        rw [hposm] at hl
        exact ⟨l, hl⟩
      · intro p hp
        rcases hA.2.2.1 p hp with hp0 | h0
        · rw [hvism] at hp0
          rcases List.mem_cons.1 hp0 with rfl | hp1
          · exact Or.inr ⟨hsafe.1, Reach.refl _⟩
          · exact Or.inl hp1
        · exact Or.inr h0
      · intro t ht
        rcases hA.2.2.2 t ht with ht0 | h0
        · rw [hposm] at ht0
          exact Or.inl ht0
        · exact Or.inr h0
    · intro hw
      have hsyncm : SyncInv (markVisited st tp.y_position tp.x_position) := by
        intro p
        rw [hvism]
        have hcm : regionCoords (markVisited st tp.y_position tp.x_position) =
            regionCoords st := rfl
        rw [hcm]
        constructor
        · intro h
          rcases (hw p).1 h with h0 | rfl
          · exact List.mem_cons_of_mem _ h0
          · exact List.mem_cons_self _ _
        · intro h
          rcases List.mem_cons.1 h with rfl | h0
          · exact (hw (tpPos tp)).2 (Or.inr rfl)
          · exact (hw p).2 (Or.inl h0)
      obtain ⟨hS', hN'⟩ := hS hsyncm
      refine ⟨?_, fun hn => hN' hn⟩
      intro p
      constructor
      · intro h
        exact Or.inl ((hS' p).1 h)
      · intro h
        rcases h with h | rfl
        · exact (hS' p).2 h
        · refine (hS' (tpPos tp)).2 ?_
          refine hA.1 (tpPos tp) ?_
          rw [hvism]
          exact List.mem_cons_self _ _

theorem ClosedAt_mono {g : Grid} {plant : Char} {v v' : List Position}
    (h : ∀ p, p ∈ v → p ∈ v') {p : Position} (hc : ClosedAt g plant v p) :
    ClosedAt g plant v' p :=
  fun o ho => h _ (hc o ho)

theorem TPSafe_of_goodTP {g : Grid} {plant : Char} {v : List Position}
    {tp : TraversePosition} (h : GoodTP plant g v tp) : TPSafe g plant tp :=
  ⟨h.1, h.2.1⟩

/-- The completeness contract of the direction loop: every processed valid
direction ends up visited, and every cell newly marked during the loop has
all its same-plant neighbours visited in the final state.  `ihf` is the same
contract for the recursive call at the loop's fuel. -/
theorem loop_travB {g : Grid} (hg : Rect g) {plant : Char}
    (ord : List SideOrientation) (f : Nat)
    (ihf : ∀ (tp' : TraversePosition) (st' : RegionState), TPSafe g plant tp' →
      GoodTP plant g st'.visited_garden_plots tp' →
      freshCount g plant st' < f →
      ClosedAt g plant
        (traverse_from_position f ord plant g tp' st').visited_garden_plots (tpPos tp') ∧
      (∀ p, p ∉ st'.visited_garden_plots →
        p ∈ (traverse_from_position f ord plant g tp' st').visited_garden_plots →
        ClosedAt g plant
          (traverse_from_position f ord plant g tp' st').visited_garden_plots p))
    {tp : TraversePosition} :
    ∀ (dirs : List SideOrientation) (st : RegionState),
      GoodTP plant g st.visited_garden_plots tp →
      tpPos tp ∈ st.visited_garden_plots →
      freshCount g plant st ≤ f →
      ((∀ o ∈ dirs, validCell g plant (nbrPos o (tpPos tp)) →
        nbrPos o (tpPos tp) ∈
          (traverse_dirs_loop plant g (traverse_from_position f ord plant g) tp dirs
            st).visited_garden_plots) ∧
      (∀ p, p ∉ st.visited_garden_plots →
        p ∈ (traverse_dirs_loop plant g (traverse_from_position f ord plant g) tp dirs
          st).visited_garden_plots →
        ClosedAt g plant
          (traverse_dirs_loop plant g (traverse_from_position f ord plant g) tp dirs
            st).visited_garden_plots p)) := by
  intro dirs st
  induction dirs, st
    using traverse_dirs_loop.induct plant g (traverse_from_position f ord plant g) tp with
  | case1 st =>
    intro hgood hmem hfl
    rw [traverse_dirs_loop]
    exact ⟨fun o ho => absurd ho (List.not_mem_nil o), fun p hnp hp => absurd hp hnp⟩
  | case2 st o rest hna ih =>
    intro hgood hmem hfl
    obtain ⟨ih1, ih2⟩ := ih hgood hmem hfl
    rw [traverse_dirs_loop, if_pos hna]
    have hmono : ∀ p, p ∈ st.visited_garden_plots →
        p ∈ (traverse_dirs_loop plant g (traverse_from_position f ord plant g) tp rest
          st).visited_garden_plots :=
      (loop_travA (fun tp' st' hs => tfp_travAC ord f tp' st' hs)
        (TPSafe_of_goodTP hgood) rest st).1.1
    refine ⟨fun o' ho' hv => ?_, ih2⟩
    rcases List.mem_cons.1 ho' with rfl | ho0
    · rcases hgood.2.2.2 o' hv with hav | hvis
      · exact absurd hav hna
      · exact hmono _ (hgood.2.2.1 o' hvis)
    · exact ih1 o' ho0 hv
  | case3 st o rest hav rc hgtp ih =>
    intro hgood hmem hfl
    obtain ⟨ih1, ih2⟩ := ih hgood hmem hfl
    have hgtpE : get_traverse_position plant g st.visited_garden_plots
        (stepPos o tp.y_position tp.x_position).1
        (stepPos o tp.y_position tp.x_position).2 = none := hgtp
    rw [traverse_dirs_loop, if_neg hav]
    simp only [hgtpE]
    refine ⟨fun o' ho' hv => ?_, ih2⟩
    rcases List.mem_cons.1 ho' with rfl | ho0
    · exfalso
      have hni := get_traverse_position_eq_none.1 hgtpE
      exact hni hv.1
    · exact ih1 o' ho0 hv
  | case4 st o rest hav rc ntp hgtp hcond ntp2 st1 ih =>
    intro hgood hmem hfl
    have hoav : tp.side_status_map.get o = SideStatus.available := not_not.1 hav
    have hgtpE : get_traverse_position plant g st.visited_garden_plots
        (stepPos o tp.y_position tp.x_position).1
        (stepPos o tp.y_position tp.x_position).2 = some ntp := hgtp
    have hgtpR : get_traverse_position plant g st.visited_garden_plots
        rc.1 rc.2 = some ntp := hgtp
    have hcondE : ntp.value = plant ∧
        isVisited st.visited_garden_plots
          (stepPos o tp.y_position tp.x_position).1
          (stepPos o tp.y_position tp.x_position).2 = false := hcond
    obtain ⟨hinb, hntpe⟩ := get_traverse_position_some_elim hgtpR
    have hvrc : validCell g plant (nbrPos o (tpPos tp)) := hgood.2.1 o hoav
    have hrc_eq : nbrPos o (tpPos tp) = (⟨rc.2, rc.1⟩ : Position) := rfl
    have hvrc' : validCell g plant (⟨rc.2, rc.1⟩ : Position) := hrc_eq ▸ hvrc
    have hvmem : (⟨rc.2, rc.1⟩ : Position) ∉ st.visited_garden_plots := by
      intro hmem0
      have h1 := (isVisited_iff st.visited_garden_plots rc.1 rc.2).2 hmem0
      have h2 : isVisited st.visited_garden_plots rc.1 rc.2 = false := hcond.2
      rw [h2] at h1
      cases h1
    have hvalue : cellAt g rc.1 rc.2 = plant := by
      have h0 : ntp.value = plant := hcond.1
      rw [hntpe] at h0
      exact h0
    have hvis1 : st1.visited_garden_plots =
        (⟨rc.2, rc.1⟩ : Position) :: st.visited_garden_plots := rfl
    have hpos2 : tpPos ntp2 = (⟨rc.2, rc.1⟩ : Position) := by
      have h0 : tpPos ntp2 = (⟨ntp.x_position, ntp.y_position⟩ : Position) := rfl
      rw [h0, hntpe]
    -- the traversal invariants of the entered neighbour against st1
    have hgood1 : GoodTP plant g st1.visited_garden_plots ntp2 := by
      have g1 : GoodTP plant g st.visited_garden_plots ntp := by
        rw [hntpe]
        exact goodTP_entry plant g st.visited_garden_plots hinb hvalue
      have g2 : GoodTP plant g st1.visited_garden_plots ntp := by
        refine goodTP_mono ?_ g1
        rw [hvis1]
        exact fun p hp => List.mem_cons_of_mem _ hp
      have g3 := goodTP_set_visited g2 (opposite o) (by
        have h0 : nbrPos (opposite o) (tpPos ntp) = tpPos tp := by
          have h1 : tpPos ntp = nbrPos o (tpPos tp) := by
            rw [hrc_eq]
            rw [hntpe]
            rfl
          rw [h1, nbrPos_opposite]
        rw [h0, hvis1]
        exact List.mem_cons_of_mem _ hmem)
      exact g3
    have hsafe1 : TPSafe g plant ntp2 := TPSafe_of_goodTP hgood1
    have hfresh1 : freshCount g plant st1 < f := by
      have h0 : freshCount g plant st1 =
          freshCount g plant (markVisited st rc.1 rc.2) := rfl
      rw [h0]
      have h1 := freshCount_lt_mark hg hvrc' hvmem
      omega
    obtain ⟨hCl2, hNew2⟩ := ihf ntp2 st1 hsafe1 hgood1 hfresh1
    -- monotonicity facts
    have hmono12 : ∀ p, p ∈ st1.visited_garden_plots →
        p ∈ (traverse_from_position f ord plant g ntp2 st1).visited_garden_plots :=
      (tfp_travAC ord f ntp2 st1 hsafe1).1.1
    have hmono2' : ∀ p,
        p ∈ (traverse_from_position f ord plant g ntp2 st1).visited_garden_plots →
        p ∈ (traverse_dirs_loop plant g (traverse_from_position f ord plant g) tp rest
          (traverse_from_position f ord plant g ntp2 st1)).visited_garden_plots :=
      (loop_travA (fun tp' st' hs => tfp_travAC ord f tp' st' hs)
        (TPSafe_of_goodTP hgood) rest _).1.1
    -- hypotheses of the rest of the loop
    have hgood2 : GoodTP plant g
        (traverse_from_position f ord plant g ntp2 st1).visited_garden_plots tp := by
      refine goodTP_mono (fun p hp => hmono12 p ?_) hgood
      rw [hvis1]
      exact List.mem_cons_of_mem _ hp
    have hmem2 : tpPos tp ∈
        (traverse_from_position f ord plant g ntp2 st1).visited_garden_plots := by
      refine hmono12 _ ?_
      rw [hvis1]
      exact List.mem_cons_of_mem _ hmem
    have hfl2 : freshCount g plant
        (traverse_from_position f ord plant g ntp2 st1) ≤ f := by
      have h0 : freshCount g plant
          (traverse_from_position f ord plant g ntp2 st1) ≤
          freshCount g plant st1 := freshCount_le hmono12
      omega
    obtain ⟨ih1, ih2⟩ := ih hgood2 hmem2 hfl2
    rw [traverse_dirs_loop, if_neg hav]
    simp only [hgtpE]
    rw [if_pos hcondE]
    show (∀ o' ∈ o :: rest, validCell g plant (nbrPos o' (tpPos tp)) →
        nbrPos o' (tpPos tp) ∈
          (traverse_dirs_loop plant g (traverse_from_position f ord plant g) tp rest
            (traverse_from_position f ord plant g ntp2 st1)).visited_garden_plots) ∧
      (∀ p, p ∉ st.visited_garden_plots →
        p ∈ (traverse_dirs_loop plant g (traverse_from_position f ord plant g) tp rest
          (traverse_from_position f ord plant g ntp2 st1)).visited_garden_plots →
        ClosedAt g plant
          (traverse_dirs_loop plant g (traverse_from_position f ord plant g) tp rest
            (traverse_from_position f ord plant g ntp2 st1)).visited_garden_plots p)
    constructor
    · intro o' ho' hv
      rcases List.mem_cons.1 ho' with rfl | ho0
      · refine hmono2' _ (hmono12 _ ?_)
        rw [hrc_eq, hvis1]
        exact List.mem_cons_self _ _
      · exact ih1 o' ho0 hv
    · intro p hnp hp
      by_cases h2 : p ∈ (traverse_from_position f ord plant g ntp2 st1).visited_garden_plots
      · by_cases h1 : p ∈ st1.visited_garden_plots
        · have hprc : p = (⟨rc.2, rc.1⟩ : Position) := by
            rw [hvis1] at h1
            rcases List.mem_cons.1 h1 with h | h
            · exact h
            · exact absurd h hnp
          refine ClosedAt_mono hmono2' ?_
          rw [hprc, ← hpos2]
          exact hCl2
        · exact ClosedAt_mono hmono2' (hNew2 p h1 h2)
      · exact ih2 p h2 hp
  | case5 st o rest hav rc ntp hgtp hcond ih =>
    intro hgood hmem hfl
    obtain ⟨ih1, ih2⟩ := ih hgood hmem hfl
    have hgtpE : get_traverse_position plant g st.visited_garden_plots
        (stepPos o tp.y_position tp.x_position).1
        (stepPos o tp.y_position tp.x_position).2 = some ntp := hgtp
    have hgtpR : get_traverse_position plant g st.visited_garden_plots
        rc.1 rc.2 = some ntp := hgtp
    have hcondE : ¬ (ntp.value = plant ∧
        isVisited st.visited_garden_plots
          (stepPos o tp.y_position tp.x_position).1
          (stepPos o tp.y_position tp.x_position).2 = false) := hcond
    obtain ⟨hinb, hntpe⟩ := get_traverse_position_some_elim hgtpR
    rw [traverse_dirs_loop, if_neg hav]
    simp only [hgtpE]
    rw [if_neg hcondE]
    have hmono : ∀ p, p ∈ st.visited_garden_plots →
        p ∈ (traverse_dirs_loop plant g (traverse_from_position f ord plant g) tp rest
          st).visited_garden_plots :=
      (loop_travA (fun tp' st' hs => tfp_travAC ord f tp' st' hs)
        (TPSafe_of_goodTP hgood) rest st).1.1
    refine ⟨fun o' ho' hv => ?_, ih2⟩
    rcases List.mem_cons.1 ho' with rfl | ho0
    · have hrc_eq : nbrPos o' (tpPos tp) = (⟨rc.2, rc.1⟩ : Position) := rfl
      have hvrc' : validCell g plant (⟨rc.2, rc.1⟩ : Position) := hrc_eq ▸ hv
      have hvp : ntp.value = plant := by
        rw [hntpe]
        exact hvrc'.2
      have hvisn : isVisited st.visited_garden_plots rc.1 rc.2 = true := by
        rcases Bool.eq_false_or_eq_true
          (isVisited st.visited_garden_plots rc.1 rc.2) with h | h
        · exact h
        · exact absurd ⟨hvp, h⟩ hcond
      have hmem0 : (⟨rc.2, rc.1⟩ : Position) ∈ st.visited_garden_plots :=
        (isVisited_iff _ _ _).1 hvisn
      rw [hrc_eq]
      exact hmono _ hmem0
    · exact ih1 o' ho0 hv

/-- The completeness contract of `traverse_from_position` with sufficient
fuel: the traversed cell's valid neighbours all end up visited, and so do
the valid neighbours of every cell marked during the call. -/
theorem tfp_travB {g : Grid} (hg : Rect g) (ord : List SideOrientation)
    (hcov : ∀ o : SideOrientation, o ∈ ord) {plant : Char} :
    ∀ (f : Nat) (tp : TraversePosition) (st : RegionState), TPSafe g plant tp →
      GoodTP plant g st.visited_garden_plots tp →
      freshCount g plant st < f →
      ClosedAt g plant
        (traverse_from_position f ord plant g tp st).visited_garden_plots (tpPos tp) ∧
      (∀ p, p ∉ st.visited_garden_plots →
        p ∈ (traverse_from_position f ord plant g tp st).visited_garden_plots →
        ClosedAt g plant
          (traverse_from_position f ord plant g tp st).visited_garden_plots p) := by
  intro f
  induction f with
  | zero =>
    intro tp st _ _ hfl
    exact absurd hfl (Nat.not_lt_zero _)
  | succ f ihf =>
    intro tp st hsafe hgood hfl
    rw [traverse_from_position]
    have hvism : (markVisited st tp.y_position tp.x_position).visited_garden_plots =
        tpPos tp :: st.visited_garden_plots := rfl
    have hgoodm : GoodTP plant g
        (markVisited st tp.y_position tp.x_position).visited_garden_plots tp := by
      refine goodTP_mono ?_ hgood
      rw [hvism]
      exact fun p hp => List.mem_cons_of_mem _ hp
    have hmemm : tpPos tp ∈
        (markVisited st tp.y_position tp.x_position).visited_garden_plots := by
      rw [hvism]
      exact List.mem_cons_self _ _
    have hflm : freshCount g plant (markVisited st tp.y_position tp.x_position) ≤ f := by
      have h0 : freshCount g plant (markVisited st tp.y_position tp.x_position) ≤
          freshCount g plant st := by
        refine freshCount_le ?_
        rw [hvism]
        exact fun p hp => List.mem_cons_of_mem _ hp
      omega
    obtain ⟨hB1, hB2⟩ := loop_travB hg ord f ihf ord
      (markVisited st tp.y_position tp.x_position) hgoodm hmemm hflm
    have hcl : ClosedAt g plant
        (traverse_dirs_loop plant g (traverse_from_position f ord plant g) tp ord
          (markVisited st tp.y_position tp.x_position)).visited_garden_plots
        (tpPos tp) := fun o hv => hB1 o (hcov o) hv
    refine ⟨hcl, fun p hnp hp => ?_⟩
    by_cases hpt : p = tpPos tp
    · rw [hpt]
      exact hcl
    · refine hB2 p ?_ hp
      rw [hvism]
      intro hcon
      rcases List.mem_cons.1 hcon with h | h
      · exact hpt h
      · exact hnp h

/-- A traversal call with nonzero fuel marks its cell visited. -/
theorem tfp_marks {g : Grid} {plant : Char} (ord : List SideOrientation)
    {f : Nat} (hf : 0 < f) {tp : TraversePosition} {st : RegionState}
    (hsafe : TPSafe g plant tp) :
    tpPos tp ∈ (traverse_from_position f ord plant g tp st).visited_garden_plots := by
  cases f with
  | zero => exact absurd hf (Nat.lt_irrefl 0)
  | succ f =>
    rw [traverse_from_position]
    refine (loop_travA (fun tp' st' hs => tfp_travAC ord f tp' st' hs) hsafe ord
      (markVisited st tp.y_position tp.x_position)).1.1 _ ?_
    exact List.mem_cons_self _ _

theorem length_gardenCellList {g : Grid} (hg : Rect g) :
    (gardenCellList g).length = g.length * (g.headD []).length := by
  unfold gardenCellList
  rw [List.length_flatMap]
  have heq : (List.range g.length).map
      (fun r => ((List.range (g.getD r []).length).map
        fun c => (Int.ofNat r, Int.ofNat c)).length) =
      List.replicate g.length (g.headD []).length := by
    have hlen : ((List.range g.length).map
        (fun r => ((List.range (g.getD r []).length).map
          fun c => (Int.ofNat r, Int.ofNat c)).length)).length = g.length := by
      rw [List.length_map, List.length_range]
    have h := List.eq_replicate_of_mem (a := (g.headD []).length)
      (l := (List.range g.length).map
        (fun r => ((List.range (g.getD r []).length).map
          fun c => (Int.ofNat r, Int.ofNat c)).length)) ?_
    · rw [hlen] at h
      exact h
    · intro b hb
      rw [List.mem_map] at hb
      obtain ⟨r, hr, rfl⟩ := hb
      rw [List.length_map, List.length_range]
      have hrn : r < g.length := List.mem_range.1 hr
      have hrow : ((g.getD r []).length : Int) = gridCols g := by
        apply hg
        rw [List.getD_eq_getElem g [] hrn]
        exact List.getElem_mem hrn
      unfold gridCols at hrow
      exact_mod_cast hrow
  have hcomp : List.map
      (List.length ∘ fun r => (List.range (g.getD r []).length).map
        fun c => (Int.ofNat r, Int.ofNat c))
      (List.range g.length) =
      (List.range g.length).map
      (fun r => ((List.range (g.getD r []).length).map
        fun c => (Int.ofNat r, Int.ofNat c)).length) := rfl
  rw [hcomp, heq, List.sum_replicate, smul_eq_mul]

theorem freshCount_le_cells {g : Grid} {plant : Char} {st : RegionState} :
    freshCount g plant st ≤ (gardenCellList g).length := by
  unfold freshCount
  calc ((validFinset g plant).filter
        fun p => p ∉ st.visited_garden_plots).card
      ≤ (validFinset g plant).card := Finset.card_filter_le _ _
    _ ≤ (allCellsList g).toFinset.card := Finset.card_filter_le _ _
    _ ≤ (allCellsList g).length := List.toFinset_card_le _
    _ = (gardenCellList g).length := by rw [allCellsList, List.length_map]

/-- A traversal with sufficient fuel started on a single freshly entered
seed cell produces a region satisfying `RegionOK`. -/
theorem tfp_region_ok {g : Grid} (hg : Rect g) (ord : List SideOrientation)
    (hcov : ∀ o : SideOrientation, o ∈ ord) {plant : Char}
    {tp0 : TraversePosition} {st0 : RegionState}
    (hgood0 : GoodTP plant g st0.visited_garden_plots tp0)
    (hstored0 : StoredOK plant g tp0)
    (hvis0 : st0.visited_garden_plots = [])
    (hpos0 : st0.traverse_positions = [tp0])
    {f : Nat} (hf : freshCount g plant st0 < f) :
    RegionOK g plant (tpPos tp0) (traverse_from_position f ord plant g tp0 st0) := by
  have hsafe0 : TPSafe g plant tp0 := TPSafe_of_goodTP hgood0
  have hAC := tfp_travAC ord f tp0 st0 hsafe0
  have hcoords0 : regionCoords st0 = [tpPos tp0] := by
    unfold regionCoords
    rw [hpos0]
    rfl
  obtain ⟨hW, hND⟩ := hAC.2 (by
    intro p
    rw [hcoords0, hvis0]
    constructor
    · intro hp
      exact Or.inr (List.mem_singleton.1 hp)
    · rintro (hp | rfl)
      · cases hp
      · exact List.mem_singleton.2 rfl)
  obtain ⟨hB1, hB2⟩ := tfp_travB hg ord hcov f tp0 st0 hsafe0 hgood0 hf
  have hmarks : tpPos tp0 ∈
      (traverse_from_position f ord plant g tp0 st0).visited_garden_plots :=
    tfp_marks ord (by omega) hsafe0
  constructor
  · -- distinct coordinates
    refine hND ?_
    rw [hcoords0]
    exact List.nodup_singleton _
  constructor
  · -- coordinates are exactly the component of the seed
    intro p
    constructor
    · intro hp
      rw [regionCoords, List.mem_map] at hp
      obtain ⟨t, ht, rfl⟩ := hp
      rcases hAC.1.2.2.2 t ht with ht0 | ⟨-, hrch⟩
      · rw [hpos0] at ht0
        rcases List.mem_singleton.1 ht0 with rfl
        exact Reach.refl _
      · exact hrch
    · intro hp
      induction hp with
      | refl => exact (hW _).2 (Or.inr rfl)
      | @step q o hq hv ih =>
        rcases (hW q).1 ih with hqv | rfl
        · have hcl : ClosedAt g plant
              (traverse_from_position f ord plant g tp0 st0).visited_garden_plots
              q := by
            refine hB2 q ?_ hqv
            rw [hvis0]
            intro hcon
            cases hcon
          exact (hW _).2 (Or.inl (hcl o hv))
        · exact (hW _).2 (Or.inl (hB1 o hv))
  constructor
  · -- stored snapshots are sound
    intro t ht
    rcases hAC.1.2.2.2 t ht with ht0 | ⟨hs, -⟩
    · rw [hpos0] at ht0
      rcases List.mem_singleton.1 ht0 with rfl
      exact hstored0
    · exact hs
  · -- visited matrix and plots agree
    intro p
    constructor
    · intro hp
      exact (hW p).2 (Or.inl hp)
    · intro hp
      rcases (hW p).1 hp with h | rfl
      · exact h
      · exact hmarks

/-- Construction of a `Region` from an in-bounds seed satisfies `RegionOK`:
the plots have pairwise distinct coordinates, cover exactly the 4-connected
same-plant component of the seed, carry geometrically accurate boundary
statuses, and agree with the region's visited matrix. -/
theorem buildRegion_ok {g : Grid} (hg : Rect g) (ord : List SideOrientation)
    (hcov : ∀ o : SideOrientation, o ∈ ord) {r c : Int}
    (hin : inBoundsPos g ⟨c, r⟩) :
    RegionOK g (cellAt g r c) ⟨c, r⟩ (buildRegion ord g r c) := by
  have hgtp : get_traverse_position (cellAt g r c) g [] r c =
      some { x_position := c, y_position := r, value := cellAt g r c,
             side_status_map := update_side_status (cellAt g r c) g [] c r } :=
    get_traverse_position_eq_some hin
  have hvalc : cellAt g (⟨c, r⟩ : Position).y_position
      (⟨c, r⟩ : Position).x_position = cellAt g r c := rfl
  have hbr : buildRegion ord g r c =
      traverse_from_position (regionFuel g) ord (cellAt g r c) g
        { x_position := c, y_position := r, value := cellAt g r c,
          side_status_map := update_side_status (cellAt g r c) g [] c r }
        { visited_garden_plots := [],
          traverse_positions :=
            [{ x_position := c, y_position := r, value := cellAt g r c,
               side_status_map := update_side_status (cellAt g r c) g [] c r }] } := by
    unfold buildRegion get_region_plots
    rw [hgtp]
  rw [hbr]
  refine tfp_region_ok hg ord hcov
    (goodTP_entry (cellAt g r c) g [] hin hvalc)
    (storedOK_entry (cellAt g r c) g [] hin hvalc) rfl rfl ?_
  have h0 : freshCount g (cellAt g r c)
      { visited_garden_plots := [],
        traverse_positions :=
          [{ x_position := c, y_position := r, value := cellAt g r c,
             side_status_map := update_side_status (cellAt g r c) g [] c r }] } ≤
      (gardenCellList g).length := freshCount_le_cells
  rw [length_gardenCellList hg] at h0
  unfold regionFuel
  omega

/-! ### The garden partition -/

theorem mem_visFold (l : List TraversePosition) (init : List Position) (p : Position) :
    p ∈ l.foldl (fun v tp => (⟨tp.x_position, tp.y_position⟩ : Position) :: v) init ↔
      p ∈ l.map tpPos ∨ p ∈ init := by
  induction l generalizing init with
  | nil => simp
  | cons a l ih =>
    rw [List.foldl_cons, ih]
    simp only [List.map_cons, List.mem_cons]
    have htp : tpPos a = (⟨a.x_position, a.y_position⟩ : Position) := rfl
    rw [htp]
    tauto

/-- A cell shared by the components of two in-bounds seeds puts the second
seed inside the first seed's component. -/
theorem reach_common_seed {g : Grid} {s1 s : Position}
    (h1 : inBoundsPos g s1) (hs : inBoundsPos g s) {p : Position}
    (hp1 : Reach g (cellAt g s1.y_position s1.x_position) s1 p)
    (hp : Reach g (cellAt g s.y_position s.x_position) s p) :
    Reach g (cellAt g s1.y_position s1.x_position) s1 s := by
  have hv1 : validCell g (cellAt g s1.y_position s1.x_position) s1 := ⟨h1, rfl⟩
  have hv : validCell g (cellAt g s.y_position s.x_position) s := ⟨hs, rfl⟩
  have hvp1 : validCell g (cellAt g s1.y_position s1.x_position) p := hp1.valid hv1
  have hvp : validCell g (cellAt g s.y_position s.x_position) p := hp.valid hv
  have hx : cellAt g s.y_position s.x_position =
      cellAt g s1.y_position s1.x_position := hvp.2.symm.trans hvp1.2
  have hps : Reach g (cellAt g s.y_position s.x_position) p s := Reach.symm hv hp
  rw [hx] at hps
  exact hp1.trans hps

theorem gardenerStep_not_visited {ord : List SideOrientation} {g : Grid}
    {gs : GardenerState} {rc : Int × Int}
    (hv : isVisited gs.visited_garden_plots rc.1 rc.2 = false) :
    gardenerStep ord g gs rc =
      { visited_garden_plots :=
          (buildRegion ord g rc.1 rc.2).traverse_positions.foldl
            (fun v tp => (⟨tp.x_position, tp.y_position⟩ : Position) :: v)
            ((⟨rc.2, rc.1⟩ : Position) :: gs.visited_garden_plots),
        regions := gs.regions ++ [buildRegion ord g rc.1 rc.2] } := by
  unfold gardenerStep
  rw [if_neg (by rw [hv]; exact Bool.false_ne_true)]

theorem gardenerStep_inv {g : Grid} (hg : Rect g) {ord : List SideOrientation}
    (hcov : ∀ o : SideOrientation, o ∈ ord) {gs : GardenerState}
    (hinv : GardenerInv g ord gs) {rc : Int × Int}
    (hrc : inBoundsPos g ⟨rc.2, rc.1⟩) :
    GardenerInv g ord (gardenerStep ord g gs rc) ∧
    (⟨rc.2, rc.1⟩ : Position) ∈ (gardenerStep ord g gs rc).visited_garden_plots ∧
    (∀ p, p ∈ gs.visited_garden_plots →
      p ∈ (gardenerStep ord g gs rc).visited_garden_plots) := by
  by_cases hv : isVisited gs.visited_garden_plots rc.1 rc.2 = true
  · have hstep : gardenerStep ord g gs rc = gs := by
      unfold gardenerStep
      rw [if_pos hv]
    rw [hstep]
    exact ⟨hinv, (isVisited_iff _ _ _).1 hv, fun p hp => hp⟩
  · have hv' : isVisited gs.visited_garden_plots rc.1 rc.2 = false :=
      Bool.eq_false_iff.2 hv
    rw [gardenerStep_not_visited hv']
    have hseed : (⟨rc.2, rc.1⟩ : Position) ∉ gs.visited_garden_plots := fun hmem =>
      hv ((isVisited_iff _ _ _).2 hmem)
    have hR := buildRegion_ok hg ord hcov (r := rc.1) (c := rc.2) hrc
    have hnd := hR.1
    have hiff := hR.2.1
    have hstd := hR.2.2.1
    have hvisiff := hR.2.2.2
    have hseedmem : (⟨rc.2, rc.1⟩ : Position) ∈
        regionCoords (buildRegion ord g rc.1 rc.2) := (hiff _).2 (Reach.refl _)
    have hmem2 : ∀ p, p ∈ (buildRegion ord g rc.1 rc.2).traverse_positions.foldl
        (fun v tp => (⟨tp.x_position, tp.y_position⟩ : Position) :: v)
        ((⟨rc.2, rc.1⟩ : Position) :: gs.visited_garden_plots) ↔
        (p ∈ regionCoords (buildRegion ord g rc.1 rc.2) ∨
          p ∈ gs.visited_garden_plots) := by
      intro p
      rw [mem_visFold]
      constructor
      · rintro (h | h)
        · exact Or.inl h
        · rcases List.mem_cons.1 h with rfl | h
          · exact Or.inl hseedmem
          · exact Or.inr h
      · rintro (h | h)
        · exact Or.inl h
        · exact Or.inr (List.mem_cons_of_mem _ h)
    refine ⟨⟨?_, ?_, ?_⟩, ?_, ?_⟩
    · intro rs hrs
      rcases List.mem_append.1 hrs with h | h
      · exact hinv.1 rs h
      · rcases List.mem_singleton.1 h with rfl
        exact ⟨⟨rc.2, rc.1⟩, hrc, rfl, hR⟩
    · intro p
      rw [hmem2 p]
      constructor
      · rintro (h | h)
        · exact ⟨buildRegion ord g rc.1 rc.2,
            List.mem_append.2 (Or.inr (List.mem_singleton.2 rfl)), h⟩
        · obtain ⟨rs, hrs, hp⟩ := (hinv.2.1 p).1 h
          exact ⟨rs, List.mem_append.2 (Or.inl hrs), hp⟩
      · rintro ⟨rs, hrs, hp⟩
        rcases List.mem_append.1 hrs with h | h
        · exact Or.inr ((hinv.2.1 p).2 ⟨rs, h, hp⟩)
        · rcases List.mem_singleton.1 h with rfl
          exact Or.inl hp
    · rw [List.pairwise_append]
      refine ⟨hinv.2.2, List.pairwise_singleton _ _, ?_⟩
      intro r1 hr1 r2 hr2 p hp1 hp2
      rcases List.mem_singleton.1 hr2 with rfl
      obtain ⟨s1, hs1, -, -, hiff1, -, -⟩ := hinv.1 r1 hr1
      have hreach1 : Reach g (cellAt g s1.y_position s1.x_position) s1 p :=
        (hiff1 p).1 hp1
      have hreach2 : Reach g (cellAt g
          (⟨rc.2, rc.1⟩ : Position).y_position
          (⟨rc.2, rc.1⟩ : Position).x_position) ⟨rc.2, rc.1⟩ p := (hiff p).1 hp2
      have hrs := reach_common_seed hs1 hrc hreach1 hreach2
      have hmem1 : (⟨rc.2, rc.1⟩ : Position) ∈ regionCoords r1 := (hiff1 _).2 hrs
      have : (⟨rc.2, rc.1⟩ : Position) ∈ gs.visited_garden_plots :=
        (hinv.2.1 _).2 ⟨r1, hr1, hmem1⟩
      exact hseed this
    · exact (hmem2 _).2 (Or.inl hseedmem)
    · intro p hp
      exact (hmem2 p).2 (Or.inr hp)

theorem gardener_fold_inv {g : Grid} (hg : Rect g) {ord : List SideOrientation}
    (hcov : ∀ o : SideOrientation, o ∈ ord) :
    ∀ (cells : List (Int × Int)) (gs : GardenerState),
      GardenerInv g ord gs →
      (∀ rc ∈ cells, inBoundsPos g (⟨rc.2, rc.1⟩ : Position)) →
      GardenerInv g ord (cells.foldl (gardenerStep ord g) gs) ∧
      (∀ rc ∈ cells, (⟨rc.2, rc.1⟩ : Position) ∈
        (cells.foldl (gardenerStep ord g) gs).visited_garden_plots) ∧
      (∀ p, p ∈ gs.visited_garden_plots →
        p ∈ (cells.foldl (gardenerStep ord g) gs).visited_garden_plots) := by
  intro cells
  induction cells with
  | nil =>
    intro gs h1 h2
    exact ⟨h1, fun rc h => absurd h (List.not_mem_nil _), fun p hp => hp⟩
  | cons a l ih =>
    intro gs h1 h2
    obtain ⟨hinv1, hmema, hmono1⟩ :=
      gardenerStep_inv hg hcov h1 (h2 a (List.mem_cons_self _ _))
    obtain ⟨hinv2, hmem2, hmono2⟩ := ih (gardenerStep ord g gs a) hinv1
      (fun rc h => h2 rc (List.mem_cons_of_mem _ h))
    rw [List.foldl_cons]
    refine ⟨hinv2, ?_, fun p hp => hmono2 _ (hmono1 _ hp)⟩
    intro rc h
    rcases List.mem_cons.1 h with rfl | h
    · exact hmono2 _ hmema
    · exact hmem2 rc h

/-- The full outcome of `find_garden_groups`: all regions well formed, the
regions pairwise disjoint, and they cover exactly the in-bounds cells. -/
theorem find_garden_groups_ok {g : Grid} (hg : Rect g) {ord : List SideOrientation}
    (hcov : ∀ o : SideOrientation, o ∈ ord) :
    (∀ rs ∈ find_garden_groups ord g, ∃ s : Position, inBoundsPos g s ∧
      rs = buildRegion ord g s.y_position s.x_position ∧
      RegionOK g (cellAt g s.y_position s.x_position) s rs) ∧
    List.Pairwise (fun r1 r2 => ∀ p, p ∈ regionCoords r1 → p ∉ regionCoords r2)
      (find_garden_groups ord g) ∧
    (∀ p, inBoundsPos g p ↔ ∃ rs ∈ find_garden_groups ord g, p ∈ regionCoords rs) := by
  have hinit : GardenerInv g ord ⟨[], []⟩ := by
    refine ⟨fun rs h => absurd h (List.not_mem_nil _), fun p => ?_,
      List.Pairwise.nil⟩
    constructor
    · intro h; cases h
    · rintro ⟨rs, h, -⟩; exact absurd h (List.not_mem_nil _)
  have hcells : ∀ rc ∈ gardenCellList g, inBoundsPos g (⟨rc.2, rc.1⟩ : Position) := by
    intro rc hrc
    have : (⟨rc.2, rc.1⟩ : Position) ∈ allCellsList g := by
      unfold allCellsList
      exact List.mem_map.2 ⟨rc, hrc, rfl⟩
    exact (mem_allCellsList hg).1 this
  obtain ⟨hinv, hmem, -⟩ :=
    gardener_fold_inv hg hcov (gardenCellList g) ⟨[], []⟩ hinit hcells
  have hregeq : find_garden_groups ord g =
      ((gardenCellList g).foldl (gardenerStep ord g) ⟨[], []⟩).regions := rfl
  refine ⟨by rw [hregeq]; exact hinv.1, by rw [hregeq]; exact hinv.2.2, ?_⟩
  intro p
  constructor
  · intro hp
    have hpl : p ∈ allCellsList g := (mem_allCellsList hg).2 hp
    unfold allCellsList at hpl
    obtain ⟨rc, hrc, rfl⟩ := List.mem_map.1 hpl
    have := hmem rc hrc
    rw [hregeq]
    exact (hinv.2.1 _).1 this
  · rintro ⟨rs, hrs, hp⟩
    rw [hregeq] at hrs
    obtain ⟨s, hs, -, -, hiff, -, -⟩ := hinv.1 rs hrs
    have hreach := (hiff p).1 hp
    have hvalid : validCell g (cellAt g s.y_position s.x_position) p :=
      hreach.valid ⟨hs, rfl⟩
    exact hvalid.1

theorem mem_foldr_union (L : List RegionState) (p : Position) :
    p ∈ L.foldr (fun rs acc => regionFinset rs ∪ acc) ∅ ↔
      ∃ rs ∈ L, p ∈ regionFinset rs := by
  induction L with
  | nil => simp
  | cons a l ih =>
    rw [List.foldr_cons, Finset.mem_union, ih]
    constructor
    · rintro (h | ⟨rs, hrs, hp⟩)
      · exact ⟨a, List.mem_cons_self _ _, h⟩
      · exact ⟨rs, List.mem_cons_of_mem _ hrs, hp⟩
    · rintro ⟨rs, hrs, hp⟩
      rcases List.mem_cons.1 hrs with rfl | h
      · exact Or.inl hp
      · exact Or.inr ⟨rs, h, hp⟩

theorem sum_areas_of_disjoint (L : List RegionState)
    (hnd : ∀ rs ∈ L, (regionCoords rs).Nodup)
    (hdisj : List.Pairwise (fun r1 r2 => ∀ p, p ∈ regionCoords r1 →
      p ∉ regionCoords r2) L) :
    (L.map get_area).sum = (L.foldr (fun rs acc => regionFinset rs ∪ acc) ∅).card := by
  induction L with
  | nil => simp
  | cons a l ih =>
    rw [List.pairwise_cons] at hdisj
    obtain ⟨ha, hl⟩ := hdisj
    rw [List.map_cons, List.sum_cons, List.foldr_cons,
      Finset.card_union_of_disjoint ?_, ih (fun rs h => hnd rs (List.mem_cons_of_mem _ h)) hl]
    · have harea : get_area a = (regionFinset a).card := by
        unfold get_area regionFinset
        rw [List.toFinset_card_of_nodup (hnd a (List.mem_cons_self _ _))]
        unfold regionCoords
        rw [List.length_map]
      rw [harea]
    · rw [Finset.disjoint_left]
      intro p hp hp2
      rw [mem_foldr_union] at hp2
      obtain ⟨rs, hrs, hprs⟩ := hp2
      have hp' : p ∈ regionCoords a := List.mem_toFinset.1 hp
      have hprs' : p ∈ regionCoords rs := List.mem_toFinset.1 hprs
      exact ha rs hrs p hp' hprs'

/-- The areas of the regions found by the Gardener sum to the number of grid
cells. -/
theorem sum_areas_eq {g : Grid} (hg : Rect g) {ord : List SideOrientation}
    (hcov : ∀ o : SideOrientation, o ∈ ord) :
    ((find_garden_groups ord g).map get_area).sum =
      g.length * (g.headD []).length := by
  obtain ⟨hwf, hdisj, hcover⟩ := find_garden_groups_ok hg hcov
  have hnd : ∀ rs ∈ find_garden_groups ord g, (regionCoords rs).Nodup := by
    intro rs hrs
    obtain ⟨s, -, -, hok⟩ := hwf rs hrs
    exact hok.1
  rw [sum_areas_of_disjoint _ hnd hdisj]
  have hunion : (find_garden_groups ord g).foldr
      (fun rs acc => regionFinset rs ∪ acc) ∅ = (allCellsList g).toFinset := by
    apply Finset.ext
    intro p
    rw [mem_foldr_union, List.mem_toFinset, mem_allCellsList hg]
    constructor
    · rintro ⟨rs, hrs, hp⟩
      exact (hcover p).2 ⟨rs, hrs, List.mem_toFinset.1 hp⟩
    · intro hp
      obtain ⟨rs, hrs, hp2⟩ := (hcover p).1 hp
      exact ⟨rs, hrs, List.mem_toFinset.2 hp2⟩
  rw [hunion, List.toFinset_card_of_nodup (nodup_allCellsList g)]
  have hlen : (allCellsList g).length = (gardenCellList g).length := by
    unfold allCellsList
    rw [List.length_map]
  rw [hlen, length_gardenCellList hg]

/-! ### Perimeter parity -/

theorem univ_orientations : (Finset.univ : Finset SideOrientation) =
    {SideOrientation.upper, SideOrientation.lower, SideOrientation.left,
      SideOrientation.right} := by decide

theorem count_orientations (P : SideOrientation → Prop) [DecidablePred P] :
    (orientations.filter fun o => decide (P o)).length =
      ((Finset.univ : Finset SideOrientation).filter P).card := by
  rw [univ_orientations]
  by_cases h1 : P SideOrientation.upper <;> by_cases h2 : P SideOrientation.lower <;>
    by_cases h3 : P SideOrientation.left <;> by_cases h4 : P SideOrientation.right <;>
    simp [orientations, Finset.filter_insert, Finset.filter_singleton, h1, h2, h3, h4]

theorem boolEqOfIff {a b : Bool} (h : a = true ↔ b = true) : a = b := by
  cases a <;> cases b <;> simp_all

/-- A stored snapshot's perimeter-side count is the geometric boundary count
of its cell. -/
theorem perimeter_sides_eq_boundaryCount {g : Grid} {plant : Char}
    {tp : TraversePosition} (h : StoredOK plant g tp) :
    get_number_of_perimeter_sides tp = boundaryCount g plant (tpPos tp) := by
  unfold get_number_of_perimeter_sides boundaryCount
  rw [show (orientations.filter fun o => isBoundaryStatus (tp.side_status_map.get o)) =
      (orientations.filter fun o =>
        decide (¬ validCell g plant (nbrPos o (tpPos tp)))) from
    List.filter_congr fun o _ => boolEqOfIff
      ((storedOK_boundary_iff h o).trans decide_eq_true_iff.symm)]
  exact count_orientations fun o => ¬ validCell g plant (nbrPos o (tpPos tp))

theorem foldl_add_eq_sum {α : Type} (f : α → Nat) :
    ∀ (l : List α) (n : Nat), l.foldl (fun acc x => acc + f x) n = n + (l.map f).sum := by
  intro l
  induction l with
  | nil => intro n; simp
  | cons a l ih =>
    intro n
    rw [List.foldl_cons, ih, List.map_cons, List.sum_cons]
    omega

/-- For a well-formed region, `get_perimeter` is the sum of the geometric
boundary counts over the region's cell set. -/
theorem perimeter_eq_sum {g : Grid} {plant : Char} {seed : Position}
    {rs : RegionState} (hok : RegionOK g plant seed rs) :
    get_perimeter rs = (regionFinset rs).sum (boundaryCount g plant) := by
  unfold get_perimeter
  rw [foldl_add_eq_sum, Nat.zero_add]
  have hmap : rs.traverse_positions.map get_number_of_perimeter_sides =
      (regionCoords rs).map (boundaryCount g plant) := by
    unfold regionCoords
    rw [List.map_map]
    apply List.map_congr_left
    intro tp htp
    exact perimeter_sides_eq_boundaryCount (hok.2.2.1 tp htp)
  rw [hmap]
  unfold regionFinset
  rw [List.sum_toFinset _ hok.1]

/-- Members of a well-formed region built on a valid seed are valid cells,
and the region is closed under valid adjacency. -/
theorem regionFinset_valid_closed {g : Grid} {plant : Char} {seed : Position}
    {rs : RegionState} (hok : RegionOK g plant seed rs)
    (hseed : validCell g plant seed) :
    (∀ p ∈ regionFinset rs, validCell g plant p) ∧
    (∀ p ∈ regionFinset rs, ∀ o,
      validCell g plant (nbrPos o p) ↔ nbrPos o p ∈ regionFinset rs) := by
  constructor
  · intro p hp
    have hr := (hok.2.1 p).1 (List.mem_toFinset.1 hp)
    exact hr.valid hseed
  · intro p hp o
    have hr := (hok.2.1 p).1 (List.mem_toFinset.1 hp)
    constructor
    · intro hv
      exact List.mem_toFinset.2 ((hok.2.1 _).2 (Reach.step o hr hv))
    · intro hmem
      have hr2 := (hok.2.1 _).1 (List.mem_toFinset.1 hmem)
      exact hr2.valid hseed

theorem boundary_add_degree {g : Grid} {plant : Char} {S : Finset Position}
    {p : Position}
    (hmax : ∀ o, validCell g plant (nbrPos o p) ↔ nbrPos o p ∈ S) :
    boundaryCount g plant p + degreeIn S p = 4 := by
  unfold boundaryCount degreeIn
  have hfe : (Finset.univ : Finset SideOrientation).filter
      (fun o => nbrPos o p ∈ S) =
      (Finset.univ : Finset SideOrientation).filter
      (fun o => validCell g plant (nbrPos o p)) := by
    apply Finset.filter_congr
    intro o _
    exact (hmax o).symm
  rw [hfe, Nat.add_comm,
    Finset.filter_card_add_filter_neg_card_eq_card
      (fun o => validCell g plant (nbrPos o p))]
  decide

theorem sum_degreeIn_eq_card_innerEdges (S : Finset Position) :
    S.sum (degreeIn S) = (innerEdges S).card := by
  rw [Finset.card_eq_sum_card_fiberwise (f := Prod.fst) (t := S) ?_]
  · apply Finset.sum_congr rfl
    intro p hp
    unfold degreeIn
    apply Finset.card_nbij' (fun o => (p, o)) (fun q => q.2)
    · intro o ho
      rw [Finset.mem_filter] at ho ⊢
      refine ⟨?_, rfl⟩
      unfold innerEdges
      rw [Finset.mem_filter, Finset.mem_product]
      exact ⟨⟨hp, Finset.mem_univ o⟩, ho.2⟩
    · intro q hq
      rw [Finset.mem_filter] at hq
      obtain ⟨hq1, hq2⟩ := hq
      unfold innerEdges at hq1
      rw [Finset.mem_filter, Finset.mem_product] at hq1
      rw [Finset.mem_filter]
      exact ⟨Finset.mem_univ _, hq2 ▸ hq1.2⟩
    · intro o ho
      rfl
    · intro q hq
      rw [Finset.mem_filter] at hq
      exact Prod.ext hq.2.symm rfl
  · intro q hq
    unfold innerEdges at hq
    rw [Finset.mem_filter, Finset.mem_product] at hq
    exact hq.1.1

theorem card_innerEdges_even (S : Finset Position) : Even (innerEdges S).card := by
  have hsplit := Finset.filter_card_add_filter_neg_card_eq_card
    (s := innerEdges S)
    (fun q => q.2 = SideOrientation.upper ∨ q.2 = SideOrientation.left)
  have hbij : ((innerEdges S).filter
      (fun q => q.2 = SideOrientation.upper ∨ q.2 = SideOrientation.left)).card =
      ((innerEdges S).filter
      (fun q => ¬ (q.2 = SideOrientation.upper ∨ q.2 = SideOrientation.left))).card := by
    apply Finset.card_nbij' (fun q => (nbrPos q.2 q.1, opposite q.2))
      (fun q => (nbrPos q.2 q.1, opposite q.2))
    · intro q hq
      rw [Finset.mem_filter] at hq ⊢
      obtain ⟨hq1, hq2⟩ := hq
      unfold innerEdges at hq1 ⊢
      rw [Finset.mem_filter, Finset.mem_product] at hq1
      rw [Finset.mem_filter, Finset.mem_product]
      refine ⟨⟨⟨hq1.2, Finset.mem_univ _⟩, ?_⟩, ?_⟩
      · rw [nbrPos_opposite]
        exact hq1.1.1
      · rcases hq2 with h | h <;> rw [h] <;> simp [opposite]
    · intro q hq
      rw [Finset.mem_filter] at hq ⊢
      obtain ⟨hq1, hq2⟩ := hq
      unfold innerEdges at hq1 ⊢
      rw [Finset.mem_filter, Finset.mem_product] at hq1
      rw [Finset.mem_filter, Finset.mem_product]
      refine ⟨⟨⟨hq1.2, Finset.mem_univ _⟩, ?_⟩, ?_⟩
      · rw [nbrPos_opposite]
        exact hq1.1.1
      · cases hco : q.2 <;> simp [hco, opposite] at hq2 ⊢
    · intro q hq
      rw [nbrPos_opposite, opposite_opposite]
    · intro q hq
      rw [nbrPos_opposite, opposite_opposite]
  rw [← hsplit, ← hbij]
  exact ⟨_, rfl⟩

/-- The perimeter of every well-formed region on a valid seed is even. -/
theorem perimeter_even {g : Grid} {plant : Char} {seed : Position}
    {rs : RegionState} (hok : RegionOK g plant seed rs)
    (hseed : validCell g plant seed) :
    Even (get_perimeter rs) := by
  obtain ⟨hval, hmax⟩ := regionFinset_valid_closed hok hseed
  rw [perimeter_eq_sum hok]
  have hsum : (regionFinset rs).sum (boundaryCount g plant) +
      (regionFinset rs).sum (degreeIn (regionFinset rs)) =
      4 * (regionFinset rs).card := by
    rw [← Finset.sum_add_distrib]
    rw [Finset.sum_congr rfl (fun p hp => boundary_add_degree (fun o => hmax p hp o))]
    rw [Finset.sum_const, smul_eq_mul, Nat.mul_comm]
  have heven := card_innerEdges_even (regionFinset rs)
  rw [← sum_degreeIn_eq_card_innerEdges] at heven
  obtain ⟨k, hk⟩ := heven
  refine ⟨2 * (regionFinset rs).card - k, ?_⟩
  omega

theorem endScan_ge (key : TraversePosition → Int) (bd : TraversePosition → Bool) :
    ∀ (l : List TraversePosition) (m : Int), m ≤ endScan key bd l m := by
  intro l
  induction l with
  | nil => intro m; exact le_refl m
  | cons tp rest ih =>
    intro m
    unfold endScan
    rw [List.foldl_cons]
    by_cases hc : key tp = m + 1 ∧ bd tp = true
    · rw [if_pos hc]
      have := ih (key tp)
      unfold endScan at this
      omega
    · rw [if_neg hc]
      exact ih m

/-- The scan of `get_end_position`: on a strictly increasing list it stops at
the largest chained key; every coordinate strictly between the start and the
result is the key of a boundary entry, and no entry keyed one past the result
has boundary status. -/
theorem endScan_spec (key : TraversePosition → Int) (bd : TraversePosition → Bool) :
    ∀ (l : List TraversePosition) (m : Int),
    List.Pairwise (fun a b => key a < key b) l →
    (∀ j : Int, m < j → j ≤ endScan key bd l m →
      ∃ tp ∈ l, key tp = j ∧ bd tp = true) ∧
    (∀ tp ∈ l, key tp = endScan key bd l m + 1 → bd tp = false) := by
  intro l
  induction l with
  | nil =>
    intro m _
    constructor
    · intro j hj1 hj2
      unfold endScan at hj2
      simp only [List.foldl_nil] at hj2
      omega
    · intro tp htp
      cases htp
  | cons tp rest ih =>
    intro m hpw
    rw [List.pairwise_cons] at hpw
    obtain ⟨hlt, hpw2⟩ := hpw
    have hfold : endScan key bd (tp :: rest) m =
        endScan key bd rest (if key tp = m + 1 ∧ bd tp then key tp else m) := by
      unfold endScan
      rw [List.foldl_cons]
    by_cases hc : key tp = m + 1 ∧ bd tp = true
    · rw [if_pos hc] at hfold
      obtain ⟨ihA, ihB⟩ := ih (key tp) hpw2
      have hge := endScan_ge key bd rest (key tp)
      constructor
      · intro j hj1 hj2
        rw [hfold] at hj2
        by_cases hjm : j = m + 1
        · exact ⟨tp, List.mem_cons_self tp rest, by omega, hc.2⟩
        · obtain ⟨tp2, htp2, hk2, hb2⟩ := ihA j (by omega) hj2
          exact ⟨tp2, List.mem_cons_of_mem tp htp2, hk2, hb2⟩
      · intro tp2 htp2 hk2
        rw [hfold] at hk2
        rcases List.mem_cons.1 htp2 with heq | hmem
        · subst heq
          omega
        · exact ihB tp2 hmem hk2
    · rw [if_neg hc] at hfold
      obtain ⟨ihA, ihB⟩ := ih m hpw2
      constructor
      · intro j hj1 hj2
        rw [hfold] at hj2
        obtain ⟨tp2, htp2, hk2, hb2⟩ := ihA j hj1 hj2
        exact ⟨tp2, List.mem_cons_of_mem tp htp2, hk2, hb2⟩
      · intro tp2 htp2 hk2
        rw [hfold] at hk2
        rcases List.mem_cons.1 htp2 with heq | hmem
        · subst heq
          by_cases hr : endScan key bd rest m = m
          · rw [hr] at hk2
            cases hb : bd tp2
            · rfl
            · exact absurd ⟨hk2, hb⟩ hc
          · have hgt : m < endScan key bd rest m := by
              have := endScan_ge key bd rest m
              omega
            obtain ⟨tp3, htp3, hk3, -⟩ := ihA (m + 1) (by omega) (by omega)
            have := hlt tp3 htp3
            omega
        · exact ihB tp2 hmem hk2

/-- Two maximal consecutive runs of an integer predicate that overlap have
the same endpoint. -/
theorem run_end_unique (E : Int → Prop) {a1 b1 a2 b2 : Int}
    (h1 : ∀ j, a1 ≤ j → j ≤ b1 → E j) (s1 : ¬ E (b1 + 1))
    (h2 : ∀ j, a2 ≤ j → j ≤ b2 → E j) (s2 : ¬ E (b2 + 1))
    (ha1 : a1 ≤ b1) (ha2 : a2 ≤ b2)
    (hov1 : a2 ≤ b1) (hov2 : a1 ≤ b2) : b1 = b2 := by
  by_contra hne
  rcases lt_or_gt_of_ne hne with hlt | hgt
  · exact s1 (h2 (b1 + 1) (by omega) (by omega))
  · exact s2 (h1 (b2 + 1) (by omega) (by omega))

/-- The overlap test of `RegionSide::operator==`, on the run intervals of two
candidate sides of one line, holds exactly when the runs share an endpoint. -/
theorem sideEq_core (E : Int → Prop) {py Mp qy Mq : Int}
    (hpseg : ∀ j, py ≤ j → j ≤ Mp → E j) (hpstop : ¬ E (Mp + 1)) (hpy : py ≤ Mp)
    (hqseg : ∀ j, qy ≤ j → j ≤ Mq → E j) (hqstop : ¬ E (Mq + 1)) (hqy : qy ≤ Mq) :
    ((¬ (qy < py ∧ Mq < py)) ∧ ¬ (qy > Mp ∧ Mq > Mp)) ↔ Mp = Mq := by
  constructor
  · rintro ⟨hA, hB⟩
    have hov1 : qy ≤ Mp := by
      rcases not_and_or.1 hB with h | h <;> omega
    have hov2 : py ≤ Mq := by
      rcases not_and_or.1 hA with h | h <;> omega
    exact run_end_unique E hpseg hpstop hqseg hqstop hpy hqy hov1 hov2
  · intro hM
    constructor <;> omega

theorem sum_univ_orientations (f : SideOrientation → Nat) :
    (Finset.univ : Finset SideOrientation).sum f =
      f SideOrientation.upper + f SideOrientation.lower + f SideOrientation.left +
        f SideOrientation.right := by
  rw [univ_orientations, Finset.sum_insert (by decide), Finset.sum_insert (by decide),
    Finset.sum_insert (by decide), Finset.sum_singleton]
  omega

theorem card_innerEdges_eq_sum (S : Finset Position) :
    (innerEdges S).card = (Finset.univ : Finset SideOrientation).sum
      fun o => (S.filter fun p => nbrPos o p ∈ S).card := by
  rw [← sum_degreeIn_eq_card_innerEdges]
  unfold degreeIn
  rw [Finset.sum_congr rfl fun p _ =>
    Finset.card_filter (fun o => nbrPos o p ∈ S) Finset.univ]
  rw [Finset.sum_comm]
  exact Finset.sum_congr rfl fun o _ =>
    (Finset.card_filter (fun p => nbrPos o p ∈ S) S).symm

/-- Edge-count accounting: the four directed boundary-edge sets and the
directed inner adjacencies together count every (cell, direction) pair. -/
theorem edge_cards_total (S : Finset Position) :
    (edgeSet S SideOrientation.upper).card + (edgeSet S SideOrientation.lower).card +
      (edgeSet S SideOrientation.left).card + (edgeSet S SideOrientation.right).card +
      (innerEdges S).card = 4 * S.card := by
  have hsplit : ∀ o : SideOrientation,
      (S.filter fun p => nbrPos o p ∈ S).card + (edgeSet S o).card = S.card := by
    intro o
    unfold edgeSet
    exact Finset.filter_card_add_filter_neg_card_eq_card fun p => nbrPos o p ∈ S
  have hinner := card_innerEdges_eq_sum S
  rw [sum_univ_orientations] at hinner
  have hU := hsplit SideOrientation.upper
  have hD := hsplit SideOrientation.lower
  have hL := hsplit SideOrientation.left
  have hR := hsplit SideOrientation.right
  omega

/-- Every boundary-edge set splits into its run-final cells and its
run-continuing cells. -/
theorem edge_card_split (S : Finset Position) (o : SideOrientation) :
    (runEndSet S o).card + (consecSet S o).card = (edgeSet S o).card := by
  unfold runEndSet consecSet
  rw [Nat.add_comm]
  exact Finset.filter_card_add_filter_neg_card_eq_card
    fun p => nbrPos (alongDir o) p ∈ edgeSet S o

theorem mem_windowBase_self {S : Finset Position} {p : Position} (hp : p ∈ S) :
    p ∈ windowBase S := by
  unfold windowBase
  rw [Finset.mem_union, Finset.mem_union, Finset.mem_union]
  exact Or.inl (Or.inl (Or.inl hp))

theorem mem_windowBase_left {S : Finset Position} {p : Position} (hp : p ∈ S) :
    nbrPos SideOrientation.left p ∈ windowBase S := by
  unfold windowBase
  rw [Finset.mem_union, Finset.mem_union, Finset.mem_union]
  exact Or.inl (Or.inl (Or.inr (Finset.mem_image_of_mem _ hp)))

theorem mem_windowBase_upper {S : Finset Position} {p : Position} (hp : p ∈ S) :
    nbrPos SideOrientation.upper p ∈ windowBase S := by
  unfold windowBase
  rw [Finset.mem_union, Finset.mem_union]
  exact Or.inl (Or.inr (Finset.mem_image_of_mem _ hp))

theorem mem_windowBase_upleft {S : Finset Position} {p : Position} (hp : p ∈ S) :
    nbrPos SideOrientation.upper (nbrPos SideOrientation.left p) ∈ windowBase S := by
  unfold windowBase
  rw [Finset.mem_union]
  exact Or.inr (Finset.mem_image_of_mem _ hp)

theorem card_filter_split2 (s : Finset Position) (Q : Position → Prop) [DecidablePred Q] :
    s.card = (s.filter Q).card + (s.filter fun a => ¬ Q a).card :=
  (Finset.filter_card_add_filter_neg_card_eq_card Q).symm

theorem filter4_winPat (S : Finset Position) (pa pb pc pd : Bool)
    (P Q R T : Position → Prop)
    [DecidablePred P] [DecidablePred Q] [DecidablePred R] [DecidablePred T]
    (h : ∀ a, (P a ∧ Q a ∧ R a ∧ T a) ↔
      (((a ∈ S) ↔ pa = true) ∧
       ((nbrPos SideOrientation.right a ∈ S) ↔ pb = true) ∧
       ((nbrPos SideOrientation.lower a ∈ S) ↔ pc = true) ∧
       ((nbrPos SideOrientation.right (nbrPos SideOrientation.lower a) ∈ S) ↔ pd = true))) :
    ((((windowBase S).filter P).filter Q).filter R).filter T = winPat S pa pb pc pd := by
  rw [Finset.filter_filter, Finset.filter_filter, Finset.filter_filter]
  unfold winPat
  apply Finset.filter_congr
  intro a _
  exact h a

theorem card_filter_shift (W S : Finset Position) (i j : Position → Position)
    (hij : ∀ p, j (i p) = p) (hji : ∀ a, i (j a) = a)
    (P : Position → Prop) [DecidablePred P]
    (hPS : ∀ p, P p → p ∈ S) (hW : ∀ p ∈ S, j p ∈ W) :
    (W.filter fun a => P (i a)).card = (S.filter P).card := by
  apply Finset.card_nbij' i j
  · intro a ha
    rw [Finset.mem_filter] at ha
    rw [Finset.mem_filter]
    exact ⟨hPS _ ha.2, ha.2⟩
  · intro p hp
    rw [Finset.mem_filter] at hp
    rw [Finset.mem_filter]
    refine ⟨hW p hp.1, ?_⟩
    rw [hji p]
    exact hp.2
  · intro a _
    exact hij a
  · intro p _
    exact hji p

theorem upper_lower (p : Position) :
    nbrPos SideOrientation.upper (nbrPos SideOrientation.lower p) = p :=
  nbrPos_opposite SideOrientation.lower p

theorem lower_upper (p : Position) :
    nbrPos SideOrientation.lower (nbrPos SideOrientation.upper p) = p :=
  nbrPos_opposite SideOrientation.upper p

theorem right_left (p : Position) :
    nbrPos SideOrientation.right (nbrPos SideOrientation.left p) = p :=
  nbrPos_opposite SideOrientation.left p

theorem left_right (p : Position) :
    nbrPos SideOrientation.left (nbrPos SideOrientation.right p) = p :=
  nbrPos_opposite SideOrientation.right p

theorem right_upper_comm (p : Position) :
    nbrPos SideOrientation.right (nbrPos SideOrientation.upper p) =
      nbrPos SideOrientation.upper (nbrPos SideOrientation.right p) := rfl

theorem right_lower_comm (p : Position) :
    nbrPos SideOrientation.right (nbrPos SideOrientation.lower p) =
      nbrPos SideOrientation.lower (nbrPos SideOrientation.right p) := rfl

theorem lower_left_comm (p : Position) :
    nbrPos SideOrientation.lower (nbrPos SideOrientation.left p) =
      nbrPos SideOrientation.left (nbrPos SideOrientation.lower p) := rfl

/-- Horizontally adjacent in-S pairs, split by the window patterns whose top
row is full. -/
theorem winPat_ab (S : Finset Position) :
    (S.filter fun p => nbrPos SideOrientation.right p ∈ S).card =
      (winPat S true true true true).card + (winPat S true true true false).card +
      (winPat S true true false true).card + (winPat S true true false false).card := by
  have hbase : (S.filter fun p => nbrPos SideOrientation.right p ∈ S) =
      ((windowBase S).filter fun a => a ∈ S).filter
        fun a => nbrPos SideOrientation.right a ∈ S := by
    rw [Finset.filter_filter]
    ext a
    rw [Finset.mem_filter, Finset.mem_filter]
    constructor
    · rintro ⟨h1, h2⟩
      exact ⟨mem_windowBase_self h1, h1, h2⟩
    · rintro ⟨-, h1, h2⟩
      exact ⟨h1, h2⟩
  rw [hbase,
    card_filter_split2 _ fun a => nbrPos SideOrientation.lower a ∈ S,
    card_filter_split2 _
      (fun a => nbrPos SideOrientation.right (nbrPos SideOrientation.lower a) ∈ S),
    card_filter_split2 ((((windowBase S).filter fun a => a ∈ S).filter
        fun a => nbrPos SideOrientation.right a ∈ S).filter
        fun a => ¬ nbrPos SideOrientation.lower a ∈ S)
      fun a => nbrPos SideOrientation.right (nbrPos SideOrientation.lower a) ∈ S,
    filter4_winPat S true true true true _ _ _ _ (fun a => by simp [and_assoc]),
    filter4_winPat S true true true false _ _ _ _ (fun a => by simp [and_assoc]),
    filter4_winPat S true true false true _ _ _ _ (fun a => by simp [and_assoc]),
    filter4_winPat S true true false false _ _ _ _ (fun a => by simp [and_assoc])]
  omega

/-- Horizontally adjacent in-S pairs, split by the window patterns whose
bottom row is full. -/
theorem winPat_cd (S : Finset Position) :
    (S.filter fun p => nbrPos SideOrientation.right p ∈ S).card =
      (winPat S true true true true).card + (winPat S true false true true).card +
      (winPat S false true true true).card + (winPat S false false true true).card := by
  have hshift : (((windowBase S).filter
        fun a => nbrPos SideOrientation.lower a ∈ S).filter
        fun a => nbrPos SideOrientation.right (nbrPos SideOrientation.lower a) ∈ S).card =
      (S.filter fun p => nbrPos SideOrientation.right p ∈ S).card := by
    rw [Finset.filter_filter]
    have h := card_filter_shift (windowBase S) S (nbrPos SideOrientation.lower)
      (nbrPos SideOrientation.upper) upper_lower lower_upper
      (fun p => p ∈ S ∧ nbrPos SideOrientation.right p ∈ S)
      (fun p h => h.1) (fun p hp => mem_windowBase_upper hp)
    rw [h]
    exact congrArg Finset.card (Finset.filter_congr fun p hp => by simp [hp])
  rw [← hshift,
    card_filter_split2 _ fun a => a ∈ S,
    card_filter_split2 _ (fun a => nbrPos SideOrientation.right a ∈ S),
    card_filter_split2 ((((windowBase S).filter
        fun a => nbrPos SideOrientation.lower a ∈ S).filter
        fun a => nbrPos SideOrientation.right (nbrPos SideOrientation.lower a) ∈ S).filter
        fun a => ¬ a ∈ S)
      fun a => nbrPos SideOrientation.right a ∈ S,
    filter4_winPat S true true true true _ _ _ _
      (fun a => by constructor <;> intro h <;> simp_all),
    filter4_winPat S true false true true _ _ _ _
      (fun a => by constructor <;> intro h <;> simp_all),
    filter4_winPat S false true true true _ _ _ _
      (fun a => by constructor <;> intro h <;> simp_all),
    filter4_winPat S false false true true _ _ _ _
      (fun a => by constructor <;> intro h <;> simp_all)]
  omega

/-- Vertically adjacent in-S pairs, split by the window patterns whose left
column is full. -/
theorem winPat_ac (S : Finset Position) :
    (S.filter fun p => nbrPos SideOrientation.lower p ∈ S).card =
      (winPat S true true true true).card + (winPat S true true true false).card +
      (winPat S true false true true).card + (winPat S true false true false).card := by
  have hbase : (S.filter fun p => nbrPos SideOrientation.lower p ∈ S) =
      ((windowBase S).filter fun a => a ∈ S).filter
        fun a => nbrPos SideOrientation.lower a ∈ S := by
    rw [Finset.filter_filter]
    ext a
    rw [Finset.mem_filter, Finset.mem_filter]
    constructor
    · rintro ⟨h1, h2⟩
      exact ⟨mem_windowBase_self h1, h1, h2⟩
    · rintro ⟨-, h1, h2⟩
      exact ⟨h1, h2⟩
  rw [hbase,
    card_filter_split2 _ fun a => nbrPos SideOrientation.right a ∈ S,
    card_filter_split2 _
      (fun a => nbrPos SideOrientation.right (nbrPos SideOrientation.lower a) ∈ S),
    card_filter_split2 ((((windowBase S).filter fun a => a ∈ S).filter
        fun a => nbrPos SideOrientation.lower a ∈ S).filter
        fun a => ¬ nbrPos SideOrientation.right a ∈ S)
      fun a => nbrPos SideOrientation.right (nbrPos SideOrientation.lower a) ∈ S,
    filter4_winPat S true true true true _ _ _ _
      (fun a => by constructor <;> intro h <;> simp_all),
    filter4_winPat S true true true false _ _ _ _
      (fun a => by constructor <;> intro h <;> simp_all),
    filter4_winPat S true false true true _ _ _ _
      (fun a => by constructor <;> intro h <;> simp_all),
    filter4_winPat S true false true false _ _ _ _
      (fun a => by constructor <;> intro h <;> simp_all)]
  omega

/-- Vertically adjacent in-S pairs, split by the window patterns whose right
column is full. -/
theorem winPat_bd (S : Finset Position) :
    (S.filter fun p => nbrPos SideOrientation.lower p ∈ S).card =
      (winPat S true true true true).card + (winPat S true true false true).card +
      (winPat S false true true true).card + (winPat S false true false true).card := by
  have hshift : (((windowBase S).filter
        fun a => nbrPos SideOrientation.right a ∈ S).filter
        fun a => nbrPos SideOrientation.right (nbrPos SideOrientation.lower a) ∈ S).card =
      (S.filter fun p => nbrPos SideOrientation.lower p ∈ S).card := by
    rw [Finset.filter_filter]
    have h := card_filter_shift (windowBase S) S (nbrPos SideOrientation.right)
      (nbrPos SideOrientation.left) left_right right_left
      (fun p => p ∈ S ∧ nbrPos SideOrientation.lower p ∈ S)
      (fun p h => h.1) (fun p hp => mem_windowBase_left hp)
    have hconv : ((windowBase S).filter fun a =>
        nbrPos SideOrientation.right a ∈ S ∧
          nbrPos SideOrientation.right (nbrPos SideOrientation.lower a) ∈ S) =
        ((windowBase S).filter fun a =>
          nbrPos SideOrientation.right a ∈ S ∧
            nbrPos SideOrientation.lower (nbrPos SideOrientation.right a) ∈ S) :=
      Finset.filter_congr fun a _ => by rw [right_lower_comm]
    rw [hconv, h]
    exact congrArg Finset.card (Finset.filter_congr fun p hp => by simp [hp])
  rw [← hshift,
    card_filter_split2 _ fun a => a ∈ S,
    card_filter_split2 _ (fun a => nbrPos SideOrientation.lower a ∈ S),
    card_filter_split2 ((((windowBase S).filter
        fun a => nbrPos SideOrientation.right a ∈ S).filter
        fun a => nbrPos SideOrientation.right (nbrPos SideOrientation.lower a) ∈ S).filter
        fun a => ¬ a ∈ S)
      fun a => nbrPos SideOrientation.lower a ∈ S,
    filter4_winPat S true true true true _ _ _ _
      (fun a => by constructor <;> intro h <;> simp_all),
    filter4_winPat S true true false true _ _ _ _
      (fun a => by constructor <;> intro h <;> simp_all),
    filter4_winPat S false true true true _ _ _ _
      (fun a => by constructor <;> intro h <;> simp_all),
    filter4_winPat S false true false true _ _ _ _
      (fun a => by constructor <;> intro h <;> simp_all)]
  omega

theorem consec_upper_card (S : Finset Position) :
    (consecSet S SideOrientation.upper).card = (winPat S false false true true).card := by
  apply Finset.card_nbij' (nbrPos SideOrientation.upper) (nbrPos SideOrientation.lower)
  · intro p hp
    unfold consecSet edgeSet at hp
    rw [Finset.mem_filter, Finset.mem_filter, Finset.mem_filter] at hp
    obtain ⟨⟨hpS, hup⟩, hrS, hrup⟩ := hp
    unfold winPat
    rw [Finset.mem_filter]
    refine ⟨mem_windowBase_upper hpS, ?_, ?_, ?_, ?_⟩
    · exact ⟨fun h => absurd h hup, fun h => absurd h Bool.false_ne_true⟩
    · rw [right_upper_comm]
      exact ⟨fun h => absurd h hrup, fun h => absurd h Bool.false_ne_true⟩
    · rw [lower_upper]
      exact ⟨fun _ => rfl, fun _ => hpS⟩
    · rw [lower_upper]
      exact ⟨fun _ => rfl, fun _ => hrS⟩
  · intro a ha
    unfold winPat at ha
    rw [Finset.mem_filter] at ha
    obtain ⟨-, hA, hB, hC, hD⟩ := ha
    have haS : a ∉ S := fun h => Bool.false_ne_true (hA.1 h)
    have hbS : nbrPos SideOrientation.right a ∉ S := fun h => Bool.false_ne_true (hB.1 h)
    have hcS : nbrPos SideOrientation.lower a ∈ S := hC.2 rfl
    have hdS : nbrPos SideOrientation.right (nbrPos SideOrientation.lower a) ∈ S := hD.2 rfl
    unfold consecSet edgeSet
    rw [Finset.mem_filter, Finset.mem_filter, Finset.mem_filter]
    refine ⟨⟨hcS, ?_⟩, ?_, ?_⟩
    · rw [upper_lower]
      exact haS
    · exact hdS
    · show nbrPos SideOrientation.upper
        (nbrPos SideOrientation.right (nbrPos SideOrientation.lower a)) ∉ S
      rw [right_lower_comm, upper_lower]
      exact hbS
  · intro p _
    exact lower_upper p
  · intro a _
    exact upper_lower a

theorem consec_left_card (S : Finset Position) :
    (consecSet S SideOrientation.left).card = (winPat S false true false true).card := by
  apply Finset.card_nbij' (nbrPos SideOrientation.left) (nbrPos SideOrientation.right)
  · intro p hp
    unfold consecSet edgeSet at hp
    rw [Finset.mem_filter, Finset.mem_filter, Finset.mem_filter] at hp
    obtain ⟨⟨hpS, hle⟩, hdS, hdle⟩ := hp
    unfold winPat
    rw [Finset.mem_filter]
    refine ⟨mem_windowBase_left hpS, ?_, ?_, ?_, ?_⟩
    · exact ⟨fun h => absurd h hle, fun h => absurd h Bool.false_ne_true⟩
    · rw [right_left]
      exact ⟨fun _ => rfl, fun _ => hpS⟩
    · rw [lower_left_comm]
      exact ⟨fun h => absurd h hdle, fun h => absurd h Bool.false_ne_true⟩
    · rw [lower_left_comm, right_left]
      exact ⟨fun _ => rfl, fun _ => hdS⟩
  · intro a ha
    unfold winPat at ha
    rw [Finset.mem_filter] at ha
    obtain ⟨-, hA, hB, hC, hD⟩ := ha
    have haS : a ∉ S := fun h => Bool.false_ne_true (hA.1 h)
    have hbS : nbrPos SideOrientation.right a ∈ S := hB.2 rfl
    have hcS : nbrPos SideOrientation.lower a ∉ S := fun h => Bool.false_ne_true (hC.1 h)
    have hdS : nbrPos SideOrientation.right (nbrPos SideOrientation.lower a) ∈ S := hD.2 rfl
    unfold consecSet edgeSet
    rw [Finset.mem_filter, Finset.mem_filter, Finset.mem_filter]
    refine ⟨⟨hbS, ?_⟩, ?_, ?_⟩
    · rw [left_right]
      exact haS
    · show nbrPos SideOrientation.lower (nbrPos SideOrientation.right a) ∈ S
      rw [← right_lower_comm]
      exact hdS
    · show nbrPos SideOrientation.left
        (nbrPos SideOrientation.lower (nbrPos SideOrientation.right a)) ∉ S
      rw [← right_lower_comm, left_right]
      exact hcS
  · intro p _
    exact right_left p
  · intro a _
    exact left_right a

theorem consec_lower_card (S : Finset Position) :
    (consecSet S SideOrientation.lower).card = (winPat S true true false false).card := by
  apply congrArg Finset.card
  unfold consecSet edgeSet winPat
  ext p
  rw [Finset.mem_filter, Finset.mem_filter, Finset.mem_filter, Finset.mem_filter]
  constructor
  · rintro ⟨⟨hpS, hlo⟩, hrS, hrlo⟩
    refine ⟨mem_windowBase_self hpS, ⟨fun _ => rfl, fun _ => hpS⟩,
      ⟨fun _ => rfl, fun _ => hrS⟩,
      ⟨fun h => absurd h hlo, fun h => absurd h Bool.false_ne_true⟩, ?_⟩
    rw [right_lower_comm]
    exact ⟨fun h => absurd h hrlo, fun h => absurd h Bool.false_ne_true⟩
  · rintro ⟨-, hA, hB, hC, hD⟩
    refine ⟨⟨hA.2 rfl, fun h => Bool.false_ne_true (hC.1 h)⟩, hB.2 rfl, ?_⟩
    show nbrPos SideOrientation.lower (nbrPos SideOrientation.right p) ∉ S
    rw [← right_lower_comm]
    exact fun h => Bool.false_ne_true (hD.1 h)

theorem consec_right_card (S : Finset Position) :
    (consecSet S SideOrientation.right).card = (winPat S true false true false).card := by
  apply congrArg Finset.card
  unfold consecSet edgeSet winPat
  ext p
  rw [Finset.mem_filter, Finset.mem_filter, Finset.mem_filter, Finset.mem_filter]
  constructor
  · rintro ⟨⟨hpS, hri⟩, hdS, hdri⟩
    exact ⟨mem_windowBase_self hpS, ⟨fun _ => rfl, fun _ => hpS⟩,
      ⟨fun h => absurd h hri, fun h => absurd h Bool.false_ne_true⟩,
      ⟨fun _ => rfl, fun _ => hdS⟩,
      ⟨fun h => absurd h hdri, fun h => absurd h Bool.false_ne_true⟩⟩
  · rintro ⟨-, hA, hB, hC, hD⟩
    exact ⟨⟨hA.2 rfl, fun h => Bool.false_ne_true (hB.1 h)⟩, hC.2 rfl,
      fun h => Bool.false_ne_true (hD.1 h)⟩

/-- The run-continuation pairs of the four orientations are even in total:
they biject with the degenerate window patterns, which the double-counting of
adjacent in-S pairs shows to be even. -/
theorem consec_total_even (S : Finset Position) :
    Even ((consecSet S SideOrientation.upper).card +
      (consecSet S SideOrientation.lower).card +
      (consecSet S SideOrientation.left).card +
      (consecSet S SideOrientation.right).card) := by
  have hab := winPat_ab S
  have hcd := winPat_cd S
  have hac := winPat_ac S
  have hbd := winPat_bd S
  have hU := consec_upper_card S
  have hD := consec_lower_card S
  have hL := consec_left_card S
  have hR := consec_right_card S
  exact Nat.even_iff.2 (by omega)

/-- Total number of run ends over the four orientations is even. -/
theorem runEnd_total_even (S : Finset Position) :
    Even ((runEndSet S SideOrientation.upper).card +
      (runEndSet S SideOrientation.lower).card +
      (runEndSet S SideOrientation.left).card +
      (runEndSet S SideOrientation.right).card) := by
  have hU := edge_card_split S SideOrientation.upper
  have hD := edge_card_split S SideOrientation.lower
  have hL := edge_card_split S SideOrientation.left
  have hR := edge_card_split S SideOrientation.right
  have htot := edge_cards_total S
  have hinner := card_innerEdges_even S
  have hcons := consec_total_even S
  rw [Nat.even_iff] at hinner hcons ⊢
  omega

theorem exists_lex_max (S : Finset Position) (hS : S.Nonempty) (f g : Position → Int) :
    ∃ p ∈ S, (∀ q ∈ S, f q ≤ f p) ∧ (∀ q ∈ S, f q = f p → g q ≤ g p) := by
  obtain ⟨m, hm, hmax⟩ := S.exists_max_image f hS
  have hT : (S.filter fun q => f q = f m).Nonempty := ⟨m, by
    rw [Finset.mem_filter]
    exact ⟨hm, rfl⟩⟩
  obtain ⟨p, hp, hgmax⟩ := (S.filter fun q => f q = f m).exists_max_image g hT
  rw [Finset.mem_filter] at hp
  refine ⟨p, hp.1, ?_, ?_⟩
  · intro q hq
    rw [hp.2]
    exact hmax q hq
  · intro q hq hfq
    apply hgmax
    rw [Finset.mem_filter]
    exact ⟨hq, by rw [hfq, hp.2]⟩

theorem runEndSet_nonempty (S : Finset Position) (hS : S.Nonempty) (o : SideOrientation)
    (f g : Position → Int)
    (h1 : ∀ p, f p < f (nbrPos o p))
    (h2 : ∀ p, f (nbrPos (alongDir o) p) = f p)
    (h3 : ∀ p, g p < g (nbrPos (alongDir o) p)) :
    (runEndSet S o).Nonempty := by
  obtain ⟨p, hp, hfmax, hgmax⟩ := exists_lex_max S hS f g
  refine ⟨p, ?_⟩
  unfold runEndSet edgeSet
  rw [Finset.mem_filter, Finset.mem_filter]
  have hedge : nbrPos o p ∉ S := fun hmem => absurd (hfmax _ hmem) (not_le.2 (h1 p))
  refine ⟨⟨hp, hedge⟩, ?_⟩
  intro hmem
  rw [Finset.mem_filter] at hmem
  exact absurd (hgmax _ hmem.1 (h2 p)) (not_le.2 (h3 p))

/-- Every orientation of a nonempty cell set has at least one run end. -/
theorem runEndSet_nonempty_all (S : Finset Position) (hS : S.Nonempty)
    (o : SideOrientation) : (runEndSet S o).Nonempty := by
  cases o
  · exact runEndSet_nonempty S hS SideOrientation.upper
      (fun p => -p.y_position) (fun p => p.x_position)
      (fun p => by simp only [nbrPos, stepPos]; omega)
      (fun p => by simp [nbrPos, stepPos, alongDir])
      (fun p => by simp [nbrPos, stepPos, alongDir])
  · exact runEndSet_nonempty S hS SideOrientation.lower
      (fun p => p.y_position) (fun p => p.x_position)
      (fun p => by simp [nbrPos, stepPos])
      (fun p => by simp [nbrPos, stepPos, alongDir])
      (fun p => by simp [nbrPos, stepPos, alongDir])
  · exact runEndSet_nonempty S hS SideOrientation.left
      (fun p => -p.x_position) (fun p => p.y_position)
      (fun p => by simp only [nbrPos, stepPos]; omega)
      (fun p => by simp [nbrPos, stepPos, alongDir])
      (fun p => by simp [nbrPos, stepPos, alongDir])
  · exact runEndSet_nonempty S hS SideOrientation.right
      (fun p => p.x_position) (fun p => p.y_position)
      (fun p => by simp [nbrPos, stepPos])
      (fun p => by simp [nbrPos, stepPos, alongDir])
      (fun p => by simp [nbrPos, stepPos, alongDir])

/-- Total number of run ends over the four orientations is at least four. -/
theorem runEnd_total_ge4 (S : Finset Position) (hS : S.Nonempty) :
    4 ≤ (runEndSet S SideOrientation.upper).card +
      (runEndSet S SideOrientation.lower).card +
      (runEndSet S SideOrientation.left).card +
      (runEndSet S SideOrientation.right).card := by
  have hU := Finset.card_pos.2 (runEndSet_nonempty_all S hS SideOrientation.upper)
  have hD := Finset.card_pos.2 (runEndSet_nonempty_all S hS SideOrientation.lower)
  have hL := Finset.card_pos.2 (runEndSet_nonempty_all S hS SideOrientation.left)
  have hR := Finset.card_pos.2 (runEndSet_nonempty_all S hS SideOrientation.right)
  omega

theorem foldl_congr {α γ : Type} {f g : γ → α → γ} (h : ∀ a x, f a x = g a x) :
    ∀ (l : List α) (acc : γ), l.foldl f acc = l.foldl g acc := by
  intro l
  induction l with
  | nil => intro acc; rfl
  | cons x rest ih =>
    intro acc
    rw [List.foldl_cons, List.foldl_cons, h acc x, ih]

theorem foldl_guard {α β γ : Type} (step : γ → β → γ) (P : α → Bool) (f : α → β) :
    ∀ (l : List α) (acc : γ),
      l.foldl (fun a x => if P x then step a (f x) else a) acc =
        ((l.filter P).map f).foldl step acc := by
  intro l
  induction l with
  | nil => intro acc; rfl
  | cons x rest ih =>
    intro acc
    cases h : P x <;> simp [List.filter_cons, h, ih]

theorem foldl_flatMap {α β γ : Type} (step : γ → β → γ) (f : α → List β) :
    ∀ (l : List α) (acc : γ),
      (l.flatMap f).foldl step acc = l.foldl (fun a x => (f x).foldl step a) acc := by
  intro l
  induction l with
  | nil => intro acc; rfl
  | cons x rest ih =>
    intro acc
    rw [List.flatMap_cons, List.foldl_append, List.foldl_cons, ih]

/-- `get_num_of_region_sides` of a nonempty region is the length of the
greedy deduplication scan over the full candidate list. -/
theorem num_sides_eq_dedup (rs : RegionState) (hne : rs.traverse_positions ≠ []) :
    get_num_of_region_sides rs =
      (dedupSides (sideCandidates rs.traverse_positions)).length := by
  unfold get_num_of_region_sides
  rw [if_neg (by simp [List.isEmpty_iff, hne])]
  unfold dedupSides sideCandidates
  rw [foldl_flatMap]
  refine congrArg List.length (foldl_congr (fun acc tp => ?_) rs.traverse_positions [])
  exact foldl_guard insertSide
    (fun o => isBoundaryStatus (tp.side_status_map.get o))
    (fun o => RegionSide.make o ⟨tp.x_position, tp.y_position⟩ rs.traverse_positions)
    orientations acc

/-- The greedy duplicate scan of `get_num_of_region_sides`: if comparison is
equivalent to key equality on all scanned sides, the scan keeps exactly one
side per key. -/
theorem insertScan_spec :
    ∀ (l acc : List RegionSide),
      (∀ a ∈ l, ∀ b ∈ acc, (regionSideEq a b = true ↔ sideKey a = sideKey b)) →
      (∀ a ∈ l, ∀ b ∈ l, (regionSideEq a b = true ↔ sideKey a = sideKey b)) →
      (acc.map sideKey).Nodup →
      ((l.foldl insertSide acc).map sideKey).toFinset =
          (acc.map sideKey).toFinset ∪ (l.map sideKey).toFinset ∧
        ((l.foldl insertSide acc).map sideKey).Nodup := by
  intro l
  induction l with
  | nil =>
    intro acc _ _ hnd
    exact ⟨by simp, hnd⟩
  | cons a rest ih =>
    intro acc hcross hself hnd
    rw [List.foldl_cons]
    by_cases hany : acc.any (fun ex => regionSideEq a ex) = true
    · have hstep : insertSide acc a = acc := by
        unfold insertSide
        rw [if_pos hany]
      rw [hstep]
      rw [List.any_eq_true] at hany
      obtain ⟨b, hb, hab⟩ := hany
      have hk : sideKey a = sideKey b :=
        (hcross a (List.mem_cons_self a rest) b hb).1 hab
      obtain ⟨ih1, ih2⟩ := ih acc
        (fun x hx => hcross x (List.mem_cons_of_mem a hx))
        (fun x hx y hy =>
          hself x (List.mem_cons_of_mem a hx) y (List.mem_cons_of_mem a hy)) hnd
      refine ⟨?_, ih2⟩
      rw [ih1]
      ext k
      simp only [Finset.mem_union, List.mem_toFinset, List.map_cons, List.mem_cons]
      constructor
      · rintro (h | h)
        · exact Or.inl h
        · exact Or.inr (Or.inr h)
      · rintro (h | h | h)
        · exact Or.inl h
        · refine Or.inl ?_
          rw [h, hk]
          exact List.mem_map_of_mem sideKey hb
        · exact Or.inr h
    · have hstep : insertSide acc a = acc ++ [a] := by
        unfold insertSide
        rw [if_neg hany]
      rw [hstep]
      have hknot : sideKey a ∉ acc.map sideKey := by
        intro hmem
        rw [List.mem_map] at hmem
        obtain ⟨b, hb, hkb⟩ := hmem
        apply hany
        rw [List.any_eq_true]
        exact ⟨b, hb, (hcross a (List.mem_cons_self a rest) b hb).2 hkb.symm⟩
      have hnd2 : ((acc ++ [a]).map sideKey).Nodup := by
        rw [List.map_append, List.nodup_append]
        refine ⟨hnd, List.nodup_singleton _, fun x hx hxa => ?_⟩
        rw [List.map_singleton, List.mem_singleton] at hxa
        rw [hxa] at hx
        exact hknot hx
      have hcross2 : ∀ x ∈ rest, ∀ b ∈ acc ++ [a],
          (regionSideEq x b = true ↔ sideKey x = sideKey b) := by
        intro x hx b hb
        rcases List.mem_append.1 hb with hacc | hone
        · exact hcross x (List.mem_cons_of_mem a hx) b hacc
        · rw [List.mem_singleton] at hone
          rw [hone]
          exact hself x (List.mem_cons_of_mem a hx) a (List.mem_cons_self a rest)
      obtain ⟨ih1, ih2⟩ := ih (acc ++ [a]) hcross2
        (fun x hx y hy =>
          hself x (List.mem_cons_of_mem a hx) y (List.mem_cons_of_mem a hy)) hnd2
      refine ⟨?_, ih2⟩
      rw [ih1, List.map_append]
      ext k
      simp only [Finset.mem_union, List.mem_toFinset, List.mem_append,
        List.map_singleton, List.mem_singleton, List.map_cons, List.mem_cons]
      tauto

/-- `get_end_position` of a LEFT/RIGHT side of a well-formed region: it stays
on the start's column and extends exactly to the end of the maximal
consecutive run of boundary cells through the start. -/
theorem endpos_spec_ver {g : Grid} {plant : Char} {seed : Position} {rs : RegionState}
    (hok : RegionOK g plant seed rs) (hseed : validCell g plant seed)
    (o : SideOrientation) (ho : o = SideOrientation.left ∨ o = SideOrientation.right)
    {p : Position} (hp : p ∈ edgeSet (regionFinset rs) o) :
    ∃ M : Int,
      get_end_position o p rs.traverse_positions =
        { x_position := p.x_position, y_position := M } ∧
      p.y_position ≤ M ∧
      (∀ j : Int, p.y_position ≤ j → j ≤ M →
        ({ x_position := p.x_position, y_position := j } : Position) ∈
          edgeSet (regionFinset rs) o) ∧
      ({ x_position := p.x_position, y_position := M + 1 } : Position) ∉
        edgeSet (regionFinset rs) o := by
  have hclosed := (regionFinset_valid_closed hok hseed).2
  have hstored : ∀ tp ∈ rs.traverse_positions, StoredOK plant g tp := hok.2.2.1
  have hnodupPos : (rs.traverse_positions.map tpPos).Nodup := hok.1
  set kept := rs.traverse_positions.filter
    (fun tp => tp.x_position == p.x_position) with hkeptDef
  set sorted := List.insertionSort
    (fun a b : TraversePosition => a.y_position ≤ b.y_position) kept with hsortedDef
  set M := endScan (fun tp => tp.y_position)
    (fun tp => isBoundaryStatus (tp.side_status_map.get o)) sorted p.y_position
    with hMDef
  have hperm : List.Perm sorted kept := List.perm_insertionSort _ kept
  have hmem_kept : ∀ tp, tp ∈ kept ↔
      tp ∈ rs.traverse_positions ∧ tp.x_position = p.x_position := by
    intro tp
    rw [hkeptDef, List.mem_filter, beq_iff_eq]
  have hsortlt : sorted.Pairwise (fun a b => a.y_position < b.y_position) := by
    have hle : sorted.Pairwise
        (fun a b : TraversePosition => a.y_position ≤ b.y_position) :=
      List.sorted_insertionSort _ kept
    have hkeptne : kept.Pairwise (fun a b => tpPos a ≠ tpPos b) := by
      have hsub : List.Sublist (kept.map tpPos) (rs.traverse_positions.map tpPos) :=
        List.Sublist.map tpPos (List.filter_sublist _)
      have hnd : (kept.map tpPos).Nodup := List.Nodup.sublist hsub hnodupPos
      exact List.pairwise_map.1 hnd
    have hmemne : kept.Pairwise (fun a b => a.y_position ≠ b.y_position) := by
      have h1 := List.Pairwise.and_mem.1 hkeptne
      refine h1.imp ?_
      intro a b h hyeq
      refine h.2.2 ?_
      have hax : a.x_position = p.x_position := ((hmem_kept a).1 h.1).2
      have hbx : b.x_position = p.x_position := ((hmem_kept b).1 h.2.1).2
      show ({ x_position := a.x_position, y_position := a.y_position } : Position) =
        { x_position := b.x_position, y_position := b.y_position }
      rw [hax, hbx, hyeq]
    have hne_sorted : sorted.Pairwise (fun a b => a.y_position ≠ b.y_position) :=
      (hperm.pairwise_iff fun h => Ne.symm h).2 hmemne
    exact (hle.and hne_sorted).imp fun h => lt_of_le_of_ne h.1 h.2
  have hBiff : ∀ j : Int,
      (∃ tp ∈ sorted, tp.y_position = j ∧
        isBoundaryStatus (tp.side_status_map.get o) = true) ↔
        ({ x_position := p.x_position, y_position := j } : Position) ∈
          edgeSet (regionFinset rs) o := by
    intro j
    constructor
    · rintro ⟨tp, htp, hkey, hbd⟩
      have hk := (hmem_kept tp).1 (hperm.mem_iff.1 htp)
      have hpos : tpPos tp = ⟨p.x_position, j⟩ := by
        unfold tpPos
        rw [hk.2, hkey]
      have hS : tpPos tp ∈ regionFinset rs := by
        unfold regionFinset
        exact List.mem_toFinset.2 (List.mem_map_of_mem tpPos hk.1)
      have hnv := (storedOK_boundary_iff (hstored tp hk.1) o).1 hbd
      unfold edgeSet
      rw [Finset.mem_filter, ← hpos]
      exact ⟨hS, fun hmem => hnv ((hclosed (tpPos tp) hS o).2 hmem)⟩
    · intro hmem
      unfold edgeSet at hmem
      rw [Finset.mem_filter] at hmem
      obtain ⟨hS, hnb⟩ := hmem
      have hc : (⟨p.x_position, j⟩ : Position) ∈ regionCoords rs := by
        unfold regionFinset at hS
        exact List.mem_toFinset.1 hS
      unfold regionCoords at hc
      rw [List.mem_map] at hc
      obtain ⟨tp, htp, htpp⟩ := hc
      have hS2 : tpPos tp ∈ regionFinset rs := by
        rw [htpp]
        unfold regionFinset
        exact hS
      refine ⟨tp, hperm.mem_iff.2 ((hmem_kept tp).2
        ⟨htp, congrArg Position.x_position htpp⟩),
        congrArg Position.y_position htpp, ?_⟩
      rw [storedOK_boundary_iff (hstored tp htp) o]
      intro hv
      apply hnb
      rw [← htpp]
      exact (hclosed (tpPos tp) hS2 o).1 hv
  obtain ⟨hA, hB⟩ := endScan_spec (fun tp => tp.y_position)
    (fun tp => isBoundaryStatus (tp.side_status_map.get o)) sorted p.y_position hsortlt
  have hge := endScan_ge (fun tp => tp.y_position)
    (fun tp => isBoundaryStatus (tp.side_status_map.get o)) sorted p.y_position
  rw [← hMDef] at hA hB hge
  refine ⟨M, ?_, hge, ?_, ?_⟩
  · rw [hMDef, hsortedDef, hkeptDef]
    unfold get_end_position endScan
    rw [if_pos ho]
  · intro j hj1 hj2
    by_cases hjp : j = p.y_position
    · rw [hjp]
      have hpe : ({ x_position := p.x_position, y_position := p.y_position } :
          Position) = p := rfl
      rw [hpe]
      exact hp
    · exact (hBiff j).1 (hA j (by omega) hj2)
  · intro hmem
    obtain ⟨tp, htp, hkey, hbd⟩ := (hBiff (M + 1)).2 hmem
    rw [hB tp htp hkey] at hbd
    cases hbd

/-- `get_end_position` of an UPPER/LOWER side of a well-formed region: it
stays on the start's row and extends exactly to the end of the maximal
consecutive run of boundary cells through the start. -/
theorem endpos_spec_hor {g : Grid} {plant : Char} {seed : Position} {rs : RegionState}
    (hok : RegionOK g plant seed rs) (hseed : validCell g plant seed)
    (o : SideOrientation) (ho : o = SideOrientation.upper ∨ o = SideOrientation.lower)
    {p : Position} (hp : p ∈ edgeSet (regionFinset rs) o) :
    ∃ M : Int,
      get_end_position o p rs.traverse_positions =
        { x_position := M, y_position := p.y_position } ∧
      p.x_position ≤ M ∧
      (∀ j : Int, p.x_position ≤ j → j ≤ M →
        ({ x_position := j, y_position := p.y_position } : Position) ∈
          edgeSet (regionFinset rs) o) ∧
      ({ x_position := M + 1, y_position := p.y_position } : Position) ∉
        edgeSet (regionFinset rs) o := by
  have hclosed := (regionFinset_valid_closed hok hseed).2
  have hstored : ∀ tp ∈ rs.traverse_positions, StoredOK plant g tp := hok.2.2.1
  have hnodupPos : (rs.traverse_positions.map tpPos).Nodup := hok.1
  set kept := rs.traverse_positions.filter
    (fun tp => tp.y_position == p.y_position) with hkeptDef
  set sorted := List.insertionSort
    (fun a b : TraversePosition => a.x_position ≤ b.x_position) kept with hsortedDef
  set M := endScan (fun tp => tp.x_position)
    (fun tp => isBoundaryStatus (tp.side_status_map.get o)) sorted p.x_position
    with hMDef
  have hperm : List.Perm sorted kept := List.perm_insertionSort _ kept
  have hmem_kept : ∀ tp, tp ∈ kept ↔
      tp ∈ rs.traverse_positions ∧ tp.y_position = p.y_position := by
    intro tp
    rw [hkeptDef, List.mem_filter, beq_iff_eq]
  have hsortlt : sorted.Pairwise (fun a b => a.x_position < b.x_position) := by
    have hle : sorted.Pairwise
        (fun a b : TraversePosition => a.x_position ≤ b.x_position) :=
      List.sorted_insertionSort _ kept
    have hkeptne : kept.Pairwise (fun a b => tpPos a ≠ tpPos b) := by
      have hsub : List.Sublist (kept.map tpPos) (rs.traverse_positions.map tpPos) :=
        List.Sublist.map tpPos (List.filter_sublist _)
      have hnd : (kept.map tpPos).Nodup := List.Nodup.sublist hsub hnodupPos
      exact List.pairwise_map.1 hnd
    have hmemne : kept.Pairwise (fun a b => a.x_position ≠ b.x_position) := by
      have h1 := List.Pairwise.and_mem.1 hkeptne
      refine h1.imp ?_
      intro a b h hxeq
      refine h.2.2 ?_
      have hay : a.y_position = p.y_position := ((hmem_kept a).1 h.1).2
      have hby : b.y_position = p.y_position := ((hmem_kept b).1 h.2.1).2
      show ({ x_position := a.x_position, y_position := a.y_position } : Position) =
        { x_position := b.x_position, y_position := b.y_position }
      rw [hay, hby, hxeq]
    have hne_sorted : sorted.Pairwise (fun a b => a.x_position ≠ b.x_position) :=
      (hperm.pairwise_iff fun h => Ne.symm h).2 hmemne
    exact (hle.and hne_sorted).imp fun h => lt_of_le_of_ne h.1 h.2
  have hBiff : ∀ j : Int,
      (∃ tp ∈ sorted, tp.x_position = j ∧
        isBoundaryStatus (tp.side_status_map.get o) = true) ↔
        ({ x_position := j, y_position := p.y_position } : Position) ∈
          edgeSet (regionFinset rs) o := by
    intro j
    constructor
    · rintro ⟨tp, htp, hkey, hbd⟩
      have hk := (hmem_kept tp).1 (hperm.mem_iff.1 htp)
      have hpos : tpPos tp = ⟨j, p.y_position⟩ := by
        unfold tpPos
        rw [hk.2, hkey]
      have hS : tpPos tp ∈ regionFinset rs := by
        unfold regionFinset
        exact List.mem_toFinset.2 (List.mem_map_of_mem tpPos hk.1)
      have hnv := (storedOK_boundary_iff (hstored tp hk.1) o).1 hbd
      unfold edgeSet
      rw [Finset.mem_filter, ← hpos]
      exact ⟨hS, fun hmem => hnv ((hclosed (tpPos tp) hS o).2 hmem)⟩
    · intro hmem
      unfold edgeSet at hmem
      rw [Finset.mem_filter] at hmem
      obtain ⟨hS, hnb⟩ := hmem
      have hc : (⟨j, p.y_position⟩ : Position) ∈ regionCoords rs := by
        unfold regionFinset at hS
        exact List.mem_toFinset.1 hS
      unfold regionCoords at hc
      rw [List.mem_map] at hc
      obtain ⟨tp, htp, htpp⟩ := hc
      have hS2 : tpPos tp ∈ regionFinset rs := by
        rw [htpp]
        unfold regionFinset
        exact hS
      refine ⟨tp, hperm.mem_iff.2 ((hmem_kept tp).2
        ⟨htp, congrArg Position.y_position htpp⟩),
        congrArg Position.x_position htpp, ?_⟩
      rw [storedOK_boundary_iff (hstored tp htp) o]
      intro hv
      apply hnb
      rw [← htpp]
      exact (hclosed (tpPos tp) hS2 o).1 hv
  obtain ⟨hA, hB⟩ := endScan_spec (fun tp => tp.x_position)
    (fun tp => isBoundaryStatus (tp.side_status_map.get o)) sorted p.x_position hsortlt
  have hge := endScan_ge (fun tp => tp.x_position)
    (fun tp => isBoundaryStatus (tp.side_status_map.get o)) sorted p.x_position
  rw [← hMDef] at hA hB hge
  refine ⟨M, ?_, hge, ?_, ?_⟩
  · rw [hMDef, hsortedDef, hkeptDef]
    unfold get_end_position endScan
    rw [if_neg (by rcases ho with h | h <;> subst h <;> decide)]
  · intro j hj1 hj2
    by_cases hjp : j = p.x_position
    · rw [hjp]
      have hpe : ({ x_position := p.x_position, y_position := p.y_position } :
          Position) = p := rfl
      rw [hpe]
      exact hp
    · exact (hBiff j).1 (hA j (by omega) hj2)
  · intro hmem
    obtain ⟨tp, htp, hkey, hbd⟩ := (hBiff (M + 1)).2 hmem
    rw [hB tp htp hkey] at hbd
    cases hbd

theorem regionSideEq_orient_ne {a b : RegionSide} (h : a.orientation ≠ b.orientation) :
    regionSideEq a b = false := by
  unfold regionSideEq
  rw [if_pos h]

/-- The branch structure of `RegionSide::operator==` for LEFT/RIGHT sides. -/
theorem regionSideEq_ver (o : SideOrientation)
    (ho : o = SideOrientation.left ∨ o = SideOrientation.right)
    (p q ep eq' : Position) :
    regionSideEq ⟨o, p, ep⟩ ⟨o, q, eq'⟩ = true ↔
      ((q = p ∧ eq' = ep) ∨
       (q.x_position = p.x_position ∧
        ¬ (q.y_position < p.y_position ∧ eq'.y_position < p.y_position) ∧
        ¬ (q.y_position > ep.y_position ∧ eq'.y_position > ep.y_position))) := by
  unfold regionSideEq
  rw [if_neg (by simp)]
  by_cases h2 : q = p ∧ eq' = ep
  · rw [if_pos h2]
    simp [h2]
  · rw [if_neg h2, if_pos ho]
    by_cases h4 : q.x_position ≠ p.x_position
    · rw [if_pos h4]
      constructor
      · intro hcon
        cases hcon
      · rintro (⟨hqp, -⟩ | ⟨hx, -⟩)
        · exact absurd (by rw [hqp]) h4
        · exact absurd hx h4
    · rw [if_neg h4]
      by_cases h5 : q.y_position < p.y_position ∧ eq'.y_position < p.y_position
      · rw [if_pos h5]
        constructor
        · intro hcon
          cases hcon
        · rintro (hqp | ⟨-, hn5, -⟩)
          · exact absurd hqp h2
          · exact absurd h5 hn5
      · rw [if_neg h5]
        by_cases h6 : q.y_position > ep.y_position ∧ eq'.y_position > ep.y_position
        · rw [if_pos h6]
          constructor
          · intro hcon
            cases hcon
          · rintro (hqp | ⟨-, -, hn6⟩)
            · exact absurd hqp h2
            · exact absurd h6 hn6
        · rw [if_neg h6]
          exact ⟨fun _ => Or.inr ⟨not_ne_iff.1 h4, h5, h6⟩, fun _ => rfl⟩

/-- The branch structure of `RegionSide::operator==` for UPPER/LOWER sides. -/
theorem regionSideEq_hor (o : SideOrientation)
    (ho : o = SideOrientation.upper ∨ o = SideOrientation.lower)
    (p q ep eq' : Position) :
    regionSideEq ⟨o, p, ep⟩ ⟨o, q, eq'⟩ = true ↔
      ((q = p ∧ eq' = ep) ∨
       (q.y_position = p.y_position ∧
        ¬ (q.x_position < p.x_position ∧ eq'.x_position < p.x_position) ∧
        ¬ (q.x_position > ep.x_position ∧ eq'.x_position > ep.x_position))) := by
  unfold regionSideEq
  rw [if_neg (by simp)]
  by_cases h2 : q = p ∧ eq' = ep
  · rw [if_pos h2]
    simp [h2]
  · rw [if_neg h2, if_neg (by rcases ho with h | h <;> subst h <;> simp)]
    by_cases h4 : q.y_position ≠ p.y_position
    · rw [if_pos h4]
      constructor
      · intro hcon
        cases hcon
      · rintro (⟨hqp, -⟩ | ⟨hy, -⟩)
        · exact absurd (by rw [hqp]) h4
        · exact absurd hy h4
    · rw [if_neg h4]
      by_cases h5 : q.x_position < p.x_position ∧ eq'.x_position < p.x_position
      · rw [if_pos h5]
        constructor
        · intro hcon
          cases hcon
        · rintro (hqp | ⟨-, hn5, -⟩)
          · exact absurd hqp h2
          · exact absurd h5 hn5
      · rw [if_neg h5]
        by_cases h6 : q.x_position > ep.x_position ∧ eq'.x_position > ep.x_position
        · rw [if_pos h6]
          constructor
          · intro hcon
            cases hcon
          · rintro (hqp | ⟨-, -, hn6⟩)
            · exact absurd hqp h2
            · exact absurd h6 hn6
        · rw [if_neg h6]
          exact ⟨fun _ => Or.inr ⟨not_ne_iff.1 h4, h5, h6⟩, fun _ => rfl⟩

/-- The end position computed for a boundary cell is a run end. -/
theorem make_end_runEnd {g : Grid} {plant : Char} {seed : Position} {rs : RegionState}
    (hok : RegionOK g plant seed rs) (hseed : validCell g plant seed)
    (o : SideOrientation) {p : Position} (hp : p ∈ edgeSet (regionFinset rs) o) :
    get_end_position o p rs.traverse_positions ∈ runEndSet (regionFinset rs) o := by
  have hvh : (o = SideOrientation.left ∨ o = SideOrientation.right) ∨
      (o = SideOrientation.upper ∨ o = SideOrientation.lower) := by
    cases o <;> simp
  rcases hvh with ho | ho
  · obtain ⟨M, hend, hy, hseg, hstop⟩ := endpos_spec_ver hok hseed o ho hp
    rw [hend]
    unfold runEndSet
    rw [Finset.mem_filter]
    refine ⟨hseg M hy (le_refl M), ?_⟩
    rcases ho with h | h <;> subst h <;> exact hstop
  · obtain ⟨M, hend, hx, hseg, hstop⟩ := endpos_spec_hor hok hseed o ho hp
    rw [hend]
    unfold runEndSet
    rw [Finset.mem_filter]
    refine ⟨hseg M hx (le_refl M), ?_⟩
    rcases ho with h | h <;> subst h <;> exact hstop

/-- A run end is its own computed end position. -/
theorem runEnd_fixed {g : Grid} {plant : Char} {seed : Position} {rs : RegionState}
    (hok : RegionOK g plant seed rs) (hseed : validCell g plant seed)
    (o : SideOrientation) {e : Position}
    (he : e ∈ runEndSet (regionFinset rs) o) :
    get_end_position o e rs.traverse_positions = e := by
  have hedge : e ∈ edgeSet (regionFinset rs) o := by
    unfold runEndSet at he
    exact (Finset.mem_filter.1 he).1
  have hnext : nbrPos (alongDir o) e ∉ edgeSet (regionFinset rs) o := by
    unfold runEndSet at he
    exact (Finset.mem_filter.1 he).2
  have hvh : (o = SideOrientation.left ∨ o = SideOrientation.right) ∨
      (o = SideOrientation.upper ∨ o = SideOrientation.lower) := by
    cases o <;> simp
  rcases hvh with ho | ho
  · obtain ⟨M, hend, hy, hseg, hstop⟩ := endpos_spec_ver hok hseed o ho hedge
    have hM : M = e.y_position := by
      by_contra hne
      have hlt : e.y_position < M := lt_of_le_of_ne hy fun h => hne h.symm
      have hin := hseg (e.y_position + 1) (by omega) (by omega)
      apply hnext
      rcases ho with h | h <;> subst h <;> exact hin
    rw [hend, hM]
  · obtain ⟨M, hend, hx, hseg, hstop⟩ := endpos_spec_hor hok hseed o ho hedge
    have hM : M = e.x_position := by
      by_contra hne
      have hlt : e.x_position < M := lt_of_le_of_ne hx fun h => hne h.symm
      have hin := hseg (e.x_position + 1) (by omega) (by omega)
      apply hnext
      rcases ho with h | h <;> subst h <;> exact hin
    rw [hend, hM]

/-- Two candidate sides of the same orientation compare equal exactly when
their computed end positions agree. -/
theorem make_eq_iff {g : Grid} {plant : Char} {seed : Position} {rs : RegionState}
    (hok : RegionOK g plant seed rs) (hseed : validCell g plant seed)
    (o : SideOrientation) {p q : Position}
    (hp : p ∈ edgeSet (regionFinset rs) o) (hq : q ∈ edgeSet (regionFinset rs) o) :
    (regionSideEq (RegionSide.make o p rs.traverse_positions)
        (RegionSide.make o q rs.traverse_positions) = true) ↔
      get_end_position o p rs.traverse_positions =
        get_end_position o q rs.traverse_positions := by
  have hvh : (o = SideOrientation.left ∨ o = SideOrientation.right) ∨
      (o = SideOrientation.upper ∨ o = SideOrientation.lower) := by
    cases o <;> simp
  rcases hvh with ho | ho
  · obtain ⟨Mp, hPend, hPy, hPseg, hPstop⟩ := endpos_spec_ver hok hseed o ho hp
    obtain ⟨Mq, hQend, hQy, hQseg, hQstop⟩ := endpos_spec_ver hok hseed o ho hq
    have hmkp : RegionSide.make o p rs.traverse_positions =
        ⟨o, p, ⟨p.x_position, Mp⟩⟩ := by
      unfold RegionSide.make
      rw [hPend]
    have hmkq : RegionSide.make o q rs.traverse_positions =
        ⟨o, q, ⟨q.x_position, Mq⟩⟩ := by
      unfold RegionSide.make
      rw [hQend]
    rw [hmkp, hmkq, hPend, hQend,
      regionSideEq_ver o ho p q ⟨p.x_position, Mp⟩ ⟨q.x_position, Mq⟩]
    dsimp only
    constructor
    · rintro (⟨rfl, hee⟩ | ⟨hx, h5, h6⟩)
      · exact hee.symm
      · have hQseg' : ∀ j : Int, q.y_position ≤ j → j ≤ Mq →
            ({ x_position := p.x_position, y_position := j } : Position) ∈
              edgeSet (regionFinset rs) o := by
          intro j h1 h2
          have hj := hQseg j h1 h2
          rw [hx] at hj
          exact hj
        have hQstop' : ({ x_position := p.x_position, y_position := Mq + 1 } :
            Position) ∉ edgeSet (regionFinset rs) o := by
          rw [← hx]
          exact hQstop
        have hMz : Mp = Mq :=
          (sideEq_core (fun j =>
            ({ x_position := p.x_position, y_position := j } : Position) ∈
              edgeSet (regionFinset rs) o)
            hPseg hPstop hPy hQseg' hQstop' hQy).1 ⟨h5, h6⟩
        rw [hx, hMz]
    · intro hee
      rw [Position.mk.injEq] at hee
      refine Or.inr ⟨hee.1.symm, ?_, ?_⟩
      · rintro ⟨-, hc⟩
        have h1 := hee.2
        omega
      · rintro ⟨hc, -⟩
        have h1 := hee.2
        omega
  · obtain ⟨Mp, hPend, hPx, hPseg, hPstop⟩ := endpos_spec_hor hok hseed o ho hp
    obtain ⟨Mq, hQend, hQx, hQseg, hQstop⟩ := endpos_spec_hor hok hseed o ho hq
    have hmkp : RegionSide.make o p rs.traverse_positions =
        ⟨o, p, ⟨Mp, p.y_position⟩⟩ := by
      unfold RegionSide.make
      rw [hPend]
    have hmkq : RegionSide.make o q rs.traverse_positions =
        ⟨o, q, ⟨Mq, q.y_position⟩⟩ := by
      unfold RegionSide.make
      rw [hQend]
    rw [hmkp, hmkq, hPend, hQend,
      regionSideEq_hor o ho p q ⟨Mp, p.y_position⟩ ⟨Mq, q.y_position⟩]
    dsimp only
    constructor
    · rintro (⟨rfl, hee⟩ | ⟨hy, h5, h6⟩)
      · exact hee.symm
      · have hQseg' : ∀ j : Int, q.x_position ≤ j → j ≤ Mq →
            ({ x_position := j, y_position := p.y_position } : Position) ∈
              edgeSet (regionFinset rs) o := by
          intro j h1 h2
          have hj := hQseg j h1 h2
          rw [hy] at hj
          exact hj
        have hQstop' : ({ x_position := Mq + 1, y_position := p.y_position } :
            Position) ∉ edgeSet (regionFinset rs) o := by
          rw [← hy]
          exact hQstop
        have hMz : Mp = Mq :=
          (sideEq_core (fun j =>
            ({ x_position := j, y_position := p.y_position } : Position) ∈
              edgeSet (regionFinset rs) o)
            hPseg hPstop hPx hQseg' hQstop' hQx).1 ⟨h5, h6⟩
        rw [hy, hMz]
    · intro hee
      rw [Position.mk.injEq] at hee
      refine Or.inr ⟨hee.2.symm, ?_, ?_⟩
      · rintro ⟨-, hc⟩
        have h1 := hee.1
        omega
      · rintro ⟨hc, -⟩
        have h1 := hee.1
        omega

theorem mem_orientations (o : SideOrientation) : o ∈ orientations := by
  cases o <;> simp [orientations]

/-- A region side is generated by the scan exactly when it is the
constructed side of a boundary cell. -/
theorem mem_sideCandidates {g : Grid} {plant : Char} {seed : Position}
    {rs : RegionState} (hok : RegionOK g plant seed rs)
    (hseed : validCell g plant seed) {c : RegionSide} :
    c ∈ sideCandidates rs.traverse_positions ↔
      ∃ o, ∃ p, p ∈ edgeSet (regionFinset rs) o ∧
        c = RegionSide.make o p rs.traverse_positions := by
  have hclosed := (regionFinset_valid_closed hok hseed).2
  have hstored : ∀ tp ∈ rs.traverse_positions, StoredOK plant g tp := hok.2.2.1
  unfold sideCandidates
  rw [List.mem_flatMap]
  constructor
  · rintro ⟨tp, htp, hc⟩
    rw [List.mem_map] at hc
    obtain ⟨o, ho, hco⟩ := hc
    rw [List.mem_filter] at ho
    have hpS : tpPos tp ∈ regionFinset rs := by
      unfold regionFinset
      exact List.mem_toFinset.2 (List.mem_map_of_mem tpPos htp)
    have hnv := (storedOK_boundary_iff (hstored tp htp) o).1 ho.2
    refine ⟨o, tpPos tp, ?_, ?_⟩
    · unfold edgeSet
      rw [Finset.mem_filter]
      exact ⟨hpS, fun hmem => hnv ((hclosed (tpPos tp) hpS o).2 hmem)⟩
    · exact hco.symm
  · rintro ⟨o, p, hedge, rfl⟩
    unfold edgeSet at hedge
    rw [Finset.mem_filter] at hedge
    obtain ⟨hpS, hnb⟩ := hedge
    have hc : p ∈ regionCoords rs := by
      unfold regionFinset at hpS
      exact List.mem_toFinset.1 hpS
    unfold regionCoords at hc
    rw [List.mem_map] at hc
    obtain ⟨tp, htp, htpp⟩ := hc
    refine ⟨tp, htp, ?_⟩
    rw [List.mem_map]
    refine ⟨o, ?_, ?_⟩
    · rw [List.mem_filter]
      refine ⟨mem_orientations o, ?_⟩
      rw [storedOK_boundary_iff (hstored tp htp) o]
      intro hv
      apply hnb
      rw [← htpp]
      have hS2 : tpPos tp ∈ regionFinset rs := by
        rw [htpp]
        exact hpS
      exact (hclosed (tpPos tp) hS2 o).1 hv
    · rw [← htpp]
      rfl

/-- On the generated candidates, side comparison is equivalent to equality of
the (orientation, end position) key. -/
theorem cand_rel {g : Grid} {plant : Char} {seed : Position} {rs : RegionState}
    (hok : RegionOK g plant seed rs) (hseed : validCell g plant seed) :
    ∀ a ∈ sideCandidates rs.traverse_positions,
      ∀ b ∈ sideCandidates rs.traverse_positions,
        (regionSideEq a b = true ↔ sideKey a = sideKey b) := by
  intro a ha b hb
  obtain ⟨o1, p1, hp1, rfl⟩ := (mem_sideCandidates hok hseed).1 ha
  obtain ⟨o2, p2, hp2, rfl⟩ := (mem_sideCandidates hok hseed).1 hb
  by_cases ho : o1 = o2
  · subst ho
    rw [make_eq_iff hok hseed o1 hp1 hp2]
    unfold sideKey RegionSide.make
    dsimp only
    rw [Prod.mk.injEq]
    simp
  · constructor
    · intro h
      rw [regionSideEq_orient_ne ho] at h
      cases h
    · intro hk
      exact absurd (congrArg Prod.fst hk) ho

/-- The key set of the candidates is the tagged union of the run-end sets. -/
theorem cand_keys_eq {g : Grid} {plant : Char} {seed : Position} {rs : RegionState}
    (hok : RegionOK g plant seed rs) (hseed : validCell g plant seed) :
    ((sideCandidates rs.traverse_positions).map sideKey).toFinset =
      (Finset.univ : Finset SideOrientation).biUnion
        fun o => (runEndSet (regionFinset rs) o).image fun e => (o, e) := by
  ext k
  rw [List.mem_toFinset, List.mem_map, Finset.mem_biUnion]
  constructor
  · rintro ⟨c, hc, rfl⟩
    obtain ⟨o, p, hedge, rfl⟩ := (mem_sideCandidates hok hseed).1 hc
    refine ⟨o, Finset.mem_univ o, ?_⟩
    rw [Finset.mem_image]
    exact ⟨get_end_position o p rs.traverse_positions,
      make_end_runEnd hok hseed o hedge, rfl⟩
  · rintro ⟨o, -, hk⟩
    rw [Finset.mem_image] at hk
    obtain ⟨e, he, rfl⟩ := hk
    have hedge : e ∈ edgeSet (regionFinset rs) o := by
      unfold runEndSet at he
      exact (Finset.mem_filter.1 he).1
    refine ⟨RegionSide.make o e rs.traverse_positions,
      (mem_sideCandidates hok hseed).2 ⟨o, e, hedge, rfl⟩, ?_⟩
    unfold sideKey RegionSide.make
    dsimp only
    rw [runEnd_fixed hok hseed o he]

theorem biUnion_runEnds_card (S : Finset Position) :
    ((Finset.univ : Finset SideOrientation).biUnion
      fun o => (runEndSet S o).image fun e => (o, e)).card =
      (runEndSet S SideOrientation.upper).card +
      (runEndSet S SideOrientation.lower).card +
      (runEndSet S SideOrientation.left).card +
      (runEndSet S SideOrientation.right).card := by
  rw [Finset.card_biUnion]
  · have himg : ∀ o : SideOrientation,
        ((runEndSet S o).image fun e => (o, e)).card = (runEndSet S o).card :=
      fun o => Finset.card_image_of_injective _ fun a b h => congrArg Prod.snd h
    rw [sum_univ_orientations fun o => ((runEndSet S o).image fun e => (o, e)).card,
      himg, himg, himg, himg]
  · intro x _ y _ hxy
    rw [Finset.disjoint_left]
    rintro k hk1 hk2
    rw [Finset.mem_image] at hk1 hk2
    obtain ⟨e1, -, rfl⟩ := hk1
    obtain ⟨e2, -, hk⟩ := hk2
    exact hxy (congrArg Prod.fst hk).symm

/-- `get_num_of_region_sides` of a well-formed region counts exactly the
maximal boundary runs of its cell set. -/
theorem sides_eq_runEnds {g : Grid} {plant : Char} {seed : Position}
    {rs : RegionState} (hok : RegionOK g plant seed rs)
    (hseed : validCell g plant seed) :
    get_num_of_region_sides rs =
      (runEndSet (regionFinset rs) SideOrientation.upper).card +
      (runEndSet (regionFinset rs) SideOrientation.lower).card +
      (runEndSet (regionFinset rs) SideOrientation.left).card +
      (runEndSet (regionFinset rs) SideOrientation.right).card := by
  have hne : rs.traverse_positions ≠ [] := by
    have hseedmem : seed ∈ regionCoords rs := (hok.2.1 seed).2 (Reach.refl seed)
    intro hnil
    unfold regionCoords at hseedmem
    rw [hnil] at hseedmem
    cases hseedmem
  rw [num_sides_eq_dedup rs hne]
  unfold dedupSides
  obtain ⟨hkeys, hnodup⟩ := insertScan_spec (sideCandidates rs.traverse_positions) []
    (fun a _ b hb => absurd hb (List.not_mem_nil b))
    (cand_rel hok hseed) (by simp)
  have hlen2 : ((sideCandidates rs.traverse_positions).foldl insertSide []).length =
      (((sideCandidates rs.traverse_positions).foldl insertSide []).map
        sideKey).toFinset.card := by
    rw [List.toFinset_card_of_nodup hnodup, List.length_map]
  rw [hlen2, hkeys,
    show (([] : List RegionSide).map sideKey).toFinset = ∅ from rfl,
    Finset.empty_union, cand_keys_eq hok hseed, biUnion_runEnds_card]

/-- A well-formed region's side count is even and at least four. -/
theorem region_sides_even_ge4 {g : Grid} {plant : Char} {seed : Position}
    {rs : RegionState} (hok : RegionOK g plant seed rs)
    (hseed : validCell g plant seed) :
    Even (get_num_of_region_sides rs) ∧ 4 ≤ get_num_of_region_sides rs := by
  have hS : (regionFinset rs).Nonempty := ⟨seed, by
    unfold regionFinset
    exact List.mem_toFinset.2 ((hok.2.1 seed).2 (Reach.refl seed))⟩
  constructor
  · rw [sides_eq_runEnds hok hseed]
    exact runEnd_total_even (regionFinset rs)
  · rw [sides_eq_runEnds hok hseed]
    exact runEnd_total_ge4 (regionFinset rs) hS

theorem regionFinset_card_eq_area {g : Grid} {plant : Char} {seed : Position}
    {rs : RegionState} (hok : RegionOK g plant seed rs) :
    (regionFinset rs).card = get_area rs := by
  unfold regionFinset get_area
  rw [List.toFinset_card_of_nodup hok.1]
  unfold regionCoords
  rw [List.length_map]

/-- The observable outcome of region construction does not depend on the
direction iteration order, as long as every direction is explored: the cell
set, area, perimeter and side count agree. -/
theorem region_order_eq {g : Grid} (hg : Rect g) {ord1 ord2 : List SideOrientation}
    (hcov1 : ∀ o, o ∈ ord1) (hcov2 : ∀ o, o ∈ ord2) {r c : Int}
    (hin : inBoundsPos g ⟨c, r⟩) :
    regionFinset (buildRegion ord1 g r c) = regionFinset (buildRegion ord2 g r c) ∧
    get_area (buildRegion ord1 g r c) = get_area (buildRegion ord2 g r c) ∧
    get_perimeter (buildRegion ord1 g r c) = get_perimeter (buildRegion ord2 g r c) ∧
    get_num_of_region_sides (buildRegion ord1 g r c) =
      get_num_of_region_sides (buildRegion ord2 g r c) := by
  have hok1 := buildRegion_ok hg ord1 hcov1 hin
  have hok2 := buildRegion_ok hg ord2 hcov2 hin
  have hseed : validCell g (cellAt g r c) ⟨c, r⟩ := ⟨hin, rfl⟩
  have hfin : regionFinset (buildRegion ord1 g r c) =
      regionFinset (buildRegion ord2 g r c) := by
    ext p
    unfold regionFinset
    rw [List.mem_toFinset, List.mem_toFinset, hok1.2.1 p, hok2.2.1 p]
  refine ⟨hfin, ?_, ?_, ?_⟩
  · rw [← regionFinset_card_eq_area hok1, ← regionFinset_card_eq_area hok2, hfin]
  · rw [perimeter_eq_sum hok1, perimeter_eq_sum hok2, hfin]
  · rw [sides_eq_runEnds hok1 hseed, sides_eq_runEnds hok2 hseed, hfin]

theorem region_price_eq {rs1 rs2 : RegionState}
    (hemp : rs1.traverse_positions.isEmpty = rs2.traverse_positions.isEmpty)
    (ha : get_area rs1 = get_area rs2)
    (hp : get_perimeter rs1 = get_perimeter rs2)
    (hs : get_num_of_region_sides rs1 = get_num_of_region_sides rs2) (w : Bool) :
    region_get_fence_pricing w rs1 = region_get_fence_pricing w rs2 := by
  unfold region_get_fence_pricing
  rw [hemp, ha, hp, hs]

/-- The pairing carried through the two gardener runs: the two regions hold
the same cell set and the same fence prices in both modes. -/
def RegionPair (r1 r2 : RegionState) : Prop :=
  regionFinset r1 = regionFinset r2 ∧
  region_get_fence_pricing false r1 = region_get_fence_pricing false r2 ∧
  region_get_fence_pricing true r1 = region_get_fence_pricing true r2

theorem isEmpty_eq_of_area {rs1 rs2 : RegionState}
    (ha : get_area rs1 = get_area rs2) :
    rs1.traverse_positions.isEmpty = rs2.traverse_positions.isEmpty := by
  unfold get_area at ha
  cases h1 : rs1.traverse_positions with
  | nil =>
    rw [h1] at ha
    cases h2 : rs2.traverse_positions with
    | nil => rfl
    | cons b l2 =>
      rw [h2] at ha
      simp at ha
  | cons a l1 =>
    rw [h1] at ha
    cases h2 : rs2.traverse_positions with
    | nil =>
      rw [h2] at ha
      simp at ha
    | cons b l2 => rfl

theorem region_pair_build {g : Grid} (hg : Rect g) {ord1 ord2 : List SideOrientation}
    (hcov1 : ∀ o, o ∈ ord1) (hcov2 : ∀ o, o ∈ ord2) {r c : Int}
    (hin : inBoundsPos g ⟨c, r⟩) :
    RegionPair (buildRegion ord1 g r c) (buildRegion ord2 g r c) := by
  obtain ⟨hfin, ha, hp, hs⟩ := region_order_eq hg hcov1 hcov2 hin
  exact ⟨hfin, region_price_eq (isEmpty_eq_of_area ha) ha hp hs false,
    region_price_eq (isEmpty_eq_of_area ha) ha hp hs true⟩

/-- The two gardener folds stay synchronised: same visited set and paired
regions. -/
theorem gardener_order_eq {g : Grid} (hg : Rect g) {ord1 ord2 : List SideOrientation}
    (hcov1 : ∀ o, o ∈ ord1) (hcov2 : ∀ o, o ∈ ord2) :
    ∀ (cells : List (Int × Int)) (gs1 gs2 : GardenerState),
      (∀ rc ∈ cells, inBoundsPos g ⟨rc.2, rc.1⟩) →
      (∀ p, p ∈ gs1.visited_garden_plots ↔ p ∈ gs2.visited_garden_plots) →
      List.Forall₂ RegionPair gs1.regions gs2.regions →
      (∀ p, p ∈ (cells.foldl (gardenerStep ord1 g) gs1).visited_garden_plots ↔
        p ∈ (cells.foldl (gardenerStep ord2 g) gs2).visited_garden_plots) ∧
      List.Forall₂ RegionPair (cells.foldl (gardenerStep ord1 g) gs1).regions
        (cells.foldl (gardenerStep ord2 g) gs2).regions := by
  intro cells
  induction cells with
  | nil =>
    intro gs1 gs2 _ hvis hreg
    exact ⟨hvis, hreg⟩
  | cons rc rest ih =>
    intro gs1 gs2 hbnd hvis hreg
    rw [List.foldl_cons, List.foldl_cons]
    have hbrc := hbnd rc (List.mem_cons_self rc rest)
    have hvb : isVisited gs1.visited_garden_plots rc.1 rc.2 =
        isVisited gs2.visited_garden_plots rc.1 rc.2 :=
      boolEqOfIff ((isVisited_iff _ _ _).trans
        ((hvis _).trans (isVisited_iff _ _ _).symm))
    by_cases hv : isVisited gs1.visited_garden_plots rc.1 rc.2 = true
    · have hstep1 : gardenerStep ord1 g gs1 rc = gs1 := by
        unfold gardenerStep
        rw [if_pos hv]
      have hstep2 : gardenerStep ord2 g gs2 rc = gs2 := by
        unfold gardenerStep
        rw [if_pos (hvb ▸ hv)]
      rw [hstep1, hstep2]
      exact ih gs1 gs2 (fun x hx => hbnd x (List.mem_cons_of_mem rc hx)) hvis hreg
    · have hpair := region_pair_build hg hcov1 hcov2 (r := rc.1) (c := rc.2) hbrc
      have hstep1 : gardenerStep ord1 g gs1 rc =
          { visited_garden_plots :=
              (buildRegion ord1 g rc.1 rc.2).traverse_positions.foldl
                (fun v tp => (⟨tp.x_position, tp.y_position⟩ : Position) :: v)
                (⟨rc.2, rc.1⟩ :: gs1.visited_garden_plots),
            regions := gs1.regions ++ [buildRegion ord1 g rc.1 rc.2] } := by
        unfold gardenerStep
        rw [if_neg hv]
      have hstep2 : gardenerStep ord2 g gs2 rc =
          { visited_garden_plots :=
              (buildRegion ord2 g rc.1 rc.2).traverse_positions.foldl
                (fun v tp => (⟨tp.x_position, tp.y_position⟩ : Position) :: v)
                (⟨rc.2, rc.1⟩ :: gs2.visited_garden_plots),
            regions := gs2.regions ++ [buildRegion ord2 g rc.1 rc.2] } := by
        unfold gardenerStep
        rw [if_neg (hvb ▸ hv)]
      rw [hstep1, hstep2]
      refine ih _ _ (fun x hx => hbnd x (List.mem_cons_of_mem rc hx)) ?_ ?_
      · intro p
        rw [mem_visFold, mem_visFold, List.mem_cons, List.mem_cons, hvis p]
        have hcoe : p ∈ (buildRegion ord1 g rc.1 rc.2).traverse_positions.map tpPos ↔
            p ∈ (buildRegion ord2 g rc.1 rc.2).traverse_positions.map tpPos := by
          have h1 : p ∈ (buildRegion ord1 g rc.1 rc.2).traverse_positions.map tpPos ↔
              p ∈ regionFinset (buildRegion ord1 g rc.1 rc.2) := by
            unfold regionFinset regionCoords
            rw [List.mem_toFinset]
          have h2 : p ∈ (buildRegion ord2 g rc.1 rc.2).traverse_positions.map tpPos ↔
              p ∈ regionFinset (buildRegion ord2 g rc.1 rc.2) := by
            unfold regionFinset regionCoords
            rw [List.mem_toFinset]
          rw [h1, h2, hpair.1]
        rw [hcoe]
      · exact List.rel_append hreg (List.Forall₂.cons hpair List.Forall₂.nil)

theorem foldl_price_eq (w : Bool) :
    ∀ {l1 l2 : List RegionState}, List.Forall₂ RegionPair l1 l2 →
      l1.foldl (fun acc r => acc + region_get_fence_pricing w r) 0 =
        l2.foldl (fun acc r => acc + region_get_fence_pricing w r) 0 := by
  intro l1 l2 h
  rw [foldl_add_eq_sum, foldl_add_eq_sum]
  have hmap : l1.map (region_get_fence_pricing w) = l2.map (region_get_fence_pricing w) := by
    induction h with
    | nil => rfl
    | cons hab hrest ih =>
      rw [List.map_cons, List.map_cons, ih]
      cases w
      · rw [hab.2.1]
      · rw [hab.2.2]
  rw [hmap]

/-- The total fence price does not depend on the direction iteration order
used during the region traversals. -/
theorem get_fence_pricing_order_eq {g : Grid} (hg : Rect g)
    {ord1 ord2 : List SideOrientation}
    (hcov1 : ∀ o, o ∈ ord1) (hcov2 : ∀ o, o ∈ ord2) (w : Bool) :
    get_fence_pricing ord1 w g = get_fence_pricing ord2 w g := by
  unfold get_fence_pricing find_garden_groups
  have hbnd : ∀ rc ∈ gardenCellList g, inBoundsPos g ⟨rc.2, rc.1⟩ := by
    intro rc hrc
    exact (mem_allCellsList hg).1 (List.mem_map_of_mem _ hrc)
  obtain ⟨-, hreg⟩ := gardener_order_eq hg hcov1 hcov2 (gardenCellList g)
    ⟨[], []⟩ ⟨[], []⟩ hbnd (fun p => Iff.rfl) List.Forall₂.nil
  exact foldl_price_eq w hreg

/-- On sides whose start does not exceed their end in either coordinate,
`RegionSide::operator==` is symmetric. -/
theorem regionSideEq_symm (a b : RegionSide)
    (ha1 : a.start_position.y_position ≤ a.end_position.y_position)
    (ha2 : a.start_position.x_position ≤ a.end_position.x_position)
    (hb1 : b.start_position.y_position ≤ b.end_position.y_position)
    (hb2 : b.start_position.x_position ≤ b.end_position.x_position) :
    regionSideEq a b = regionSideEq b a := by
  rcases a with ⟨o1, as', ae⟩
  rcases b with ⟨o2, bs, be⟩
  dsimp only at ha1 ha2 hb1 hb2
  by_cases ho : o1 = o2
  · subst ho
    have hvh : (o1 = SideOrientation.left ∨ o1 = SideOrientation.right) ∨
        (o1 = SideOrientation.upper ∨ o1 = SideOrientation.lower) := by
      cases o1 <;> simp
    apply boolEqOfIff
    rcases hvh with hv | hv
    · rw [regionSideEq_ver o1 hv as' bs ae be, regionSideEq_ver o1 hv bs as' be ae]
      constructor
      · rintro (⟨h1, h2⟩ | ⟨hx, h1, h2⟩)
        · exact Or.inl ⟨h1.symm, h2.symm⟩
        · refine Or.inr ⟨hx.symm, ?_, ?_⟩
          · rcases not_and_or.1 h2 with h | h <;>
              · rintro ⟨hc1, hc2⟩
                omega
          · rcases not_and_or.1 h1 with h | h <;>
              · rintro ⟨hc1, hc2⟩
                omega
      · rintro (⟨h1, h2⟩ | ⟨hx, h1, h2⟩)
        · exact Or.inl ⟨h1.symm, h2.symm⟩
        · refine Or.inr ⟨hx.symm, ?_, ?_⟩
          · rcases not_and_or.1 h2 with h | h <;>
              · rintro ⟨hc1, hc2⟩
                omega
          · rcases not_and_or.1 h1 with h | h <;>
              · rintro ⟨hc1, hc2⟩
                omega
    · rw [regionSideEq_hor o1 hv as' bs ae be, regionSideEq_hor o1 hv bs as' be ae]
      constructor
      · rintro (⟨h1, h2⟩ | ⟨hy, h1, h2⟩)
        · exact Or.inl ⟨h1.symm, h2.symm⟩
        · refine Or.inr ⟨hy.symm, ?_, ?_⟩
          · rcases not_and_or.1 h2 with h | h <;>
              · rintro ⟨hc1, hc2⟩
                omega
          · rcases not_and_or.1 h1 with h | h <;>
              · rintro ⟨hc1, hc2⟩
                omega
      · rintro (⟨h1, h2⟩ | ⟨hy, h1, h2⟩)
        · exact Or.inl ⟨h1.symm, h2.symm⟩
        · refine Or.inr ⟨hy.symm, ?_, ?_⟩
          · rcases not_and_or.1 h2 with h | h <;>
              · rintro ⟨hc1, hc2⟩
                omega
          · rcases not_and_or.1 h1 with h | h <;>
              · rintro ⟨hc1, hc2⟩
                omega
  · rw [regionSideEq_orient_ne (a := ⟨o1, as', ae⟩) (b := ⟨o2, bs, be⟩) ho,
      regionSideEq_orient_ne (a := ⟨o2, bs, be⟩) (b := ⟨o1, as', ae⟩)
        fun h => ho h.symm]

/-! ### The claims -/

/-- Claim C1: for every rectangular grid, the regions produced by
`find_garden_groups` are pairwise disjoint, every in-bounds cell belongs to
exactly one region, and the region areas sum to rows * cols. -/
theorem C1_regions_partition (g : Grid) (ord : List SideOrientation)
    (hg : Rect g) (hcov : ∀ o : SideOrientation, o ∈ ord) :
    (∀ p, inBoundsPos g p ↔ ∃ rs ∈ find_garden_groups ord g, p ∈ regionCoords rs) ∧
    List.Pairwise (fun r1 r2 => ∀ p, p ∈ regionCoords r1 → p ∉ regionCoords r2)
      (find_garden_groups ord g) ∧
    ((find_garden_groups ord g).map get_area).sum =
      g.length * (g.headD []).length := by
  obtain ⟨-, hdisj, hcover⟩ := find_garden_groups_ok hg hcov
  exact ⟨hcover, hdisj, sum_areas_eq hg hcov⟩

theorem C1_regions_partition_witness :
    Rect gridAA ∧
    ((find_garden_groups orientations gridAA).map get_area).sum =
      gridAA.length * (gridAA.headD []).length :=
  ⟨by decide, (C1_regions_partition gridAA orientations (by decide) (by decide)).2.2⟩

set_option maxRecDepth 10000 in
/-- Claim C2: the total fence price of the 4x4 grid AAAA/BBCD/BBCC/EEEC in
perimeter mode is 140. -/
theorem C2_price_perimeter_140 :
    get_fence_pricing orientations false gridA4 = 140 := by
  decide

set_option maxRecDepth 10000 in
/-- Claim C3: the total fence price of the 6x6 grid with two enclosed 2x2 B
blocks inside an A region, in side-counting mode, is 368. -/
theorem C3_price_sides_368 :
    get_fence_pricing orientations true gridAB6 = 368 := by
  decide

/-- Claim C4: the status recorded at entry for each direction is
OUT_OF_BOUNDS iff the neighbour lies outside the grid, otherwise
ADJACENT_TO_OTHER_PLANT_TYPE iff its label differs, otherwise VISITED iff it
was already marked visited, otherwise AVAILABLE; a pure function of the grid,
the visited set and the coordinate, exactly as `statusSpec` words it. -/
theorem C4_entry_classification (plant : Char) (g : Grid) (v : List Position)
    (p : Position) (hp : inBoundsPos g p) (o : SideOrientation) :
    (update_side_status plant g v p.x_position p.y_position).get o =
      statusSpec plant g v p o :=
  entry_status plant g v p hp o

theorem C4_entry_classification_witness :
    inBoundsPos gridAA ⟨0, 0⟩ ∧
    (update_side_status 'A' gridAA [] (⟨0, 0⟩ : Position).x_position
        (⟨0, 0⟩ : Position).y_position).get SideOrientation.right =
      statusSpec 'A' gridAA [] ⟨0, 0⟩ SideOrientation.right :=
  ⟨by decide,
    C4_entry_classification 'A' gridAA [] ⟨0, 0⟩ (by decide) SideOrientation.right⟩

/-- Claim C5, amended: after region construction the stored classification of
a member cell marks a direction AVAILABLE or VISITED exactly when the
neighbour through it is a same-plant in-grid cell; contrary to the claim,
AVAILABLE entries can persist in the finalized region (see the
counterexample), because each snapshot is pushed by value before the
traversal overwrites the entries of its local copy. -/
theorem C5_statuses_amended (g : Grid) (ord : List SideOrientation) (r c : Int)
    (hg : Rect g) (hcov : ∀ o : SideOrientation, o ∈ ord)
    (hin : inBoundsPos g ⟨c, r⟩) :
    ∀ tp ∈ (buildRegion ord g r c).traverse_positions, ∀ o : SideOrientation,
      (validCell g (cellAt g r c) (nbrPos o (tpPos tp)) ↔
        (tp.side_status_map.get o = SideStatus.available ∨
         tp.side_status_map.get o = SideStatus.visited)) := by
  intro tp htp o
  exact (storedOK_valid_iff ((buildRegion_ok hg ord hcov hin).2.2.1 tp htp) o).symm

theorem C5_statuses_amended_witness :
    Rect gridAA ∧
    (∀ tp ∈ (buildRegion orientations gridAA 0 0).traverse_positions,
      ∀ o : SideOrientation,
        (validCell gridAA (cellAt gridAA 0 0) (nbrPos o (tpPos tp)) ↔
          (tp.side_status_map.get o = SideStatus.available ∨
           tp.side_status_map.get o = SideStatus.visited))) :=
  ⟨by decide,
    C5_statuses_amended gridAA orientations 0 0 (by decide) (by decide) (by decide)⟩

/-- Claim C5, counterexample to the original wording: in the one-row garden
AA, the stored snapshot of the seed cell keeps status AVAILABLE toward its
right neighbour even though that neighbour belongs to the same finalized
region. -/
theorem C5_available_persists :
    ∃ tp ∈ (buildRegion orientations gridAA 0 0).traverse_positions,
      tpPos tp = ⟨0, 0⟩ ∧
      (⟨1, 0⟩ : Position) ∈ regionCoords (buildRegion orientations gridAA 0 0) ∧
      tp.side_status_map.get SideOrientation.right = SideStatus.available := by
  decide

/-- Claim C6, amended: the observable region outcome (cell set, area,
perimeter, side count) and the total fence price in both modes are
independent of the direction iteration order, as long as every direction is
explored; contrary to the claim, the stored per-cell edge classifications do
depend on the order (see the counterexample). -/
theorem C6_order_independent_amended (g : Grid)
    (ord1 ord2 : List SideOrientation) (r c : Int) (w : Bool) (hg : Rect g)
    (hcov1 : ∀ o : SideOrientation, o ∈ ord1)
    (hcov2 : ∀ o : SideOrientation, o ∈ ord2)
    (hin : inBoundsPos g ⟨c, r⟩) :
    regionFinset (buildRegion ord1 g r c) = regionFinset (buildRegion ord2 g r c) ∧
    get_area (buildRegion ord1 g r c) = get_area (buildRegion ord2 g r c) ∧
    get_perimeter (buildRegion ord1 g r c) = get_perimeter (buildRegion ord2 g r c) ∧
    get_num_of_region_sides (buildRegion ord1 g r c) =
      get_num_of_region_sides (buildRegion ord2 g r c) ∧
    get_fence_pricing ord1 w g = get_fence_pricing ord2 w g := by
  obtain ⟨h1, h2, h3, h4⟩ := region_order_eq hg hcov1 hcov2 hin
  exact ⟨h1, h2, h3, h4, get_fence_pricing_order_eq hg hcov1 hcov2 w⟩

theorem C6_order_independent_witness :
    Rect gridA22 ∧
    get_fence_pricing orientations false gridA22 =
      get_fence_pricing ordURLD false gridA22 :=
  ⟨by decide,
    (C6_order_independent_amended gridA22 orientations ordURLD 0 0 false
      (by decide) (by decide) (by decide) (by decide)).2.2.2.2⟩

/-- Claim C6, counterexample to the original wording: on the 2x2 garden of
one plant, the depth-first order upper-lower-left-right and the order
upper-right-lower-left leave different VISITED/AVAILABLE classifications on
the same cell. -/
theorem C6_order_changes_statuses :
    ∃ tp1 ∈ (buildRegion orientations gridA22 0 0).traverse_positions,
      ∃ tp2 ∈ (buildRegion ordURLD gridA22 0 0).traverse_positions,
        tpPos tp1 = tpPos tp2 ∧
        tp1.side_status_map.get SideOrientation.lower ≠
          tp2.side_status_map.get SideOrientation.lower := by
  decide

/-- Claim C7: the perimeter of every region produced from a rectangular grid
is even. -/
theorem C7_region_perimeter_even (g : Grid) (ord : List SideOrientation)
    (r c : Int) (hg : Rect g) (hcov : ∀ o : SideOrientation, o ∈ ord)
    (hin : inBoundsPos g ⟨c, r⟩) :
    Even (get_perimeter (buildRegion ord g r c)) :=
  perimeter_even (buildRegion_ok hg ord hcov hin) ⟨hin, rfl⟩

theorem C7_region_perimeter_even_witness :
    Rect gridAA ∧ Even (get_perimeter (buildRegion orientations gridAA 0 0)) :=
  ⟨by decide,
    C7_region_perimeter_even gridAA orientations 0 0 (by decide) (by decide)
      (by decide)⟩

/-- Claim C8: the side count of every region produced from a rectangular grid
is even and at least 4. -/
theorem C8_region_sides_even_ge4 (g : Grid) (ord : List SideOrientation)
    (r c : Int) (hg : Rect g) (hcov : ∀ o : SideOrientation, o ∈ ord)
    (hin : inBoundsPos g ⟨c, r⟩) :
    Even (get_num_of_region_sides (buildRegion ord g r c)) ∧
      4 ≤ get_num_of_region_sides (buildRegion ord g r c) :=
  region_sides_even_ge4 (buildRegion_ok hg ord hcov hin) ⟨hin, rfl⟩

theorem C8_region_sides_even_ge4_witness :
    Rect gridAA ∧
    (Even (get_num_of_region_sides (buildRegion orientations gridAA 0 0)) ∧
      4 ≤ get_num_of_region_sides (buildRegion orientations gridAA 0 0)) :=
  ⟨by decide,
    C8_region_sides_even_ge4 gridAA orientations 0 0 (by decide) (by decide)
      (by decide)⟩

/-- Claim C9: in the embedding, which gives the out-of-bounds access
`garden[0]` of the source the total semantics of an empty row, partitioning
the empty grid yields no regions and the total price 0 in both modes; the
source itself has undefined behaviour on this input (see RESULTS). -/
theorem C9_empty_grid_behavior (ord : List SideOrientation) (w : Bool) :
    find_garden_groups ord ([] : Grid) = [] ∧
      get_fence_pricing ord w ([] : Grid) = 0 :=
  ⟨rfl, rfl⟩

/-- Claim C10: `RegionSide::operator==` is reflexive, and symmetric on sides
whose start does not exceed their end, but not transitive: a spanning LEFT
side on one column equals each of two separated runs that are unequal to each
other, and consequently the deduplicated count of `get_num_of_region_sides`
depends on the order in which candidates are examined. -/
theorem C10_sameside_relation :
    (∀ a : RegionSide, regionSideEq a a = true) ∧
    (∀ a b : RegionSide,
      a.start_position.y_position ≤ a.end_position.y_position →
      a.start_position.x_position ≤ a.end_position.x_position →
      b.start_position.y_position ≤ b.end_position.y_position →
      b.start_position.x_position ≤ b.end_position.x_position →
      regionSideEq a b = regionSideEq b a) ∧
    (regionSideEq ⟨SideOrientation.left, ⟨0, 0⟩, ⟨0, 0⟩⟩
        ⟨SideOrientation.left, ⟨0, 0⟩, ⟨0, 2⟩⟩ = true ∧
     regionSideEq ⟨SideOrientation.left, ⟨0, 0⟩, ⟨0, 2⟩⟩
        ⟨SideOrientation.left, ⟨0, 2⟩, ⟨0, 2⟩⟩ = true ∧
     regionSideEq ⟨SideOrientation.left, ⟨0, 0⟩, ⟨0, 0⟩⟩
        ⟨SideOrientation.left, ⟨0, 2⟩, ⟨0, 2⟩⟩ = false) ∧
    ((dedupSides [⟨SideOrientation.left, ⟨0, 0⟩, ⟨0, 0⟩⟩,
        ⟨SideOrientation.left, ⟨0, 2⟩, ⟨0, 2⟩⟩,
        ⟨SideOrientation.left, ⟨0, 0⟩, ⟨0, 2⟩⟩]).length = 2 ∧
     (dedupSides [⟨SideOrientation.left, ⟨0, 0⟩, ⟨0, 2⟩⟩,
        ⟨SideOrientation.left, ⟨0, 0⟩, ⟨0, 0⟩⟩,
        ⟨SideOrientation.left, ⟨0, 2⟩, ⟨0, 2⟩⟩]).length = 1) := by
  refine ⟨?_, ?_, by decide, by decide⟩
  · intro a
    unfold regionSideEq
    rw [if_neg (by simp), if_pos ⟨rfl, rfl⟩]
  · intro a b ha1 ha2 hb1 hb2
    exact regionSideEq_symm a b ha1 ha2 hb1 hb2

end GardenGroups
